import Mathlib

/-!
# MarkupBuilder: the Scanner and the containers

A shallow embedding of the tag scanner and of its attribute validator
(`src/Scanner/Scanner.c`), of the map and of the tree
(`src/DataStructure/HashMap/HashMap.c`, `src/DataStructure/Tree/Tree.c`), and
the properties of the specification that concern them.

## Modelling conventions: the scanner

* A C `char` is an `Int`. A file is the list of the `char` values that the
  successive `fgetc` calls yield before the end of the file (`char` is taken
  signed, as on x86, so the byte `0xFF` reads as `-1`, the value of `EOF`).
  Once the list is exhausted every further read yields `EOF`.
* The `int` line counter is a `Nat`; its overflow is not modelled.
* The global `TagStack` is a `List (List Int)` (head = top); `malloc` and
  `strdup` are assumed to succeed.
* `printf("Error at line %d\n", line); exit(1);` is the result `error line`.
* A store past the end of one of the fixed-size buffers (`tagName[100]`,
  `closingTagName[10000]`, `attributeName[MAX]`) is the result `undefined`. The
  loops that fill a buffer only read and store, so the bound is tested once
  the loop is left. `MAX` is defined in `Scanner.h`, which is not among the
  source files, and is a parameter.
* A loop over the input is a recursion on the file; the two loops that are
  not (the driver's and the validator's) count their iterations down from the
  length of their input plus one, and `outOfFuel` would mean that a loop is
  still running after that many.
* `isspace` is the one of the "C" locale.
* A C string argument is a `List Int`; reading at its end yields the
  terminating NUL.

## Modelling conventions: the containers

* A pointer is an `Option`, `none` being `NULL`. A procedure that writes
  through a pointer returns, next to its C return value, what the pointer
  points to afterwards.
* A NUL-terminated string held by a container is a `String`, `strcmp(a, b) == 0`
  being `a = b`; `strcpy` and `g_strdup` yield an equal string.
* A linked list is the `List` of its nodes, from the head on.
* Allocation is assumed to succeed, and the `int` field `size` is an `Int`:
  its overflow (a map of `INT_MAX` entries) is not modelled.
* A read through a `NULL` pointer is an invalid access: a procedure that can
  reach one returns an `Option`, `none` being the invalid access.
* `HashMapGetCopy` is declared in `HashMap.h` and defined nowhere in the
  sources; `TreeNew`, which calls it, is not modelled, and a tree is any value
  of the type `Tree`; `TreeUpdateNode`, which calls it too, takes it as a
  parameter.
* A node of a tree carries its address, by which pointers to nodes are
  compared. A write through the pointer that a search has returned yields the
  tree with the node the search stopped at replaced. The trees passed to a
  procedure share no node.
-/

namespace Scanner

/-- Outcome of a procedure of the scanner that can stop the process. -/
inductive Result (α : Type) where
  /-- normal return -/
  | ok : α → Result α
  /-- `printf("Error at line %d\n", line); exit(1);` -/
  | error : Nat → Result α
  /-- a store past the end of a fixed-size buffer -/
  | undefined : Result α
  /-- the recursion bound of the model was exhausted (a loop still running) -/
  | outOfFuel : Result α
  deriving DecidableEq, Repr

/-- Sequencing: the continuation runs only after a normal return. -/
def Result.bind {α β : Type} (r : Result α) (f : α → Result β) : Result β :=
  match r with
  | .ok a => f a
  | .error line => .error line
  | .undefined => .undefined
  | .outOfFuel => .outOfFuel

/-- The value of `EOF`, as stored in a `char`. -/
def EOF : Int := -1

/-- `readChar` (Scanner.c:10-14): next character, rest of the file, line counter. -/
def readChar (file : List Int) (line : Nat) : Int × List Int × Nat :=
  match file with
  | [] => (EOF, [], line)
  | c :: rest => (c, rest, if c = 10 then line + 1 else line)

/-- `isspace` of `<ctype.h>` in the "C" locale: space, `\t`, `\n`, `\v`, `\f`, `\r`. -/
def isspace (c : Int) : Int :=
  if c = 32 ∨ (9 ≤ c ∧ c ≤ 13) then 1 else 0

/-- `*ptr` for a pointer into a C string: the text is followed by its NUL. -/
def deref : List Int → Int
  | [] => 0
  | c :: _ => c

/-- `while (isspace(*ptr)) ptr++;` (Scanner.c:22, 31, 36). -/
def skipSpaces : List Int → List Int
  | [] => []
  | c :: rest => if isspace c ≠ 0 then skipSpaces rest else c :: rest

/-- `while (*ptr != '\0' && !isspace(*ptr) && *ptr != '=') ptr++;` (Scanner.c:27). -/
def skipName : List Int → List Int
  | [] => []
  | c :: rest => if c ≠ 0 ∧ isspace c = 0 ∧ c ≠ 61 then skipName rest else c :: rest

/-- The value loop (Scanner.c:43-46): `none` when it leaves by `return 0` on a
`<` or `>`, otherwise the pointer at which it stops. -/
def skipValue (delim : Int) : List Int → Option (List Int)
  | [] => some []
  | c :: rest =>
    if c ≠ delim ∧ c ≠ 0 then
      if c = 60 ∨ c = 62 then none else skipValue delim rest
    else some (c :: rest)

/-- The `while (1)` loop of `isValidAttributes` (Scanner.c:20-49), one iteration
per unit of fuel; `none` when the fuel is exhausted. -/
def isValidAttributesLoop : Nat → List Int → Option Int
  | 0, _ => none
  | fuel + 1, ptr =>
    let ptr := skipSpaces ptr
    if deref ptr = 0 then some 1
    else
      let attr_start := ptr
      let ptr := skipName ptr
      -- both point into the same text: equal pointers, equal remainders
      if attr_start.length = ptr.length then some 0
      else
        let ptr := skipSpaces ptr
        if deref ptr ≠ 61 then some 0
        else
          let ptr := skipSpaces ptr.tail
          let delim := deref ptr
          if delim ≠ 34 ∧ delim ≠ 39 then some 0
          else
            match skipValue delim ptr.tail with
            | none => some 0
            | some ptr =>
              if deref ptr ≠ delim then some 0
              else isValidAttributesLoop fuel ptr.tail

/-- `isValidAttributes` (Scanner.c:18-51). Every iteration of its loop that
does not return moves the pointer forward, so `length + 1` iterations are enough. -/
def isValidAttributes (text : List Int) : Option Int :=
  isValidAttributesLoop (text.length + 1) text

/-- `StackCreate` (Scanner.c:65-73). -/
def StackCreate : List (List Int) := []

/-- `StackIsEmpty` (Scanner.c:76-78). -/
def StackIsEmpty (stack : List (List Int)) : Bool :=
  match stack with
  | [] => true
  | _ :: _ => false

/-- `StackPush` (Scanner.c:81-97). -/
def StackPush (stack : List (List Int)) (str : List Int) : List (List Int) :=
  str :: stack

/-- `StackPop` (Scanner.c:100-112): the popped string (`none` for `NULL`) and
the stack afterwards. -/
def StackPop (stack : List (List Int)) : Option (List Int) × List (List Int) :=
  match stack with
  | [] => (none, [])
  | top :: next => (some top, next)

/-- `isWhiteSpace` (Scanner.c:114-120): space, newline, tab. -/
def isWhiteSpace (character : Int) : Int :=
  if character = 32 ∨ character = 10 ∨ character = 9 then 1 else 0

/-- `isLetter` (Scanner.c:122-127). -/
def isLetter (character : Int) : Int :=
  if (97 ≤ character ∧ character ≤ 122) ∨ (65 ≤ character ∧ character ≤ 90) then 1 else 0

/-- The caller's view of the input: `*character`, the file and `*line`. -/
structure Cursor where
  character : Int
  file : List Int
  line : Nat
  deriving DecidableEq, Repr

/-- `*character = readChar(file, line);`. -/
def advance (file : List Int) (line : Nat) : Cursor :=
  ⟨(readChar file line).1, (readChar file line).2.1, (readChar file line).2.2⟩

/-- `while (isWhiteSpace(*character, line)) *character = readChar(file, line);`
from the given character, file and line. At the end of the file the read
yields `EOF`, which is not white space. -/
def skipWhiteSpacesFrom : Int → List Int → Nat → Cursor
  | c, [], line =>
    if isWhiteSpace c ≠ 0 then advance [] line else ⟨c, [], line⟩
  | c, d :: rest, line =>
    if isWhiteSpace c ≠ 0 then skipWhiteSpacesFrom d rest (readChar (d :: rest) line).2.2
    else ⟨c, d :: rest, line⟩

/-- The white-space loop (Scanner.c:135, 156, 180, 187, 197, 221, 237, 245). -/
def skipWhiteSpaces (cur : Cursor) : Cursor :=
  skipWhiteSpacesFrom cur.character cur.file cur.line

/-- `while (isLetter(*character)) { name[index++] = *character;
*character = readChar(file, line); }` from the given character, file and line,
with `name` already stored. At the end of the file the read yields `EOF`, which
is not a letter. -/
def readLettersFrom : Int → List Int → Nat → List Int → List Int × Cursor
  | c, [], line, name =>
    if isLetter c ≠ 0 then (name ++ [c], advance [] line) else (name, ⟨c, [], line⟩)
  | c, d :: rest, line, name =>
    if isLetter c ≠ 0 then
      readLettersFrom d rest (readChar (d :: rest) line).2.2 (name ++ [c])
    else (name, ⟨c, d :: rest, line⟩)

/-- The name loop (Scanner.c:143-146 and 167-170): the name read and where
the input stands afterwards. -/
def readLetters (cur : Cursor) : List Int × Cursor :=
  readLettersFrom cur.character cur.file cur.line []

/-- The attribute loop (Scanner.c:205-212) from the given character, file and
line, with `attributeName` already stored and the given `isQuoted`. -/
def readAttributesFrom : Int → List Int → Nat → Int → List Int → List Int × Cursor
  | c, [], line, isQuoted, attributeName =>
    if c ≠ 62 ∧ c ≠ 60 ∧ c ≠ EOF then
      let isQuoted := if c = 34 ∨ c = 39 then (if isQuoted = 0 then 1 else 0) else isQuoted
      if c = 47 ∧ isQuoted = 0 then (attributeName, ⟨c, [], line⟩)
      else (attributeName ++ [c], advance [] line)
    else (attributeName, ⟨c, [], line⟩)
  | c, d :: rest, line, isQuoted, attributeName =>
    if c ≠ 62 ∧ c ≠ 60 ∧ c ≠ EOF then
      let isQuoted := if c = 34 ∨ c = 39 then (if isQuoted = 0 then 1 else 0) else isQuoted
      if c = 47 ∧ isQuoted = 0 then (attributeName, ⟨c, d :: rest, line⟩)
      else
        readAttributesFrom d rest (readChar (d :: rest) line).2.2 isQuoted (attributeName ++ [c])
    else (attributeName, ⟨c, d :: rest, line⟩)

/-- The attribute loop with its initialisation (Scanner.c:203-212): the text
accumulated and where the input stands afterwards. -/
def readAttributes (cur : Cursor) : List Int × Cursor :=
  readAttributesFrom cur.character cur.file cur.line 0 []

/-- `handleClosingTag` (Scanner.c:132-160): where the input stands and the
`TagStack` on return. -/
def handleClosingTag (cur : Cursor) (TagStack : List (List Int)) :
    Result (Cursor × List (List Int)) :=
  let cur := skipWhiteSpaces (advance cur.file cur.line)
  if isLetter cur.character = 0 then .error cur.line
  else
    let closingTagName := (readLetters cur).1
    let cur := (readLetters cur).2
    -- char closingTagName[10000], terminating NUL included
    if 10000 ≤ closingTagName.length then .undefined
    else
      match (StackPop TagStack).1 with
      | none => .error cur.line
      | some openingTagName =>
        if closingTagName ≠ openingTagName then .error cur.line
        else
          let cur := skipWhiteSpaces cur
          if cur.character ≠ 62 then .error cur.line
          else .ok (cur, (StackPop TagStack).2)

/-- The block `*character = readChar(file, line); while (isWhiteSpace(...)) ...;
if (*character != '>') error` that follows a `/` (Scanner.c:179-181, 196-198,
220-222). -/
def expectTagEnd (cur : Cursor) : Result Cursor :=
  let cur := skipWhiteSpaces (advance cur.file cur.line)
  if cur.character ≠ 62 then .error cur.line else .ok cur

/-- The last part of `handleOpeningTag`, from `// Get attributes` on
(Scanner.c:201-223), for the tag name read before; `MAX` is the size of
`attributeName`. -/
def handleOpeningTagAttributes (MAX : Nat) (tagName : List Int) (cur : Cursor)
    (TagStack : List (List Int)) : Result (Cursor × List (List Int)) :=
  let attributeName := (readAttributes cur).1
  let cur := (readAttributes cur).2
  -- char attributeName[MAX], terminating NUL included
  if MAX ≤ attributeName.length then .undefined
  else
    match isValidAttributes attributeName with
    | none => .outOfFuel
    | some valid =>
      if valid = 0 then .error cur.line
      else
        let stack := if cur.character = 62 then StackPush TagStack tagName else TagStack
        (if cur.character = 47 then expectTagEnd cur else .ok cur).bind fun cur =>
        .ok (cur, stack)

/-- `handleOpeningTag` (Scanner.c:162-224): where the input stands and the
`TagStack` on return. -/
def handleOpeningTag (MAX : Nat) (cur : Cursor) (TagStack : List (List Int)) :
    Result (Cursor × List (List Int)) :=
  let tagName := (readLetters cur).1
  let cur := (readLetters cur).2
  -- char tagName[100], terminating NUL included
  if 100 ≤ tagName.length then .undefined
  else if isWhiteSpace cur.character = 0 ∧ cur.character ≠ 62 ∧ cur.character ≠ 47 then
    .error cur.line
  else
    (if cur.character = 47 then expectTagEnd cur else .ok cur).bind fun cur =>
    if cur.character = 62 then .ok (cur, StackPush TagStack tagName)
    else
      let cur := skipWhiteSpaces cur
      if isLetter cur.character = 0 ∧ cur.character ≠ 62 ∧ cur.character ≠ 47 then
        .error cur.line
      else if cur.character = 62 then .ok (cur, StackPush TagStack tagName)
      else
        (if cur.character = 47 then expectTagEnd cur else .ok cur).bind fun cur =>
        handleOpeningTagAttributes MAX tagName cur TagStack

/-- The `while` loop of `performLexicalAnalysis` (Scanner.c:233-259), one
iteration per unit of fuel: the line counter and the `TagStack` when the loop
is left. The current character is read anew at the head of every iteration. -/
def scanLoop (MAX : Nat) : Nat → List Int → Nat → List (List Int) →
    Result (Nat × List (List Int))
  | 0, _, _, _ => .outOfFuel
  | fuel + 1, file, line, TagStack =>
    let cur := advance file line
    if cur.character = EOF then .ok (cur.line, TagStack)
    else
      let cur := skipWhiteSpaces cur
      if cur.character = EOF then .ok (cur.line, TagStack)
      else if cur.character ≠ 60 then .error cur.line
      else
        let cur := skipWhiteSpaces (advance cur.file cur.line)
        if isLetter cur.character = 0 ∧ cur.character ≠ 47 then .error cur.line
        else if cur.character = 47 then
          (handleClosingTag cur TagStack).bind fun r =>
            scanLoop MAX fuel r.1.file r.1.line r.2
        else if isLetter cur.character = 0 then .error cur.line
        else
          (handleOpeningTag MAX cur TagStack).bind fun r =>
            scanLoop MAX fuel r.1.file r.1.line r.2

/-- `performLexicalAnalysis` (Scanner.c:227-262): on a normal return, the
`TagStack` left behind. Every iteration of the loop reads at least one
character, so `length + 1` iterations are enough. -/
def performLexicalAnalysis (MAX : Nat) (file : List Int) : Result (List (List Int)) :=
  (scanLoop MAX (file.length + 1) file 1 StackCreate).bind fun r =>
    if StackIsEmpty r.2 = false then .error r.1 else .ok r.2

/-- The characters of an ASCII string literal, as `char` values. -/
def chars (s : String) : List Int :=
  s.toList.map fun ch => (ch.toNat : Int)

/-- The name loop with `name` already stored. -/
def readLettersAcc (cur : Cursor) (name : List Int) : List Int × Cursor :=
  readLettersFrom cur.character cur.file cur.line name

/-- A tag name of the documents considered below: a non-empty run of letters. -/
def IsName (n : List Int) : Prop :=
  n ≠ [] ∧ ∀ c ∈ n, isLetter c = 1

/-- A run of the scanner's white space (space, tab, newline). -/
def IsBlank (w : List Int) : Prop :=
  ∀ c ∈ w, isWhiteSpace c = 1

instance (n : List Int) : Decidable (IsName n) := by
  unfold IsName; infer_instance

instance (w : List Int) : Decidable (IsBlank w) := by
  unfold IsBlank; infer_instance

/-- The documents of the grammar
`D ::= empty | ws D | '<' n '>' D '</' n '>' D`, with `ws` a space, tab or
newline and `n` a non-empty run of letters that fits `tagName[100]`. -/
inductive Doc : List Int → Prop
  | empty : Doc []
  | ws (c : Int) (d : List Int) : isWhiteSpace c = 1 → Doc d → Doc (c :: d)
  | tag (n d₁ d₂ : List Int) : IsName n → n.length < 100 → Doc d₁ → Doc d₂ →
      Doc (60 :: (n ++ 62 :: (d₁ ++ 60 :: 47 :: (n ++ 62 :: d₂))))

/-- A run of `isspace` characters. -/
def IsSpaces (w : List Int) : Prop :=
  ∀ c ∈ w, isspace c = 1

instance (w : List Int) : Decidable (IsSpaces w) := by
  unfold IsSpaces; infer_instance

/-- The texts `( name ws* '=' ws* ( dq [^dq<>]* dq | sq [^sq<>]* sq ) ws* )*`,
with `dq` the double quote (34), `sq` the single quote (39), `ws` an `isspace`
character and `name` a non-empty run of characters that are neither white
space nor `=`. -/
inductive AttrPairs : List Int → Prop
  | nil : AttrPairs []
  | cons (name w₁ w₂ v w₃ r : List Int) (q : Int) :
      name ≠ [] → (∀ c ∈ name, isspace c = 0 ∧ c ≠ 61) → IsSpaces w₁ → IsSpaces w₂ →
      (q = 34 ∨ q = 39) → (∀ c ∈ v, c ≠ q ∧ c ≠ 60 ∧ c ≠ 62) → IsSpaces w₃ → AttrPairs r →
      AttrPairs (name ++ (w₁ ++ 61 :: (w₂ ++ q :: (v ++ q :: (w₃ ++ r)))))

/-- The attribute grammar: `ws*` followed by a text of `AttrPairs`. -/
def MatchesAttributeGrammar (t : List Int) : Prop :=
  ∃ w r, IsSpaces w ∧ AttrPairs r ∧ t = w ++ r

/-- The attribute loop with `attributeName` already stored and the given
`isQuoted`. -/
def readAttributesAcc (cur : Cursor) (isQuoted : Int) (attributeName : List Int) :
    List Int × Cursor :=
  readAttributesFrom cur.character cur.file cur.line isQuoted attributeName

/-- `isQuoted` after `if (c == '"' || c == '\'') isQuoted = !isQuoted;`
(Scanner.c:207). -/
def quoteAfter (isQuoted c : Int) : Int :=
  if c = 34 ∨ c = 39 then (if isQuoted = 0 then 1 else 0) else isQuoted

/-- `isQuoted` after the attribute loop has gone over a text. -/
def quoteRun (isQuoted : Int) (t : List Int) : Int :=
  t.foldl quoteAfter isQuoted

/-- The attribute loop, entered with the given `isQuoted`, goes over the whole
text: no character of it is `>`, `<` or `EOF`, nor a `/` met outside quotes. -/
def Accumulates : Int → List Int → Prop
  | _, [] => True
  | isQuoted, c :: t =>
    (c ≠ 62 ∧ c ≠ 60 ∧ c ≠ EOF) ∧ ¬ (c = 47 ∧ quoteAfter isQuoted c = 0) ∧
      Accumulates (quoteAfter isQuoted c) t

/-- A value without quote character, `<`, `>` or `/`, made of characters of a
text: no NUL, and not the byte `0xFF`, which reads as `EOF`. -/
def IsPlainValue (v : List Int) : Prop :=
  ∀ c ∈ v, c ≠ 34 ∧ c ≠ 39 ∧ c ≠ 60 ∧ c ≠ 62 ∧ c ≠ 47 ∧ c ≠ 0 ∧ c ≠ EOF

instance (v : List Int) : Decidable (IsPlainValue v) := by
  unfold IsPlainValue; infer_instance

/-- A non-empty sequence of pairs `a="v"`, `a` alphabetic and `v` a plain
value, separated by non-empty runs of white space (`isspace`). -/
inductive AttrBlock : List Int → Prop
  | one (a v : List Int) : IsName a → IsPlainValue v → AttrBlock (a ++ 61 :: 34 :: (v ++ [34]))
  | cons (a v w B : List Int) : IsName a → IsPlainValue v → w ≠ [] → IsSpaces w →
      AttrBlock B → AttrBlock (a ++ 61 :: 34 :: (v ++ 34 :: (w ++ B)))

/-- A complete bare tag: the opening tag `<n>` or the closing tag `</n>`. -/
inductive BareTag where
  | opening (n : List Int)
  | closing (n : List Int)
  deriving DecidableEq, Repr

/-- The name of a bare tag. -/
def BareTag.name : BareTag → List Int
  | .opening n => n
  | .closing n => n

/-- The text of a bare tag. -/
def BareTag.text : BareTag → List Int
  | .opening n => 60 :: (n ++ [62])
  | .closing n => 60 :: 47 :: (n ++ [62])

/-- The text of a sequence of bare tags, with nothing in between. -/
def tagsText : List BareTag → List Int
  | [] => []
  | t :: P => t.text ++ tagsText P

/-- The names of the tags are non-empty runs of letters that fit `tagName[100]`. -/
def WellNamed (P : List BareTag) : Prop :=
  ∀ t ∈ P, IsName t.name ∧ t.name.length < 100

instance (P : List BareTag) : Decidable (WellNamed P) := by
  unfold WellNamed; infer_instance

/-- From `cur` the input has been read on to `cur'`: the characters `p` read
in between are gone from the file, and the line counter has counted the
newlines among them. -/
def ReadsTo (cur cur' : Cursor) : Prop :=
  ∃ p, cur.file = p ++ cur'.file ∧ cur'.line = cur.line + p.count 10

/-- The line `l` is the value of the line counter after some of the input has
been read on from `cur`. -/
def LineAfter (cur : Cursor) (l : Nat) : Prop :=
  ∃ cur', ReadsTo cur cur' ∧ cur'.line = l

/-- The line counter is kept by a procedure that starts at `cur`: on a normal
return the input has been read on to the position returned, and a reported
line is the value of the counter after some of the input has been read. -/
def Tracked {α : Type} (cur : Cursor) (pos : α → Cursor) : Result α → Prop
  | .ok a => ReadsTo cur (pos a)
  | .error l => LineAfter cur l
  | .undefined => True
  | .outOfFuel => True

/-- The names of the tags opened and not yet closed once the tags `P` have
been gone through, most recently opened first, `s` being those names before
`P`: an opening tag puts its name in front, a closing tag takes the most
recently opened one away. -/
def openChain (s : List (List Int)) : List BareTag → List (List Int)
  | [] => s
  | .opening n :: P => openChain (n :: s) P
  | .closing _ :: P => openChain s.tail P

/-- The single quotes of a value come in pairs that enclose no `/`: with `odd`
telling whether the number of `'` met so far is odd, no `/` is met while it is
odd, and it is even at the end of the value. -/
def singlesPaired : Bool → List Int → Bool
  | odd, [] => !odd
  | odd, c :: v =>
    (if c = 47 then !odd else true) && singlesPaired (if c = 39 then !odd else odd) v

/-- Outcome of a procedure of the scanner with the place where the process is
stopped: as `Result`, the error carrying the current character, what is left
of the file and the line counter at the `exit(1)`; the line printed is that
counter. -/
inductive Located (α : Type) where
  /-- normal return -/
  | ok : α → Located α
  /-- `printf("Error at line %d\n", line); exit(1);` with the input standing there -/
  | error : Cursor → Located α
  /-- a store past the end of a fixed-size buffer -/
  | undefined : Located α
  /-- the recursion bound of the model was exhausted -/
  | outOfFuel : Located α

/-- Sequencing: the continuation runs only after a normal return. -/
def Located.bind {α β : Type} (r : Located α) (f : α → Located β) : Located β :=
  match r with
  | .ok a => f a
  | .error cur => .error cur
  | .undefined => .undefined
  | .outOfFuel => .outOfFuel

/-- What is observed of an outcome: on an error, the line printed. -/
def Located.toResult {α β : Type} (f : α → β) : Located α → Result β
  | .ok a => .ok (f a)
  | .error cur => .error cur.line
  | .undefined => .undefined
  | .outOfFuel => .outOfFuel

/-- `handleClosingTag` (Scanner.c:132-160), with the place of each `exit(1)`. -/
def handleClosingTagAt (cur : Cursor) (TagStack : List (List Int)) :
    Located (Cursor × List (List Int)) :=
  let cur := skipWhiteSpaces (advance cur.file cur.line)
  if isLetter cur.character = 0 then .error cur
  else
    let closingTagName := (readLetters cur).1
    let cur := (readLetters cur).2
    if 10000 ≤ closingTagName.length then .undefined
    else
      match (StackPop TagStack).1 with
      | none => .error cur
      | some openingTagName =>
        if closingTagName ≠ openingTagName then .error cur
        else
          let cur := skipWhiteSpaces cur
          if cur.character ≠ 62 then .error cur
          else .ok (cur, (StackPop TagStack).2)

/-- The block that follows a `/` (Scanner.c:179-181, 196-198, 220-222), with
the place of its `exit(1)`. -/
def expectTagEndAt (cur : Cursor) : Located Cursor :=
  let cur := skipWhiteSpaces (advance cur.file cur.line)
  if cur.character ≠ 62 then .error cur else .ok cur

/-- The last part of `handleOpeningTag` (Scanner.c:201-223), with the place of
each `exit(1)`. -/
def handleOpeningTagAttributesAt (MAX : Nat) (tagName : List Int) (cur : Cursor)
    (TagStack : List (List Int)) : Located (Cursor × List (List Int)) :=
  let attributeName := (readAttributes cur).1
  let cur := (readAttributes cur).2
  if MAX ≤ attributeName.length then .undefined
  else
    match isValidAttributes attributeName with
    | none => .outOfFuel
    | some valid =>
      if valid = 0 then .error cur
      else
        let stack := if cur.character = 62 then StackPush TagStack tagName else TagStack
        (if cur.character = 47 then expectTagEndAt cur else .ok cur).bind fun cur =>
        .ok (cur, stack)

/-- `handleOpeningTag` (Scanner.c:162-224), with the place of each `exit(1)`. -/
def handleOpeningTagAt (MAX : Nat) (cur : Cursor) (TagStack : List (List Int)) :
    Located (Cursor × List (List Int)) :=
  let tagName := (readLetters cur).1
  let cur := (readLetters cur).2
  if 100 ≤ tagName.length then .undefined
  else if isWhiteSpace cur.character = 0 ∧ cur.character ≠ 62 ∧ cur.character ≠ 47 then
    .error cur
  else
    (if cur.character = 47 then expectTagEndAt cur else .ok cur).bind fun cur =>
    if cur.character = 62 then .ok (cur, StackPush TagStack tagName)
    else
      let cur := skipWhiteSpaces cur
      if isLetter cur.character = 0 ∧ cur.character ≠ 62 ∧ cur.character ≠ 47 then
        .error cur
      else if cur.character = 62 then .ok (cur, StackPush TagStack tagName)
      else
        (if cur.character = 47 then expectTagEndAt cur else .ok cur).bind fun cur =>
        handleOpeningTagAttributesAt MAX tagName cur TagStack

/-- The `while` loop of `performLexicalAnalysis` (Scanner.c:233-259), with the
place of each `exit(1)` and, when the loop is left, where the input stands. -/
def scanLoopAt (MAX : Nat) : Nat → List Int → Nat → List (List Int) →
    Located (Cursor × List (List Int))
  | 0, _, _, _ => .outOfFuel
  | fuel + 1, file, line, TagStack =>
    let cur := advance file line
    if cur.character = EOF then .ok (cur, TagStack)
    else
      let cur := skipWhiteSpaces cur
      if cur.character = EOF then .ok (cur, TagStack)
      else if cur.character ≠ 60 then .error cur
      else
        let cur := skipWhiteSpaces (advance cur.file cur.line)
        if isLetter cur.character = 0 ∧ cur.character ≠ 47 then .error cur
        else if cur.character = 47 then
          (handleClosingTagAt cur TagStack).bind fun r =>
            scanLoopAt MAX fuel r.1.file r.1.line r.2
        else if isLetter cur.character = 0 then .error cur
        else
          (handleOpeningTagAt MAX cur TagStack).bind fun r =>
            scanLoopAt MAX fuel r.1.file r.1.line r.2

/-- `performLexicalAnalysis` (Scanner.c:227-262), with the place of each
`exit(1)`: the one of line 261 is where the loop was left. -/
def performLexicalAnalysisAt (MAX : Nat) (file : List Int) : Located (List (List Int)) :=
  (scanLoopAt MAX (file.length + 1) file 1 StackCreate).bind fun r =>
    if StackIsEmpty r.2 = false then .error r.1 else .ok r.2

/-- The input has been read on from `cur` to where a procedure returns or stops
the process. -/
def ReadsOn {α : Type} (cur : Cursor) (pos : α → Cursor) : Located α → Prop
  | .ok a => ReadsTo cur (pos a)
  | .error cur' => ReadsTo cur cur'
  | .undefined => True
  | .outOfFuel => True

end Scanner

namespace DataStructure

/-! ## The map (`HashMap.c`) -/

/-- `struct Node` (HashMap.c:40-45): a key and a value; the field `next` is the
rest of the list. -/
structure Node where
  key : String
  value : String
  deriving DecidableEq, Repr

/-- `struct HashMap` (HashMap.c:24-27). -/
structure HashMap where
  size : Int
  head : List Node
  deriving DecidableEq, Repr

/-- `HashMapNew` (HashMap.c:50-61). -/
def HashMapNew : Option HashMap :=
  some ⟨0, []⟩

/-- The loop `while (current)` of `HashMapContainsKey` (HashMap.c:196-200),
from the node `current` on, and the `return 0` that follows it. -/
def containsKeyFrom : List Node → String → Int
  | [], _ => 0
  | current :: next, key => if current.key = key then 1 else containsKeyFrom next key

/-- `HashMapContainsKey` (HashMap.c:189-203). -/
def HashMapContainsKey (map : Option HashMap) (key : Option String) : Int :=
  match map, key with
  | some map, some key => containsKeyFrom map.head key
  | _, _ => -1

/-- The loop `while (current)` of `HashMapPut` (HashMap.c:76-87), from the node
`current` on: the list once the value of the first node that holds the key
has been replaced (`return 0`), `none` when the loop is left. -/
def updateFrom : List Node → String → String → Option (List Node)
  | [], _, _ => none
  | current :: next, key, value =>
    if current.key = key then some (⟨current.key, value⟩ :: next)
    else (updateFrom next key value).map fun rest => current :: rest

/-- `HashMapPut` (HashMap.c:66-119): the value returned and the map afterwards. -/
def HashMapPut (map : Option HashMap) (key value : Option String) : Int × Option HashMap :=
  match map, key, value with
  | some map, some key, some value =>
    match (if HashMapContainsKey (some map) (some key) ≠ 0 then updateFrom map.head key value
      else none) with
    | some head => (0, some ⟨map.size, head⟩)
    | none => (1, some ⟨map.size + 1, ⟨key, value⟩ :: map.head⟩)
  | map, _, _ => (-1, map)

/-- The loop `while (current)` of `HashMapGet` (HashMap.c:131-138), from the
node `current` on, and the `return NULL` that follows it. -/
def getFrom : List Node → String → Option String
  | [], _ => none
  | current :: next, key => if current.key = key then some current.value else getFrom next key

/-- `HashMapGet` (HashMap.c:124-141). -/
def HashMapGet (map : Option HashMap) (key : Option String) : Option String :=
  match map, key with
  | some map, some key => getFrom map.head key
  | _, _ => none

/-- The loop `while (current->next)` of `HashMapRemove` (HashMap.c:167-181) on
the nodes that follow `current`: those nodes once the first of them that
holds the key has been unlinked (`return 1`), `none` when the loop is left. -/
def removeAfter : List Node → String → Option (List Node)
  | [], _ => none
  | next :: rest, key =>
    if next.key = key then some rest
    else (removeAfter rest key).map fun rest' => next :: rest'

/-- `HashMapRemove` (HashMap.c:146-184): the value returned and the map
afterwards; `none` is the read of `current->key` at line 155 with `current`
being `NULL`, which is what `map->head` is in an empty map. -/
def HashMapRemove (map : Option HashMap) (key : Option String) :
    Option (Int × Option HashMap) :=
  match map, key with
  | some map, some key =>
    match map.head with
    | [] => none
    | current :: next =>
      if current.key = key then some (1, some ⟨map.size - 1, next⟩)
      else
        match removeAfter next key with
        | some next' => some (1, some ⟨map.size - 1, current :: next'⟩)
        | none => some (0, some map)
  | map, _ => some (-1, map)

/-- `HashMapSize` (HashMap.c:227-233). -/
def HashMapSize (map : Option HashMap) : Int :=
  match map with
  | some map => map.size
  | none => -1

/-- The maps built from `HashMapNew` by calls of `HashMapPut` and of
`HashMapRemove` (those that return). -/
inductive Built : HashMap → Prop
  | new (m : HashMap) : HashMapNew = some m → Built m
  | put (m m' : HashMap) (key value : Option String) (r : Int) :
      Built m → HashMapPut (some m) key value = (r, some m') → Built m'
  | remove (m m' : HashMap) (key : Option String) (r : Int) :
      Built m → HashMapRemove (some m) key = some (r, some m') → Built m'

/-- The keys held by a list of nodes, in the order of the list. -/
def keysOf (l : List Node) : List String :=
  l.map Node.key

/-- The keys of a map are pairwise distinct and `size` is the number of nodes. -/
def Invariant (m : HashMap) : Prop :=
  (keysOf m.head).Nodup ∧ m.size = m.head.length

/-! ## The tree (`Tree.c`) -/

/-- The enumeration `widgetType` (Utils/Enums.h). -/
inductive widgetType where
  | window
  | headerBar
  | box
  | grid
  | label
  | button
  deriving DecidableEq, Repr

/-- `struct Tree` (Tree.c:22-29). `addr` is the address of the structure, by
which `TreeGetParent` compares nodes; `widget` is the address held by the
`GtkWidget *`; `children` is the list of the `child` fields of the
`struct ChildNode`s, none of which is `NULL` (`TreeAddChild` refuses a `NULL`
child). -/
structure Tree where
  addr : Nat
  type : widgetType
  id : Option String
  widget : Nat
  attributes : Option HashMap
  children : List Tree

/-- The tree with its list of children replaced. -/
def Tree.withChildren (t : Tree) (children : List Tree) : Tree :=
  ⟨t.addr, t.type, t.id, t.widget, t.attributes, children⟩

/-- `TreeIsLeaf` (Tree.c:247-254). -/
def TreeIsLeaf (tree : Option Tree) : Int :=
  match tree with
  | none => -1
  | some tree =>
    match tree.children with
    | [] => 1
    | _ :: _ => 0

/-- The list of children once `TreeAddChild` has linked the new `ChildNode`
(Tree.c:81-93): the walk to the last node, then `lastChild->next = newChild`,
or `parent->children = newChild` when there is no node. -/
def linkLast : List Tree → Tree → List Tree
  | [], child => [child]
  | [lastChild], child => [lastChild, child]
  | c :: next :: rest, child => c :: linkLast (next :: rest) child

/-- `TreeAddChild` (Tree.c:75-96): the value returned and the parent
afterwards. -/
def TreeAddChild (parent child : Option Tree) : Int × Option Tree :=
  match parent, child with
  | some parent, some child => (1, some (parent.withChildren (linkLast parent.children child)))
  | parent, _ => (-1, parent)

/-- The loop `while (curr)` of `TreeRemoveChild` (Tree.c:109-133) from the node
`curr` on, and the `return -1` that follows it: the value returned and the
list from `curr` on afterwards. `none` is `strcmp(curr->child->id, id)` on a
child whose `id` is `NULL`. -/
def removeChildFrom : List Tree → String → Option (Int × List Tree)
  | [], _ => some (-1, [])
  | child :: next, id =>
    match child.id with
    | none => none
    | some childId =>
      if childId = id then
        if TreeIsLeaf (some child) = 0 then some (-1, child :: next)
        else some (1, next)
      else (removeChildFrom next id).map fun r => (r.1, child :: r.2)

/-- `TreeRemoveChild` (Tree.c:101-137): the value returned and the parent
afterwards. -/
def TreeRemoveChild (parent : Option Tree) (id : Option String) :
    Option (Int × Option Tree) :=
  match parent, id with
  | some parent, some id =>
    (removeChildFrom parent.children id).map fun r => (r.1, some (parent.withChildren r.2))
  | parent, _ => some (-1, parent)


mutual
/-- `TreeGetNode` (Tree.c:142-163) past its test of the parameters, on a
parent and an identifier that are not `NULL`: the node returned (`none` for
`NULL`); the outer `none` is a `strcmp` on an `id` that is `NULL`. -/
def getNodeIn : Tree → String → Option (Option Tree)
  | ⟨addr, type, parentId, widget, attributes, children⟩, id =>
    match parentId with
    | none => none
    | some pid =>
      if pid = id then some (some ⟨addr, type, parentId, widget, attributes, children⟩)
      else getNodeFrom children id
/-- The loop `while(curr)` of `TreeGetNode` (Tree.c:154-160) from the node
`curr` on, and the `return NULL` that follows it. -/
def getNodeFrom : List Tree → String → Option (Option Tree)
  | [], _ => some none
  | child :: next, id =>
    match child.id with
    | none => none
    | some childId =>
      if childId = id then some (some child)
      else
        match getNodeIn child id with
        | none => none
        | some (some node) => some (some node)
        | some none => getNodeFrom next id
end

/-- `TreeGetNode` (Tree.c:142-163). -/
def TreeGetNode (parent : Option Tree) (id : Option String) : Option (Option Tree) :=
  match parent, id with
  | some parent, some id => getNodeIn parent id
  | _, _ => some none

mutual
/-- The nodes of a tree in pre-order: the root, then the nodes of each child in
turn. -/
def preorder : Tree → List Tree
  | ⟨addr, type, id, widget, attributes, children⟩ =>
    ⟨addr, type, id, widget, attributes, children⟩ :: preorderList children
/-- The nodes of the trees of a list, tree after tree, each in pre-order. -/
def preorderList : List Tree → List Tree
  | [] => []
  | child :: next => preorder child ++ preorderList next
end

/-- The identifier `id` is the one of the node. -/
def Tree.hasId (id : String) (n : Tree) : Bool :=
  decide (n.id = some id)

/-- Every node of the tree carries an identifier: no `id` is `NULL`. -/
def Identified (root : Tree) : Prop :=
  ∀ n ∈ preorder root, n.id ≠ none


mutual
/-- `TreeGetParent` (Tree.c:281-302) past its test of the parameters, for a
root that is not `NULL` and the address `tree` of the node looked for: the
node returned (`none` for `NULL`). -/
def getParentIn : Tree → Nat → Option Tree
  | ⟨addr, type, id, widget, attributes, children⟩, tree =>
    getParentFrom ⟨addr, type, id, widget, attributes, children⟩ children tree
/-- The loop `while (curr)` of `TreeGetParent` (Tree.c:288-299) from the node
`curr` on, and the `return NULL` that follows it. Pointers are compared by
address. -/
def getParentFrom : Tree → List Tree → Nat → Option Tree
  | _, [], _ => none
  | root, child :: next, tree =>
    if child.addr = tree then some root
    else
      match getParentIn child tree with
      | some parent => some parent
      | none => getParentFrom root next tree
end

/-- `TreeGetParent` (Tree.c:281-302). -/
def TreeGetParent (root tree : Option Tree) : Option Tree :=
  match root, tree with
  | some root, some tree => getParentIn root tree.addr
  | _, _ => none

/-- The addresses of the trees of a list. -/
def addrsOf (l : List Tree) : List Nat :=
  l.map Tree.addr

/-- The nodes of the tree are pairwise distinct: no two of them are at the same
address. -/
def DistinctNodes (root : Tree) : Prop :=
  (addrsOf (preorder root)).Nodup


/-- The node `node` once `TreeUpdateNode` has written to it (Tree.c:178-197):
`id`, `widget` and `attributes` are those of `newChild` (the attributes as
`HashMapGetCopy` returns them), the children are those of `newChild` when it
has any; `type` is not written. `HashMapGetCopy` is declared in `HashMap.h`
and defined nowhere in the sources: it is a parameter. -/
def updatedNode (HashMapGetCopy : Option HashMap → Option HashMap) (node newChild : Tree) :
    Tree :=
  ⟨node.addr, node.type, newChild.id, newChild.widget, HashMapGetCopy newChild.attributes,
    match newChild.children with
    | [] => node.children
    | child :: next => child :: next⟩

mutual
/-- The tree once the node that `TreeGetNode` returns for `id` has been
overwritten with `new`: the write goes to the node that the search stops at. -/
def storeIn : Tree → String → Tree → Tree
  | ⟨addr, type, parentId, widget, attributes, children⟩, id, new =>
    if parentId = some id then new
    else ⟨addr, type, parentId, widget, attributes, storeFrom children id new⟩
/-- The list of children once the node that the loop of `TreeGetNode` returns
for `id` has been overwritten with `new`. -/
def storeFrom : List Tree → String → Tree → List Tree
  | [], _, _ => []
  | child :: next, id, new =>
    match getNodeIn child id with
    | some (some _) => storeIn child id new :: next
    | _ => child :: storeFrom next id new
end

/-- `TreeUpdateNode` (Tree.c:168-200): the value returned, the tree of `root`
and `newChild` afterwards; `none` is a `strcmp` of the search on an `id` that
is `NULL`. -/
def TreeUpdateNode (HashMapGetCopy : Option HashMap → Option HashMap)
    (root : Option Tree) (id : Option String) (newChild : Option Tree) :
    Option (Int × Option Tree × Option Tree) :=
  match root, id, newChild with
  | some root, some id, some newChild =>
    match TreeGetNode (some root) (some id) with
    | none => none
    | some none => some (-1, some root, some newChild)
    | some (some node) =>
      some (1, some (storeIn root id (updatedNode HashMapGetCopy node newChild)),
        some (newChild.withChildren []))
  | root, _, newChild => some (-1, root, newChild)

/-- The identifiers of the nodes of a list, in the order of the list. -/
def idsOf (l : List Tree) : List (Option String) :=
  l.map Tree.id

/-- The identifiers of the nodes of the tree are pairwise distinct. -/
def DistinctIds (root : Tree) : Prop :=
  (idsOf (preorder root)).Nodup


/-- The value of an enumerator of `widgetType` (Utils/Enums.h). -/
def widgetType.toInt : widgetType → Int
  | .window => 0
  | .headerBar => 1
  | .box => 2
  | .grid => 3
  | .label => 4
  | .button => 5

/-- `TreeGetType` (Tree.c:307-313). -/
def TreeGetType (tree : Option Tree) : Int :=
  match tree with
  | none => -1
  | some tree => tree.type.toInt

/-- `TreeGetId` (Tree.c:318-324). -/
def TreeGetId (tree : Option Tree) : Option String :=
  match tree with
  | none => none
  | some tree => tree.id

end DataStructure

/-! # Properties of the scanner -/

namespace Scanner

/-! ## The loops over the input -/

theorem advance_nil (line : Nat) : advance [] line = ⟨EOF, [], line⟩ := rfl

theorem advance_cons (c : Int) (rest : List Int) (line : Nat) :
    advance (c :: rest) line = ⟨c, rest, if c = 10 then line + 1 else line⟩ := rfl

theorem isWhiteSpace_eq_zero_or_one (c : Int) : isWhiteSpace c = 0 ∨ isWhiteSpace c = 1 := by
  unfold isWhiteSpace; split <;> simp

theorem isLetter_eq_zero_or_one (c : Int) : isLetter c = 0 ∨ isLetter c = 1 := by
  unfold isLetter; split <;> simp

theorem isLetter_bounds {c : Int} (h : isLetter c = 1) :
    (97 ≤ c ∧ c ≤ 122) ∨ (65 ≤ c ∧ c ≤ 90) := by
  unfold isLetter at h
  split at h
  · assumption
  · simp at h

theorem isWhiteSpace_cases {c : Int} (h : isWhiteSpace c = 1) : c = 32 ∨ c = 10 ∨ c = 9 := by
  unfold isWhiteSpace at h
  split at h
  · assumption
  · simp at h

theorem isWhiteSpace_of_isLetter {c : Int} (h : isLetter c = 1) : isWhiteSpace c = 0 := by
  have hb := isLetter_bounds h
  unfold isWhiteSpace
  rw [if_neg]
  omega

theorem isLetter_of_isWhiteSpace {c : Int} (h : isWhiteSpace c = 1) : isLetter c = 0 := by
  rcases isLetter_eq_zero_or_one c with h0 | h1
  · exact h0
  · rw [isWhiteSpace_of_isLetter h1] at h; simp at h

theorem skipWhiteSpaces_of_not {cur : Cursor} (h : isWhiteSpace cur.character = 0) :
    skipWhiteSpaces cur = cur := by
  obtain ⟨c, file, line⟩ := cur
  cases file <;> simp_all [skipWhiteSpaces, skipWhiteSpacesFrom]

theorem skipWhiteSpaces_of_ws {cur : Cursor} (h : isWhiteSpace cur.character = 1) :
    skipWhiteSpaces cur = skipWhiteSpaces (advance cur.file cur.line) := by
  obtain ⟨c, file, line⟩ := cur
  cases file with
  | nil =>
    have h0 : isWhiteSpace EOF = 0 := by decide
    simp only [skipWhiteSpaces, skipWhiteSpacesFrom] at *
    simp [h, h0, advance, readChar, skipWhiteSpacesFrom]
  | cons d rest =>
    simp only [skipWhiteSpaces, skipWhiteSpacesFrom] at *
    simp [h, advance, readChar]

/-- Reading on through a run of white space: the input then stands at the
first character after the run, and the line counter has counted its newlines. -/
theorem skipWhiteSpaces_advance_run (w : List Int) (hw : IsBlank w) (rest : List Int)
    (hr : ∀ x ∈ rest.head?, isWhiteSpace x = 0) (line : Nat) :
    skipWhiteSpaces (advance (w ++ rest) line) = advance rest (line + w.count 10) := by
  induction w generalizing line with
  | nil =>
    apply skipWhiteSpaces_of_not
    cases rest with
    | nil => simp [advance, readChar, isWhiteSpace, EOF]
    | cons x r => simpa [advance, readChar] using hr
  | cons c w ih =>
    have hc : isWhiteSpace c = 1 := hw c (List.mem_cons_self _ _)
    have hw2 : IsBlank w := fun x hx => hw x (List.mem_cons_of_mem _ hx)
    rw [List.cons_append, advance_cons, skipWhiteSpaces_of_ws hc]
    simp only
    rw [ih hw2]
    congr 1
    by_cases h10 : c = 10
    · subst h10; simp; omega
    · simp [h10, List.count_cons]

theorem head?_append_of_all {P : Int → Prop} (n rest : List Int) (hn : ∀ c ∈ n, P c)
    (hr : ∀ x ∈ rest.head?, P x) : ∀ x ∈ (n ++ rest).head?, P x := by
  cases n with
  | nil => simpa using hr
  | cons c n => intro x hx; simp at hx; subst hx; exact hn _ (List.mem_cons_self _ _)

theorem readLetters_eq (cur : Cursor) : readLetters cur = readLettersAcc cur [] := rfl

theorem readLettersAcc_of_not {cur : Cursor} (h : isLetter cur.character = 0)
    (name : List Int) : readLettersAcc cur name = (name, cur) := by
  obtain ⟨c, file, line⟩ := cur
  cases file <;> simp_all [readLettersAcc, readLettersFrom]

theorem readLettersAcc_of_letter {cur : Cursor} (h : isLetter cur.character = 1)
    (name : List Int) :
    readLettersAcc cur name
      = readLettersAcc (advance cur.file cur.line) (name ++ [cur.character]) := by
  obtain ⟨c, file, line⟩ := cur
  cases file with
  | nil =>
    have h0 : isLetter EOF = 0 := by decide
    simp only [readLettersAcc, readLettersFrom] at *
    simp [h, h0, advance, readChar, readLettersFrom]
  | cons d rest =>
    simp only [readLettersAcc, readLettersFrom] at *
    simp [h, advance, readChar]

theorem ne_newline_of_isLetter {c : Int} (h : isLetter c = 1) : c ≠ 10 := by
  have := isLetter_bounds h
  omega

/-- Reading a run of letters: the name loop stores exactly the run and leaves
the input at the first character after it. -/
theorem readLettersAcc_advance_run (n : List Int) (hn : ∀ c ∈ n, isLetter c = 1)
    (rest : List Int) (hr : ∀ x ∈ rest.head?, isLetter x = 0) (line : Nat)
    (name : List Int) :
    readLettersAcc (advance (n ++ rest) line) name = (name ++ n, advance rest line) := by
  induction n generalizing name with
  | nil =>
    rw [List.nil_append, List.append_nil]
    apply readLettersAcc_of_not
    cases rest with
    | nil => simp [advance, readChar, isLetter, EOF]
    | cons x r => simpa [advance, readChar] using hr
  | cons c n ih =>
    have hc : isLetter c = 1 := hn c (List.mem_cons_self _ _)
    have hn2 : ∀ x ∈ n, isLetter x = 1 := fun x hx => hn x (List.mem_cons_of_mem _ hx)
    rw [List.cons_append, advance_cons, readLettersAcc_of_letter hc]
    simp only [if_neg (ne_newline_of_isLetter hc)]
    rw [ih hn2]
    simp

theorem IsName.head_letter {n : List Int} (hn : IsName n) (rest : List Int) :
    ∀ x ∈ (n ++ rest).head?, isLetter x = 1 := by
  obtain ⟨hne, hl⟩ := hn
  cases n with
  | nil => exact absurd rfl hne
  | cons c n => intro x hx; simp at hx; subst hx; exact hl _ (List.mem_cons_self _ _)

theorem IsName.head_not_ws {n : List Int} (hn : IsName n) (rest : List Int) :
    ∀ x ∈ (n ++ rest).head?, isWhiteSpace x = 0 :=
  fun x hx => isWhiteSpace_of_isLetter (hn.head_letter rest x hx)

/-- With the input standing at a name, the current character is a letter. -/
theorem IsName.advance_letter {n : List Int} (hn : IsName n) (rest : List Int) (line : Nat) :
    isLetter (advance (n ++ rest) line).character = 1 := by
  obtain ⟨hne, hl⟩ := hn
  cases n with
  | nil => exact absurd rfl hne
  | cons c n => exact hl _ (List.mem_cons_self _ _)

theorem blank_gt_head (w rest : List Int) (hw : IsBlank w) :
    ∀ x ∈ (w ++ 62 :: rest).head?, isLetter x = 0 := by
  apply head?_append_of_all
  · exact fun c hc => isLetter_of_isWhiteSpace (hw c hc)
  · simp [isLetter]

/-! ## The tag handlers on complete tags -/

/-- A bare opening tag: with the input standing at the name of `n>`, the
handler pushes `n` and returns at the `>`. -/
theorem handleOpeningTag_bare (MAX : Nat) (n : List Int) (hn : IsName n) (hlen : n.length < 100)
    (rest : List Int) (line : Nat) (s : List (List Int)) :
    handleOpeningTag MAX (advance (n ++ 62 :: rest) line) s = .ok (⟨62, rest, line⟩, n :: s) := by
  have hrun := readLettersAcc_advance_run n hn.2 (62 :: rest) (by simp [isLetter]) line []
  simp only [handleOpeningTag, readLetters_eq, hrun, List.nil_append, advance_cons]
  simp [Result.bind, StackPush, isWhiteSpace]
  omega

/-- A closing tag that names the top of the stack: the handler, entered at the
`/`, pops it and returns at the `>`. -/
theorem handleClosingTag_match (n : List Int) (hn : IsName n) (hlen : n.length < 10000)
    (w₁ w₂ : List Int) (hw₁ : IsBlank w₁) (hw₂ : IsBlank w₂) (rest : List Int)
    (c : Int) (line : Nat) (s : List (List Int)) :
    handleClosingTag ⟨c, w₁ ++ (n ++ (w₂ ++ 62 :: rest)), line⟩ (n :: s)
      = .ok (⟨62, rest, line + w₁.count 10 + w₂.count 10⟩, s) := by
  have h1 := skipWhiteSpaces_advance_run w₁ hw₁ (n ++ (w₂ ++ 62 :: rest)) (hn.head_not_ws _) line
  have h2 := readLettersAcc_advance_run n hn.2 (w₂ ++ 62 :: rest) (blank_gt_head _ _ hw₂)
    (line + w₁.count 10) []
  have h3 := skipWhiteSpaces_advance_run w₂ hw₂ (62 :: rest) (by simp [isWhiteSpace])
    (line + w₁.count 10)
  have h4 := hn.advance_letter (w₂ ++ 62 :: rest) (line + w₁.count 10)
  simp only [handleClosingTag, h1, readLetters_eq, h2, h3, h4, List.nil_append, advance_cons,
    StackPop]
  simp
  omega

/-! ## The driver loop on complete tags -/

theorem skipWhiteSpaces_of_EOF {cur : Cursor} (h : cur.character = EOF) :
    skipWhiteSpaces cur = cur :=
  skipWhiteSpaces_of_not (by rw [h]; decide)

theorem ne_slash_of_isLetter {c : Int} (h : isLetter c = 1) : c ≠ 47 := by
  have := isLetter_bounds h
  omega

theorem ne_EOF_of_isLetter {c : Int} (h : isLetter c = 1) : c ≠ EOF := by
  have := isLetter_bounds h
  unfold EOF
  omega

theorem skipWhiteSpaces_lt (file : List Int) (line : Nat) :
    skipWhiteSpaces ⟨60, file, line⟩ = ⟨60, file, line⟩ :=
  skipWhiteSpaces_of_not (show isWhiteSpace 60 = 0 by decide)

/-- White space in front of the input is skipped within the same iteration. -/
theorem scanLoop_ws (MAX f : Nat) (c : Int) (rest : List Int) (line : Nat)
    (s : List (List Int)) (hc : isWhiteSpace c = 1) :
    scanLoop MAX (f + 1) (c :: rest) line s
      = scanLoop MAX (f + 1) rest (if c = 10 then line + 1 else line) s := by
  have hne : c ≠ EOF := by
    rcases isWhiteSpace_cases hc with h | h | h <;> simp [h, EOF]
  simp only [scanLoop, advance_cons, hne, if_false]
  rw [skipWhiteSpaces_of_ws hc]
  by_cases hX : (advance rest (if c = 10 then line + 1 else line)).character = EOF
  · rw [skipWhiteSpaces_of_EOF hX]; simp [hX]
  · simp [hX]

/-- One iteration on a bare opening tag pushes its name. -/
theorem scanLoop_open (MAX f : Nat) (n : List Int) (hn : IsName n) (hlen : n.length < 100)
    (w : List Int) (hw : IsBlank w) (rest : List Int) (line : Nat) (s : List (List Int)) :
    scanLoop MAX (f + 1) (60 :: (w ++ (n ++ 62 :: rest))) line s
      = scanLoop MAX f rest (line + w.count 10) (n :: s) := by
  have h2 := skipWhiteSpaces_advance_run w hw (n ++ 62 :: rest) (hn.head_not_ws _) line
  have h3 := hn.advance_letter (62 :: rest) (line + w.count 10)
  have h4 := ne_slash_of_isLetter h3
  have h5 := handleOpeningTag_bare MAX n hn hlen rest (line + w.count 10) s
  simp [scanLoop, advance_cons, skipWhiteSpaces_lt, h2, EOF, h3, h4, h5, Result.bind]

/-- One iteration on a closing tag that names the top of the stack pops it. -/
theorem scanLoop_close (MAX f : Nat) (n : List Int) (hn : IsName n) (hlen : n.length < 10000)
    (w₀ w₁ w₂ : List Int) (hw₀ : IsBlank w₀) (hw₁ : IsBlank w₁) (hw₂ : IsBlank w₂)
    (rest : List Int) (line : Nat) (s : List (List Int)) :
    scanLoop MAX (f + 1) (60 :: (w₀ ++ 47 :: (w₁ ++ (n ++ (w₂ ++ 62 :: rest))))) line (n :: s)
      = scanLoop MAX f rest (line + w₀.count 10 + w₁.count 10 + w₂.count 10) s := by
  have h2 := skipWhiteSpaces_advance_run w₀ hw₀ (47 :: (w₁ ++ (n ++ (w₂ ++ 62 :: rest))))
    (by simp [isWhiteSpace]) line
  have h3 := handleClosingTag_match n hn hlen w₁ w₂ hw₁ hw₂ rest 47 (line + w₀.count 10) s
  simp [scanLoop, advance_cons, skipWhiteSpaces_lt, h2, EOF, isLetter, h3, Result.bind]

theorem scanLoop_nil (MAX f line : Nat) (s : List (List Int)) :
    scanLoop MAX (f + 1) [] line s = .ok (line, s) := by
  simp [scanLoop, advance_nil]

/-- Scanning a document of the grammar in front of any input leaves the stack
as it was, and takes at most one iteration per character. -/
theorem scanLoop_doc (MAX : Nat) (d : List Int) (hd : Doc d) :
    ∃ k, k ≤ d.length ∧ ∀ (f : Nat) (rest : List Int) (line : Nat) (s : List (List Int)),
      scanLoop MAX (f + 1 + k) (d ++ rest) line s
        = scanLoop MAX (f + 1) rest (line + d.count 10) s := by
  induction hd with
  | empty => exact ⟨0, le_refl _, fun f rest line s => by simp⟩
  | ws c d hc _ ih =>
    obtain ⟨k, hk, ih⟩ := ih
    refine ⟨k, by simp; omega, fun f rest line s => ?_⟩
    have e : f + 1 + k = (f + k) + 1 := by omega
    rw [List.cons_append, e, scanLoop_ws MAX _ c _ line s hc, ← e, ih]
    congr 1
    by_cases h10 : c = 10
    · subst h10; simp; omega
    · simp [h10, List.count_cons]
  | tag n d₁ d₂ hn hlen _ _ ih₁ ih₂ =>
    obtain ⟨k₁, hk₁, ih₁⟩ := ih₁
    obtain ⟨k₂, hk₂, ih₂⟩ := ih₂
    refine ⟨k₁ + k₂ + 2, by simp; omega, fun f rest line s => ?_⟩
    have hcount : ∀ l : List Int, IsName l → l.count 10 = 0 := fun l hl =>
      List.count_eq_zero.mpr fun hmem => ne_newline_of_isLetter (hl.2 _ hmem) rfl
    have e1 : f + 1 + (k₁ + k₂ + 2) = ((f + 1 + k₂) + 1 + k₁) + 1 := by omega
    have h1 := scanLoop_open MAX ((f + 1 + k₂) + 1 + k₁) n hn hlen [] (by intro x hx; simp at hx)
      (d₁ ++ 60 :: 47 :: (n ++ 62 :: (d₂ ++ rest))) line s
    have h2 := ih₁ (f + 1 + k₂) (60 :: 47 :: (n ++ 62 :: (d₂ ++ rest))) line (n :: s)
    have h3 := scanLoop_close MAX (f + 1 + k₂) n hn (by omega) [] [] []
      (by intro x hx; simp at hx) (by intro x hx; simp at hx) (by intro x hx; simp at hx)
      (d₂ ++ rest) (line + d₁.count 10) s
    have h4 := ih₂ f rest (line + d₁.count 10) s
    simp only [List.nil_append, List.count_nil, Nat.add_zero] at h1 h3
    simp only [List.cons_append, List.append_assoc, e1]
    rw [h1, h2, h3, h4]
    congr 1
    simp [List.count_cons, List.count_append, hcount n hn]
    omega

theorem Result.bind_mono {α β : Type} (r : Result α) (f g : α → Result β)
    (h : ∀ a, f a ≠ .undefined → g a = f a) (hr : r.bind f ≠ .undefined) :
    r.bind g = r.bind f := by
  cases r with
  | ok a => exact h a hr
  | _ => rfl

theorem Result.ne_undefined_of_bind {α β : Type} {r : Result α} {f : α → Result β}
    (hr : r.bind f ≠ .undefined) : r ≠ .undefined := by
  intro h; rw [h] at hr; exact hr rfl

theorem handleOpeningTagAttributes_mono {M M' : Nat} (h : M ≤ M') (n : List Int) (cur : Cursor)
    (s : List (List Int)) (hr : handleOpeningTagAttributes M n cur s ≠ .undefined) :
    handleOpeningTagAttributes M' n cur s = handleOpeningTagAttributes M n cur s := by
  unfold handleOpeningTagAttributes at hr ⊢
  by_cases hlen : M ≤ (readAttributes cur).1.length
  · simp [hlen] at hr
  · have hlen' : ¬ M' ≤ (readAttributes cur).1.length := by omega
    simp [hlen, hlen']

theorem handleOpeningTag_mono {M M' : Nat} (h : M ≤ M') (cur : Cursor) (s : List (List Int))
    (hr : handleOpeningTag M cur s ≠ .undefined) :
    handleOpeningTag M' cur s = handleOpeningTag M cur s := by
  unfold handleOpeningTag at hr ⊢
  generalize (readLetters cur).1 = n at hr ⊢
  generalize (readLetters cur).2 = c1 at hr ⊢
  dsimp only at hr ⊢
  split_ifs at hr ⊢ with h1 h2 <;> try rfl
  all_goals
    refine Result.bind_mono _ _ _ (fun a ha => ?_) hr
    generalize skipWhiteSpaces a = c2 at ha ⊢
    split_ifs at ha ⊢ with h3 h4 h5 <;> try rfl
    all_goals
      refine Result.bind_mono _ _ _ (fun b hb => ?_) ha
      exact handleOpeningTagAttributes_mono h _ _ _ hb

theorem scanLoop_mono {M M' : Nat} (h : M ≤ M') (f : Nat) (file : List Int) (line : Nat)
    (s : List (List Int)) (hr : scanLoop M f file line s ≠ .undefined) :
    scanLoop M' f file line s = scanLoop M f file line s := by
  induction f generalizing file line s with
  | zero => rfl
  | succ f ih =>
    unfold scanLoop at hr ⊢
    generalize advance file line = c0 at hr ⊢
    dsimp only at hr ⊢
    generalize skipWhiteSpaces c0 = c1 at hr ⊢
    generalize skipWhiteSpaces (advance c1.file c1.line) = c2 at hr ⊢
    split_ifs at hr ⊢ with h1 h2 h3 h4 h5 h6 <;> try rfl
    · exact Result.bind_mono _ _ _ (fun a ha => ih _ _ _ ha) hr
    · rw [handleOpeningTag_mono h _ _ (Result.ne_undefined_of_bind hr)]
      exact Result.bind_mono _ _ _ (fun a ha => ih _ _ _ ha) hr

/-- Enlarging `attributeName` does not change a run that stayed within it. -/
theorem performLexicalAnalysis_mono {M M' : Nat} (h : M ≤ M') (file : List Int)
    (hr : performLexicalAnalysis M file ≠ .undefined) :
    performLexicalAnalysis M' file = performLexicalAnalysis M file := by
  unfold performLexicalAnalysis at hr ⊢
  rw [scanLoop_mono h _ _ _ _ (Result.ne_undefined_of_bind hr)]

/-! ## Well-formed documents are accepted -/

/-- C1: every document of the grammar
`D ::= empty | ws D | '<' n '>' D '</' n '>' D` (`n` a non-empty run of letters
that fits the name buffer, `ws` a space, tab or newline) is scanned without an
error being reported, and the Tag Stack is empty at the end; so is
`<window><button id="ok"></button></window>`, whenever `attributeName` can hold
the seven characters of `id="ok"` and the terminating NUL. -/
theorem performLexicalAnalysis_doc (MAX : Nat) (d : List Int) (hd : Doc d) :
    performLexicalAnalysis MAX d = .ok [] ∧
    (8 ≤ MAX → performLexicalAnalysis MAX
      (chars "<window><button id=\"ok\"></button></window>") = .ok []) := by
  constructor
  · obtain ⟨k, hk, hscan⟩ := scanLoop_doc MAX d hd
    have e : d.length + 1 = (d.length - k) + 1 + k := by omega
    have h := hscan (d.length - k) [] 1 StackCreate
    rw [List.append_nil] at h
    unfold performLexicalAnalysis
    rw [e, h, scanLoop_nil]
    rfl
  · intro hM
    have h8 : performLexicalAnalysis 8
        (chars "<window><button id=\"ok\"></button></window>") = .ok [] := by decide
    rw [performLexicalAnalysis_mono hM _ (by rw [h8]; simp), h8]

/-- The attribute-free form `<window><button></button></window>` of the
witness of C1 is a document of the grammar. -/
theorem window_button_doc : Doc (chars "<window><button></button></window>") :=
  Doc.tag (chars "window") (chars "<button></button>") []
    ⟨by decide, by decide⟩ (by decide)
    (Doc.tag (chars "button") [] [] ⟨by decide, by decide⟩ (by decide) Doc.empty Doc.empty)
    Doc.empty

/-- C1 at `<window><button></button></window>` and at the document with the
attribute, with a buffer of 8 characters. -/
theorem performLexicalAnalysis_doc_witness :
    performLexicalAnalysis 8 (chars "<window><button></button></window>") = .ok [] ∧
    performLexicalAnalysis 8 (chars "<window><button id=\"ok\"></button></window>") = .ok [] :=
  ⟨(performLexicalAnalysis_doc 8 _ window_button_doc).1,
   (performLexicalAnalysis_doc 8 _ window_button_doc).2 (le_refl 8)⟩

/-! ## Self-closing tags without attributes -/

theorem blank_slash_head (w rest : List Int) (hw : IsBlank w) :
    ∀ x ∈ (w ++ 47 :: rest).head?, isLetter x = 0 := by
  apply head?_append_of_all
  · exact fun c hc => isLetter_of_isWhiteSpace (hw c hc)
  · simp [isLetter]

theorem expectTagEnd_run (c : Int) (w : List Int) (hw : IsBlank w) (rest : List Int)
    (line : Nat) :
    expectTagEnd ⟨c, w ++ 62 :: rest, line⟩ = .ok ⟨62, rest, line + w.count 10⟩ := by
  have h := skipWhiteSpaces_advance_run w hw (62 :: rest) (by simp [isWhiteSpace]) line
  simp [expectTagEnd, h, advance_cons]

theorem readAttributes_gt (file : List Int) (line : Nat) :
    readAttributes ⟨62, file, line⟩ = ([], ⟨62, file, line⟩) := by
  cases file <;> simp [readAttributes, readAttributesFrom]

theorem isValidAttributes_nil : isValidAttributes [] = some 1 := by decide

/-- What the code does on `n/>` and `n />` (any white space around the `/`):
the name is pushed all the same. -/
theorem handleOpeningTag_selfClosing (MAX : Nat) (hM : 0 < MAX) (n : List Int) (hn : IsName n)
    (hlen : n.length < 100) (w₁ w₂ : List Int) (hw₁ : IsBlank w₁) (hw₂ : IsBlank w₂)
    (rest : List Int) (line : Nat) (s : List (List Int)) :
    handleOpeningTag MAX (advance (n ++ (w₁ ++ 47 :: (w₂ ++ 62 :: rest))) line) s
      = .ok (⟨62, rest, line + w₁.count 10 + w₂.count 10⟩, n :: s) := by
  have hrun := readLettersAcc_advance_run n hn.2 (w₁ ++ 47 :: (w₂ ++ 62 :: rest))
    (blank_slash_head _ _ hw₁) line []
  have hlen' : ¬ 100 ≤ n.length := by omega
  have hM' : ¬ MAX = 0 := by omega
  cases w₁ with
  | nil =>
    have h2 := expectTagEnd_run 47 w₂ hw₂ rest line
    simp only [List.nil_append] at hrun
    simp [handleOpeningTag, readLetters_eq, hrun, advance_cons, hlen', isWhiteSpace, h2,
      Result.bind, StackPush]
  | cons c w =>
    have hc : isWhiteSpace c = 1 := hw₁ c (List.mem_cons_self _ _)
    have hw : IsBlank w := fun x hx => hw₁ x (List.mem_cons_of_mem _ hx)
    have hc47 : c ≠ 47 := by rcases isWhiteSpace_cases hc with h | h | h <;> simp [h]
    have hc62 : c ≠ 62 := by rcases isWhiteSpace_cases hc with h | h | h <;> simp [h]
    have h1 : skipWhiteSpaces ⟨c, w ++ 47 :: (w₂ ++ 62 :: rest), if c = 10 then line + 1 else line⟩
        = ⟨47, w₂ ++ 62 :: rest, (if c = 10 then line + 1 else line) + w.count 10⟩ := by
      rw [skipWhiteSpaces_of_ws hc]
      exact skipWhiteSpaces_advance_run w hw (47 :: (w₂ ++ 62 :: rest)) (by simp [isWhiteSpace]) _
    have h2 := expectTagEnd_run 47 w₂ hw₂ rest ((if c = 10 then line + 1 else line) + w.count 10)
    have hl : (if c = 10 then line + 1 else line) + w.count 10 + w₂.count 10
        = line + (c :: w).count 10 + w₂.count 10 := by
      by_cases h10 : c = 10
      · subst h10; simp; omega
      · simp [h10, List.count_cons]
    simp only [List.nil_append, List.cons_append] at hrun
    simp [handleOpeningTag, readLetters_eq, hrun, advance_cons, hlen', hc, hc47, hc62, h1, h2,
      isLetter, Result.bind, StackPush, handleOpeningTagAttributes, readAttributes_gt,
      isValidAttributes_nil, hM', hl]

/-- One iteration on `<n/>`, white space allowed around the `/`: the name is
pushed. -/
theorem scanLoop_selfClosing (MAX f : Nat) (hM : 0 < MAX) (n : List Int) (hn : IsName n)
    (hlen : n.length < 100) (w₁ w₂ : List Int) (hw₁ : IsBlank w₁) (hw₂ : IsBlank w₂)
    (rest : List Int) (line : Nat) (s : List (List Int)) :
    scanLoop MAX (f + 1) (60 :: (n ++ (w₁ ++ 47 :: (w₂ ++ 62 :: rest)))) line s
      = scanLoop MAX f rest (line + w₁.count 10 + w₂.count 10) (n :: s) := by
  have h2 : skipWhiteSpaces (advance (n ++ (w₁ ++ 47 :: (w₂ ++ 62 :: rest))) line)
      = advance (n ++ (w₁ ++ 47 :: (w₂ ++ 62 :: rest))) line :=
    skipWhiteSpaces_of_not (isWhiteSpace_of_isLetter (hn.advance_letter _ _))
  have h3 := hn.advance_letter (w₁ ++ 47 :: (w₂ ++ 62 :: rest)) line
  have h4 := ne_slash_of_isLetter h3
  have h5 := handleOpeningTag_selfClosing MAX hM n hn hlen w₁ w₂ hw₁ hw₂ rest line s
  simp [scanLoop, advance_cons, skipWhiteSpaces_lt, h2, EOF, h3, h4, h5, Result.bind]

theorem isBlank_nil : IsBlank [] := fun _ hx => absurd hx (List.not_mem_nil _)

/-- C2 (the code departs from it): a successful scan does not certify a
well-formed document. With `attributeName` of at least 6 characters the scanner
accepts `<a x="1"`, whose tag is never terminated by `>` (the file ends inside
it), accepts `<a x="1"< <b></b>`, where the tag `a` is cut short by the next
`<`, and accepts `<br/></br>`, where a self-closing tag is matched by a closing
tag. -/
theorem performLexicalAnalysis_accepts_malformed (MAX : Nat) (hM : 6 ≤ MAX) :
    performLexicalAnalysis MAX (chars "<a x=\"1\"") = .ok [] ∧
    performLexicalAnalysis MAX (chars "<a x=\"1\"< <b></b>") = .ok [] ∧
    performLexicalAnalysis MAX (chars "<br/></br>") = .ok [] := by
  have h1 : performLexicalAnalysis 6 (chars "<a x=\"1\"") = .ok [] := by decide
  have h2 : performLexicalAnalysis 6 (chars "<a x=\"1\"< <b></b>") = .ok [] := by decide
  have h3 : performLexicalAnalysis 6 (chars "<br/></br>") = .ok [] := by decide
  refine ⟨?_, ?_, ?_⟩
  · rw [performLexicalAnalysis_mono hM _ (by rw [h1]; simp), h1]
  · rw [performLexicalAnalysis_mono hM _ (by rw [h2]; simp), h2]
  · rw [performLexicalAnalysis_mono hM _ (by rw [h3]; simp), h3]

/-- C2 at a buffer of 6 characters. -/
theorem performLexicalAnalysis_accepts_malformed_witness :
    6 ≤ 6 ∧
    (performLexicalAnalysis 6 (chars "<a x=\"1\"") = .ok [] ∧
     performLexicalAnalysis 6 (chars "<a x=\"1\"< <b></b>") = .ok [] ∧
     performLexicalAnalysis 6 (chars "<br/></br>") = .ok []) :=
  ⟨le_refl 6, performLexicalAnalysis_accepts_malformed 6 (le_refl 6)⟩

/-- C3 (the code departs from it): for every non-empty alphabetic name `n`
that fits the name buffer and every Tag Stack `s`, `handleOpeningTag` applied
to the self-closing tag `<n/>`, `<n />` or `<n / >` (any white space around
the `/`) returns with `n` pushed on `s`; consequently the document `<n/>`
alone is rejected, with `n` left on the stack at the end of the input, and
the document `<n/></n>` is accepted. -/
theorem handleOpeningTag_selfClosing_pushes (MAX : Nat) (hM : 0 < MAX) (n : List Int)
    (hn : IsName n) (hlen : n.length < 100) (w₁ w₂ : List Int) (hw₁ : IsBlank w₁)
    (hw₂ : IsBlank w₂) (rest : List Int) (line : Nat) (s : List (List Int)) :
    handleOpeningTag MAX (advance (n ++ (w₁ ++ 47 :: (w₂ ++ 62 :: rest))) line) s
      = .ok (⟨62, rest, line + w₁.count 10 + w₂.count 10⟩, n :: s) ∧
    performLexicalAnalysis MAX (60 :: (n ++ [47, 62])) = .error 1 ∧
    performLexicalAnalysis MAX (60 :: (n ++ 47 :: 62 :: 60 :: 47 :: (n ++ [62]))) = .ok [] := by
  refine ⟨handleOpeningTag_selfClosing MAX hM n hn hlen w₁ w₂ hw₁ hw₂ rest line s, ?_, ?_⟩
  · have e : (60 :: (n ++ [47, 62])).length + 1 = (n.length + 2 + 1) + 1 := by simp
    have h := scanLoop_selfClosing MAX (n.length + 2 + 1) hM n hn hlen [] [] isBlank_nil
      isBlank_nil [] 1 StackCreate
    simp only [List.nil_append, List.count_nil, Nat.add_zero] at h
    unfold performLexicalAnalysis
    rw [e, h, scanLoop_nil]
    rfl
  · have e : (60 :: (n ++ 47 :: 62 :: 60 :: 47 :: (n ++ [62]))).length + 1
        = (n.length + n.length + 4 + 1 + 1) + 1 := by simp; omega
    have h := scanLoop_selfClosing MAX (n.length + n.length + 4 + 1 + 1) hM n hn hlen [] []
      isBlank_nil isBlank_nil (60 :: 47 :: (n ++ [62])) 1 StackCreate
    have h' := scanLoop_close MAX (n.length + n.length + 4 + 1) n hn (by omega) [] [] []
      isBlank_nil isBlank_nil isBlank_nil [] 1 StackCreate
    simp only [List.nil_append, List.count_nil, Nat.add_zero] at h h'
    unfold performLexicalAnalysis
    rw [e, h, h', scanLoop_nil]
    rfl

/-- C3 at `<br/>`, `<br />` and `<br/></br>`. -/
theorem handleOpeningTag_selfClosing_pushes_witness :
    (handleOpeningTag 1 (advance (chars "br/>") 1) [] = .ok (⟨62, [], 1⟩, [chars "br"]) ∧
     performLexicalAnalysis 1 (chars "<br/>") = .error 1 ∧
     performLexicalAnalysis 1 (chars "<br/></br>") = .ok []) ∧
    handleOpeningTag 1 (advance (chars "br />") 1) [] = .ok (⟨62, [], 1⟩, [chars "br"]) :=
  ⟨handleOpeningTag_selfClosing_pushes 1 (by decide) (chars "br") ⟨by decide, by decide⟩
      (by decide) [] [] isBlank_nil isBlank_nil [] 1 [],
   (handleOpeningTag_selfClosing_pushes 1 (by decide) (chars "br") ⟨by decide, by decide⟩
      (by decide) [32] [] (by decide) isBlank_nil [] 1 []).1⟩

/-! ## The attribute validator -/

theorem isspace_eq_zero_or_one (c : Int) : isspace c = 0 ∨ isspace c = 1 := by
  unfold isspace; split <;> simp

theorem skipSpaces_of_head (t : List Int) (h : ∀ x ∈ t.head?, isspace x = 0) :
    skipSpaces t = t := by
  cases t with
  | nil => rfl
  | cons c r =>
    have hc : isspace c = 0 := h c (by simp)
    simp [skipSpaces, hc]

theorem skipSpaces_append (w : List Int) (hw : IsSpaces w) (rest : List Int)
    (hr : ∀ x ∈ rest.head?, isspace x = 0) : skipSpaces (w ++ rest) = rest := by
  induction w with
  | nil => exact skipSpaces_of_head rest hr
  | cons c w ih =>
    have hc : isspace c = 1 := hw c (List.mem_cons_self _ _)
    simp only [List.cons_append, skipSpaces, hc]
    simpa using ih (fun x hx => hw x (List.mem_cons_of_mem _ hx))

theorem skipSpaces_spec (t : List Int) :
    ∃ w, IsSpaces w ∧ t = w ++ skipSpaces t := by
  induction t with
  | nil => exact ⟨[], by intro x hx; simp at hx, rfl⟩
  | cons c r ih =>
    rcases isspace_eq_zero_or_one c with hc | hc
    · exact ⟨[], by intro x hx; simp at hx, by simp [skipSpaces, hc]⟩
    · obtain ⟨w, hw, e⟩ := ih
      refine ⟨c :: w, ?_, ?_⟩
      · intro x hx
        rcases List.mem_cons.mp hx with h | h
        · rw [h]; exact hc
        · exact hw x h
      · simp only [skipSpaces, hc]
        simpa using e

theorem skipSpaces_length_le (t : List Int) : (skipSpaces t).length ≤ t.length := by
  obtain ⟨w, _, e⟩ := skipSpaces_spec t
  have := congrArg List.length e
  simp at this
  omega

theorem skipName_append (n : List Int) (hn : ∀ c ∈ n, c ≠ 0 ∧ isspace c = 0 ∧ c ≠ 61)
    (rest : List Int) (hr : ∀ x ∈ rest.head?, ¬ (x ≠ 0 ∧ isspace x = 0 ∧ x ≠ 61)) :
    skipName (n ++ rest) = rest := by
  induction n with
  | nil =>
    cases rest with
    | nil => rfl
    | cons x r =>
      have hx := hr x (by simp)
      simp only [List.nil_append, skipName]
      rw [if_neg hx]
  | cons c n ih =>
    have hc := hn c (List.mem_cons_self _ _)
    simp only [List.cons_append, skipName]
    rw [if_pos hc]
    exact ih (fun x hx => hn x (List.mem_cons_of_mem _ hx))

theorem skipName_spec (t : List Int) :
    ∃ n, (∀ c ∈ n, c ≠ 0 ∧ isspace c = 0 ∧ c ≠ 61) ∧ t = n ++ skipName t := by
  induction t with
  | nil => exact ⟨[], by intro x hx; simp at hx, rfl⟩
  | cons c r ih =>
    by_cases hc : c ≠ 0 ∧ isspace c = 0 ∧ c ≠ 61
    · obtain ⟨n, hn, e⟩ := ih
      refine ⟨c :: n, ?_, ?_⟩
      · intro x hx
        rcases List.mem_cons.mp hx with h | h
        · rw [h]; exact hc
        · exact hn x h
      · simp only [skipName]
        rw [if_pos hc]
        simpa using e
    · refine ⟨[], by intro x hx; simp at hx, ?_⟩
      simp only [skipName]
      rw [if_neg hc]
      rfl

theorem skipValue_append (q : Int) (v : List Int)
    (hv : ∀ c ∈ v, c ≠ q ∧ c ≠ 0 ∧ c ≠ 60 ∧ c ≠ 62) (rest : List Int) :
    skipValue q (v ++ q :: rest) = some (q :: rest) := by
  induction v with
  | nil => simp [skipValue]
  | cons c v ih =>
    obtain ⟨h1, h2, h3, h4⟩ := hv c (List.mem_cons_self _ _)
    simp only [List.cons_append, skipValue]
    rw [if_pos ⟨h1, h2⟩, if_neg (by simp [h3, h4])]
    exact ih (fun x hx => hv x (List.mem_cons_of_mem _ hx))

theorem skipValue_spec (q : Int) (t p : List Int) (h : skipValue q t = some p) :
    ∃ v, (∀ c ∈ v, c ≠ q ∧ c ≠ 0 ∧ c ≠ 60 ∧ c ≠ 62) ∧ t = v ++ p := by
  induction t with
  | nil =>
    simp [skipValue] at h
    exact ⟨[], by intro x hx; simp at hx, by simp [h]⟩
  | cons c r ih =>
    simp only [skipValue] at h
    by_cases hc : c ≠ q ∧ c ≠ 0
    · rw [if_pos hc] at h
      by_cases hb : c = 60 ∨ c = 62
      · rw [if_pos hb] at h; exact absurd h (by simp)
      · rw [if_neg hb] at h
        obtain ⟨v, hv, e⟩ := ih h
        refine ⟨c :: v, ?_, by simp [e]⟩
        intro x hx
        rcases List.mem_cons.mp hx with hx | hx
        · rw [hx]; exact ⟨hc.1, hc.2, fun h60 => hb (Or.inl h60), fun h62 => hb (Or.inr h62)⟩
        · exact hv x hx
    · rw [if_neg hc] at h
      refine ⟨[], by intro x hx; simp at hx, ?_⟩
      simpa using h

theorem deref_eq_cons {p : List Int} {c : Int} (h : deref p = c) (hc : c ≠ 0) :
    p = c :: p.tail := by
  cases p with
  | nil => exact absurd h.symm hc
  | cons x r => simp [deref] at h; simp [h]

theorem deref_nil : deref [] = 0 := rfl

theorem deref_cons (c : Int) (r : List Int) : deref (c :: r) = c := rfl

theorem isspace_of_not_name_char_head (w : List Int) (hw : IsSpaces w) (c : Int)
    (rest : List Int) : ∀ x ∈ (w ++ c :: rest).head?, isspace x ≠ 0 ∨ x = c := by
  cases w with
  | nil => intro x hx; simp at hx; exact Or.inr hx.symm
  | cons d w =>
    intro x hx
    simp at hx
    subst hx
    exact Or.inl (by rw [hw _ (List.mem_cons_self _ _)]; simp)

/-- One iteration of the validator's loop over a complete pair. -/
theorem isValidAttributesLoop_pair (f : Nat) (w₀ name w₁ w₂ v rest : List Int) (q : Int)
    (hw₀ : IsSpaces w₀) (hne : name ≠ []) (hn : ∀ c ∈ name, c ≠ 0 ∧ isspace c = 0 ∧ c ≠ 61)
    (hw₁ : IsSpaces w₁) (hw₂ : IsSpaces w₂) (hq : q = 34 ∨ q = 39)
    (hv : ∀ c ∈ v, c ≠ q ∧ c ≠ 0 ∧ c ≠ 60 ∧ c ≠ 62) :
    isValidAttributesLoop (f + 1) (w₀ ++ (name ++ (w₁ ++ 61 :: (w₂ ++ q :: (v ++ q :: rest)))))
      = isValidAttributesLoop f rest := by
  obtain ⟨a, name', rfl⟩ := List.exists_cons_of_ne_nil hne
  obtain ⟨ha0, has, ha61⟩ := hn a (List.mem_cons_self _ _)
  have hq0 : q ≠ 0 := by rcases hq with h | h <;> simp [h]
  have hqs : isspace q = 0 := by rcases hq with h | h <;> simp [h, isspace]
  have e1 : skipSpaces (w₀ ++ ((a :: name') ++ (w₁ ++ 61 :: (w₂ ++ q :: (v ++ q :: rest)))))
      = (a :: name') ++ (w₁ ++ 61 :: (w₂ ++ q :: (v ++ q :: rest))) :=
    skipSpaces_append w₀ hw₀ _ (by simpa using has)
  have e2 : skipName ((a :: name') ++ (w₁ ++ 61 :: (w₂ ++ q :: (v ++ q :: rest))))
      = w₁ ++ 61 :: (w₂ ++ q :: (v ++ q :: rest)) := by
    apply skipName_append _ hn
    intro x hx hcon
    rcases isspace_of_not_name_char_head w₁ hw₁ 61 _ x hx with h | h
    · exact h hcon.2.1
    · exact hcon.2.2 h
  have e3 : skipSpaces (w₁ ++ 61 :: (w₂ ++ q :: (v ++ q :: rest)))
      = 61 :: (w₂ ++ q :: (v ++ q :: rest)) :=
    skipSpaces_append w₁ hw₁ _ (by simp [isspace])
  have e4 : skipSpaces (w₂ ++ q :: (v ++ q :: rest)) = q :: (v ++ q :: rest) :=
    skipSpaces_append w₂ hw₂ _ (by simpa using hqs)
  have e5 := skipValue_append q v hv rest
  have hlen : ¬ ((a :: name') ++ (w₁ ++ 61 :: (w₂ ++ q :: (v ++ q :: rest)))).length
      = (w₁ ++ 61 :: (w₂ ++ q :: (v ++ q :: rest))).length := by
    simp only [List.length_append, List.length_cons]; omega
  have hd : deref ((a :: name') ++ (w₁ ++ 61 :: (w₂ ++ q :: (v ++ q :: rest)))) = a := rfl
  have hqq : ¬ (q ≠ 34 ∧ q ≠ 39) := by rcases hq with h | h <;> simp [h]
  rw [isValidAttributesLoop]
  simp only [e1, hd, ha0, if_false, e2, hlen, e3, deref_cons, ne_eq, not_true_eq_false,
    List.tail_cons, e4, hqq, e5]

/-- A text of the grammar passes the validator, one iteration per pair. -/
theorem isValidAttributesLoop_of_pairs (r : List Int) (hr : AttrPairs r)
    (hnul : ∀ c ∈ r, c ≠ 0) :
    ∃ k, k ≤ r.length ∧ ∀ (f : Nat) (w₀ : List Int), IsSpaces w₀ →
      isValidAttributesLoop (f + 1 + k) (w₀ ++ r) = some 1 := by
  induction hr with
  | nil =>
    refine ⟨0, le_refl _, fun f w₀ hw₀ => ?_⟩
    have e := skipSpaces_append w₀ hw₀ [] (by simp)
    simp only [List.append_nil] at e ⊢
    simp [isValidAttributesLoop, e, deref_nil]
  | cons name w₁ w₂ v w₃ r q hne hn hw₁ hw₂ hq hv hw₃ _ ih =>
    have hr0 : ∀ c ∈ r, c ≠ 0 := fun c hc => hnul c (by simp [hc])
    obtain ⟨k, hk, ih⟩ := ih hr0
    refine ⟨k + 1, by simp; omega, fun f w₀ hw₀ => ?_⟩
    have hn' : ∀ c ∈ name, c ≠ 0 ∧ isspace c = 0 ∧ c ≠ 61 :=
      fun c hc => ⟨hnul c (by simp [hc]), hn c hc⟩
    have hv' : ∀ c ∈ v, c ≠ q ∧ c ≠ 0 ∧ c ≠ 60 ∧ c ≠ 62 :=
      fun c hc => ⟨(hv c hc).1, hnul c (by simp [hc]), (hv c hc).2⟩
    have e : f + 1 + (k + 1) = (f + 1 + k) + 1 := by omega
    rw [e, isValidAttributesLoop_pair _ w₀ name w₁ w₂ v (w₃ ++ r) q hw₀ hne hn' hw₁ hw₂ hq hv']
    exact ih f w₃ hw₃

theorem isValidAttributes_of_matches (t : List Int) (hnul : ∀ c ∈ t, c ≠ 0)
    (h : MatchesAttributeGrammar t) : isValidAttributes t = some 1 := by
  obtain ⟨w, r, hw, hr, rfl⟩ := h
  obtain ⟨k, hk, hloop⟩ := isValidAttributesLoop_of_pairs r hr (fun c hc => hnul c (by simp [hc]))
  have e : (w ++ r).length + 1 = ((w ++ r).length - k) + 1 + k := by
    simp only [List.length_append]; omega
  unfold isValidAttributes
  rw [e]
  exact hloop _ w hw

/-- A NUL-free text that passes the validator is a text of the grammar. -/
theorem matches_of_isValidAttributesLoop (f : Nat) :
    ∀ t : List Int, (∀ c ∈ t, c ≠ 0) → isValidAttributesLoop f t = some 1 →
      MatchesAttributeGrammar t := by
  induction f with
  | zero => intro t _ h; simp [isValidAttributesLoop] at h
  | succ f ih =>
    intro t hnul h
    rw [isValidAttributesLoop] at h
    obtain ⟨w₀, hw₀, e₀⟩ := skipSpaces_spec t
    generalize skipSpaces t = p0 at h e₀
    dsimp only at h
    by_cases hd0 : deref p0 = 0
    · have hp0 : p0 = [] := by
        cases p0 with
        | nil => rfl
        | cons x r =>
          rw [deref_cons] at hd0
          exact absurd hd0 (hnul x (by rw [e₀]; simp))
      exact ⟨w₀, [], hw₀, AttrPairs.nil, by rw [e₀, hp0]⟩
    · rw [if_neg hd0] at h
      obtain ⟨name, hname, e₁⟩ := skipName_spec p0
      generalize skipName p0 = p1 at h e₁
      by_cases hl : p0.length = p1.length
      · rw [if_pos hl] at h; exact absurd h (by simp)
      · rw [if_neg hl] at h
        obtain ⟨w₁, hw₁, e₂⟩ := skipSpaces_spec p1
        generalize skipSpaces p1 = p2 at h e₂
        by_cases hd2 : deref p2 ≠ 61
        · rw [if_pos hd2] at h; exact absurd h (by simp)
        · rw [if_neg hd2] at h
          have e₃ := deref_eq_cons (not_not.mp hd2) (by decide)
          obtain ⟨w₂, hw₂, e₄⟩ := skipSpaces_spec p2.tail
          generalize skipSpaces p2.tail = p3 at h e₄
          by_cases hq : deref p3 ≠ 34 ∧ deref p3 ≠ 39
          · rw [if_pos hq] at h; exact absurd h (by simp)
          · rw [if_neg hq] at h
            have hq' : deref p3 = 34 ∨ deref p3 = 39 := by
              by_cases h34 : deref p3 = 34
              · exact Or.inl h34
              · exact Or.inr (not_not.mp fun h39 => hq ⟨h34, h39⟩)
            have hq0 : deref p3 ≠ 0 := by rcases hq' with h' | h' <;> simp [h']
            have e₅ := deref_eq_cons (rfl : deref p3 = deref p3) hq0
            cases hsv : skipValue (deref p3) p3.tail with
            | none => rw [hsv] at h; exact absurd h (by simp)
            | some p4 =>
              rw [hsv] at h
              dsimp only at h
              obtain ⟨v, hv, e₆⟩ := skipValue_spec _ _ _ hsv
              by_cases hd4 : deref p4 ≠ deref p3
              · rw [if_pos hd4] at h; exact absurd h (by simp)
              · rw [if_neg hd4] at h
                have e₇ := deref_eq_cons (not_not.mp hd4) hq0
                have et : t = w₀ ++ (name ++ (w₁ ++ 61 :: (w₂ ++ deref p3 :: (v ++
                    deref p3 :: p4.tail)))) := by
                  rw [← e₇, ← e₆, ← e₅, ← e₄, ← e₃, ← e₂, ← e₁, ← e₀]
                have hnul' : ∀ c ∈ p4.tail, c ≠ 0 := fun c hc => hnul c (by rw [et]; simp [hc])
                obtain ⟨w₃, r, hw₃, hr, e₈⟩ := ih p4.tail hnul' h
                have hne : name ≠ [] := by
                  intro hnil
                  apply hl
                  rw [e₁, hnil, List.nil_append]
                refine ⟨w₀, _, hw₀, AttrPairs.cons name w₁ w₂ v w₃ r (deref p3) hne
                  (fun c hc => (hname c hc).2) hw₁ hw₂ hq'
                  (fun c hc => ⟨(hv c hc).1, (hv c hc).2.2⟩) hw₃ hr, ?_⟩
                rw [et, e₈]

theorem skipName_length_le (t : List Int) : (skipName t).length ≤ t.length := by
  obtain ⟨n, _, e⟩ := skipName_spec t
  have := congrArg List.length e
  simp at this
  omega

theorem skipValue_length_le (q : Int) (t p : List Int) (h : skipValue q t = some p) :
    p.length ≤ t.length := by
  obtain ⟨v, _, e⟩ := skipValue_spec q t p h
  have := congrArg List.length e
  simp at this
  omega

/-- With more fuel than characters the validator's loop returns 0 or 1. -/
theorem isValidAttributesLoop_total (f : Nat) :
    ∀ t : List Int, t.length < f →
      isValidAttributesLoop f t = some 0 ∨ isValidAttributesLoop f t = some 1 := by
  induction f with
  | zero => intro t h; exact absurd h (Nat.not_lt_zero _)
  | succ f ih =>
    intro t hlen
    rw [isValidAttributesLoop]
    dsimp only
    have h0 := skipSpaces_length_le t
    have h1 := skipName_length_le (skipSpaces t)
    have h2 := skipSpaces_length_le (skipName (skipSpaces t))
    have h3 := skipSpaces_length_le (skipSpaces (skipName (skipSpaces t))).tail
    generalize skipSpaces (skipSpaces (skipName (skipSpaces t))).tail = p3 at h3 ⊢
    have h2' : (skipSpaces (skipName (skipSpaces t))).tail.length ≤ t.length := by
      rw [List.length_tail]; omega
    split_ifs with c1 c2 c3 c4
    · exact Or.inr rfl
    · exact Or.inl rfl
    · exact Or.inl rfl
    · exact Or.inl rfl
    · cases hsv : skipValue (deref p3) p3.tail with
      | none => exact Or.inl rfl
      | some p4 =>
        dsimp only
        have h4 := skipValue_length_le _ _ _ hsv
        rw [List.length_tail] at h4
        split_ifs with c5
        · exact Or.inl rfl
        · apply ih
          have hq0 : deref p3 ≠ 0 := by
            intro h0'
            apply c4
            rw [h0']
            decide
          have e₇ := deref_eq_cons (not_not.mp c5) hq0
          have := congrArg List.length e₇
          simp only [List.length_cons, List.length_tail] at this
          rw [List.length_tail]
          omega

theorem isValidAttributes_total (t : List Int) :
    isValidAttributes t = some 0 ∨ isValidAttributes t = some 1 :=
  isValidAttributesLoop_total _ t (Nat.lt_succ_self _)

/-- C7: `isValidAttributes` decides exactly the attribute grammar
`ws* ( name ws* '=' ws* ( dq [^dq<>]* dq | sq [^sq<>]* sq ) ws* )*` (`dq` the
double and `sq` the single quote, `ws` an `isspace` character, `name` a
non-empty run of characters that are neither white space nor `=`): on every
NUL-free text it returns 1 if the text matches the grammar and 0 otherwise;
in particular the empty text and a text of white space only are valid. -/
theorem isValidAttributes_iff_grammar (t : List Int) (hnul : ∀ c ∈ t, c ≠ 0) :
    (isValidAttributes t = some 1 ↔ MatchesAttributeGrammar t) ∧
    (isValidAttributes t = some 0 ↔ ¬ MatchesAttributeGrammar t) ∧
    isValidAttributes [] = some 1 ∧
    (IsSpaces t → isValidAttributes t = some 1) := by
  have hiff : isValidAttributes t = some 1 ↔ MatchesAttributeGrammar t :=
    ⟨matches_of_isValidAttributesLoop _ t hnul, isValidAttributes_of_matches t hnul⟩
  refine ⟨hiff, ?_, by decide, fun hs => ?_⟩
  · constructor
    · intro h0 hm
      rw [hiff.mpr hm] at h0
      exact absurd h0 (by simp)
    · intro hm
      rcases isValidAttributes_total t with h | h
      · exact h
      · exact absurd (hiff.mp h) hm
  · exact hiff.mpr ⟨t, [], hs, AttrPairs.nil, by simp⟩

/-- C7 at the texts `x = "1"  y='a b'`, which the validator accepts and which
therefore matches the grammar, and `x=1`, which it refuses and which therefore
does not. -/
theorem isValidAttributes_iff_grammar_witness :
    MatchesAttributeGrammar (chars "x = \"1\"  y='a b'") ∧
    ¬ MatchesAttributeGrammar (chars "x=1") :=
  ⟨(isValidAttributes_iff_grammar (chars "x = \"1\"  y='a b'") (by decide)).1.mp (by decide),
   (isValidAttributes_iff_grammar (chars "x=1") (by decide)).2.1.mp (by decide)⟩

/-! ## Values the validator refuses -/

theorem skipValue_bracket (q : Int) (v : List Int) (hv : ∀ c ∈ v, c ≠ q)
    (hb : ∃ c ∈ v, c = 60 ∨ c = 62) (rest : List Int) :
    skipValue q (v ++ rest) = none ∨ ∃ p, skipValue q (v ++ rest) = some p ∧ deref p = 0 := by
  induction v with
  | nil => obtain ⟨c, hc, _⟩ := hb; simp at hc
  | cons c v ih =>
    have hcq : c ≠ q := hv c (List.mem_cons_self _ _)
    simp only [List.cons_append, skipValue]
    by_cases h0 : c = 0
    · right
      exact ⟨c :: (v ++ rest), by simp [h0], by simp [h0, deref]⟩
    · rw [if_pos ⟨hcq, h0⟩]
      by_cases hbr : c = 60 ∨ c = 62
      · left; rw [if_pos hbr]
      · rw [if_neg hbr]
        apply ih (fun x hx => hv x (List.mem_cons_of_mem _ hx))
        obtain ⟨x, hx, hx'⟩ := hb
        rcases List.mem_cons.mp hx with h | h
        · rw [h] at hx'; exact absurd hx' hbr
        · exact ⟨x, h, hx'⟩

/-- The start of an iteration over `name = q ...`: the loop reaches the value. -/
theorem isValidAttributesLoop_value (f : Nat) (a rest : List Int) (q : Int) (hne : a ≠ [])
    (ha : ∀ c ∈ a, c ≠ 0 ∧ isspace c = 0 ∧ c ≠ 61) (hq : q = 34 ∨ q = 39) :
    isValidAttributesLoop (f + 1) (a ++ 61 :: q :: rest)
      = match skipValue q rest with
        | none => some 0
        | some ptr => if deref ptr ≠ q then some 0 else isValidAttributesLoop f ptr.tail := by
  obtain ⟨x, a', rfl⟩ := List.exists_cons_of_ne_nil hne
  obtain ⟨hx0, hxs, hx61⟩ := ha x (List.mem_cons_self _ _)
  have hqs : isspace q = 0 := by rcases hq with h | h <;> simp [h, isspace]
  have e1 : skipSpaces ((x :: a') ++ 61 :: q :: rest) = (x :: a') ++ 61 :: q :: rest :=
    skipSpaces_of_head _ (by simpa using hxs)
  have e2 : skipName ((x :: a') ++ 61 :: q :: rest) = 61 :: q :: rest :=
    skipName_append _ ha _ (by simp)
  have e3 : skipSpaces (61 :: q :: rest) = 61 :: q :: rest :=
    skipSpaces_of_head _ (by simp [isspace])
  have e4 : skipSpaces (q :: rest) = q :: rest := skipSpaces_of_head _ (by simpa using hqs)
  have hlen : ¬ ((x :: a') ++ 61 :: q :: rest).length = (61 :: q :: rest).length := by
    simp only [List.length_append, List.length_cons]; omega
  have hd : deref ((x :: a') ++ 61 :: q :: rest) = x := rfl
  have hqq : ¬ (q ≠ 34 ∧ q ≠ 39) := by rcases hq with h | h <;> simp [h]
  rw [isValidAttributesLoop]
  simp only [e1, hd, hx0, if_false, e2, hlen, e3, deref_cons, ne_eq, not_true_eq_false,
    List.tail_cons, e4, hqq]

theorem chars_angle_doc_rejected (MAX : Nat) (hM : 4 ≤ MAX) :
    performLexicalAnalysis MAX (chars "<a x=\"<y>\">") = .error 1 := by
  have h : performLexicalAnalysis 4 (chars "<a x=\"<y>\">") = .error 1 := by decide
  rw [performLexicalAnalysis_mono hM _ (by rw [h]; simp), h]

/-- C9: angle brackets inside attribute values are rejected by the validator:
for every attribute name `a` (non-empty, without NUL, white space or `=`),
every delimiter `q` among the double and the single quote, every value `v`
that does not contain `q` but contains a `<` or a `>`, and every suffix `S`,
`isValidAttributes` returns 0 on `a = q v q S` (written without blanks); and
the document `<a x="<y>">` is rejected whenever `attributeName` can hold the
text `x="` read up to the `<`. -/
theorem isValidAttributes_angle_bracket (MAX : Nat) (a v S : List Int) (q : Int)
    (hne : a ≠ []) (ha : ∀ c ∈ a, c ≠ 0 ∧ isspace c = 0 ∧ c ≠ 61) (hq : q = 34 ∨ q = 39)
    (hv : ∀ c ∈ v, c ≠ q) (hb : ∃ c ∈ v, c = 60 ∨ c = 62) :
    isValidAttributes (a ++ 61 :: q :: (v ++ q :: S)) = some 0 ∧
    (4 ≤ MAX → performLexicalAnalysis MAX (chars "<a x=\"<y>\">") = .error 1) := by
  refine ⟨?_, chars_angle_doc_rejected MAX⟩
  have hq0 : q ≠ 0 := by rcases hq with h | h <;> simp [h]
  unfold isValidAttributes
  rw [isValidAttributesLoop_value _ a _ q hne ha hq]
  rcases skipValue_bracket q v hv hb (q :: S) with h | ⟨p, h, hp⟩
  · rw [h]
  · rw [h]
    simp only
    rw [if_pos (by rw [hp]; exact fun h0 => hq0 h0.symm)]

/-- C9 at the text `x="<y>"`, with a buffer of 4 characters. -/
theorem isValidAttributes_angle_bracket_witness :
    isValidAttributes (chars "x=\"<y>\"") = some 0 ∧
    performLexicalAnalysis 4 (chars "<a x=\"<y>\">") = .error 1 :=
  ⟨(isValidAttributes_angle_bracket 4 (chars "x") (chars "<y>") [] 34 (by decide) (by decide)
      (by decide) (by decide) (by decide)).1,
   (isValidAttributes_angle_bracket 4 (chars "x") (chars "<y>") [] 34 (by decide) (by decide)
      (by decide) (by decide) (by decide)).2 (by decide)⟩

/-! ## The attribute loop -/

theorem readAttributes_eq (cur : Cursor) : readAttributes cur = readAttributesAcc cur 0 [] := rfl

theorem readAttributesAcc_stop {cur : Cursor}
    (h : ¬ (cur.character ≠ 62 ∧ cur.character ≠ 60 ∧ cur.character ≠ EOF)) (q : Int)
    (acc : List Int) : readAttributesAcc cur q acc = (acc, cur) := by
  obtain ⟨c, file, line⟩ := cur
  cases file <;> simp only [readAttributesAcc, readAttributesFrom] <;> rw [if_neg h]

theorem readAttributesAcc_slash {cur : Cursor} (h : cur.character = 47) (acc : List Int) :
    readAttributesAcc cur 0 acc = (acc, cur) := by
  obtain ⟨c, file, line⟩ := cur
  simp only at h
  subst h
  cases file <;> simp [readAttributesAcc, readAttributesFrom, EOF]

theorem readAttributesAcc_step (c : Int) (file : List Int) (line : Nat) (q : Int)
    (acc : List Int) (h : c ≠ 62 ∧ c ≠ 60 ∧ c ≠ EOF) (h' : ¬ (c = 47 ∧ quoteAfter q c = 0)) :
    readAttributesAcc ⟨c, file, line⟩ q acc
      = readAttributesAcc (advance file line) (quoteAfter q c) (acc ++ [c]) := by
  cases file with
  | nil =>
    have hE : ¬ (EOF ≠ 62 ∧ EOF ≠ 60 ∧ EOF ≠ EOF) := by simp
    simp only [readAttributesAcc, readAttributesFrom, advance_nil]
    unfold quoteAfter at h'
    rw [if_pos h, if_neg h', if_neg hE]
  | cons d rest =>
    simp only [readAttributesAcc, readAttributesFrom, advance_cons]
    unfold quoteAfter at h'
    rw [if_pos h, if_neg h']
    rfl

/-- The attribute loop stores a text it goes over entirely and then stands at
the first character after it. -/
theorem readAttributesAcc_advance_run (t : List Int) (rest : List Int) :
    ∀ (q : Int) (acc : List Int) (line : Nat), Accumulates q t →
      readAttributesAcc (advance (t ++ rest) line) q acc
        = readAttributesAcc (advance rest (line + t.count 10)) (quoteRun q t) (acc ++ t) := by
  induction t with
  | nil => intro q acc line _; simp [quoteRun]
  | cons c t ih =>
    intro q acc line h
    obtain ⟨h1, h2, h3⟩ := h
    rw [List.cons_append, advance_cons, readAttributesAcc_step c _ _ q acc h1 h2, ih _ _ _ h3]
    have hl : (if c = 10 then line + 1 else line) + t.count 10 = line + (c :: t).count 10 := by
      by_cases h10 : c = 10
      · subst h10; simp; omega
      · simp [h10, List.count_cons]
    rw [hl]
    simp [quoteRun]

theorem accumulates_of_plain (t : List Int)
    (h : ∀ c ∈ t, c ≠ 62 ∧ c ≠ 60 ∧ c ≠ EOF ∧ c ≠ 47) : ∀ q, Accumulates q t := by
  induction t with
  | nil => intro q; trivial
  | cons c t ih =>
    intro q
    obtain ⟨h1, h2, h3, h4⟩ := h c (List.mem_cons_self _ _)
    exact ⟨⟨h1, h2, h3⟩, fun hc => h4 hc.1, ih (fun x hx => h x (List.mem_cons_of_mem _ hx)) _⟩

theorem quoteRun_append (q : Int) (t u : List Int) :
    quoteRun q (t ++ u) = quoteRun (quoteRun q t) u := by
  simp [quoteRun]

theorem quoteRun_of_no_quote (t : List Int) (h : ∀ c ∈ t, c ≠ 34 ∧ c ≠ 39) :
    ∀ q, quoteRun q t = q := by
  induction t with
  | nil => intro q; rfl
  | cons c t ih =>
    intro q
    obtain ⟨h1, h2⟩ := h c (List.mem_cons_self _ _)
    have e : quoteAfter q c = q := by simp [quoteAfter, h1, h2]
    simp only [quoteRun, List.foldl_cons, e]
    exact ih (fun x hx => h x (List.mem_cons_of_mem _ hx)) q

theorem quoteRun_cons (q c : Int) (t : List Int) :
    quoteRun q (c :: t) = quoteRun (quoteAfter q c) t := rfl

theorem isspace_cases {c : Int} (h : isspace c = 1) : c = 32 ∨ (9 ≤ c ∧ c ≤ 13) := by
  unfold isspace at h
  split at h
  · assumption
  · simp at h

theorem isspace_of_isLetter {c : Int} (h : isLetter c = 1) : isspace c = 0 := by
  have hb := isLetter_bounds h
  unfold isspace
  rw [if_neg]
  omega

/-! ## Blocks of attribute pairs -/

theorem attrBlock_chars (B : List Int) (hB : AttrBlock B) :
    ∀ c ∈ B, c ≠ 62 ∧ c ≠ 60 ∧ c ≠ EOF ∧ c ≠ 47 ∧ c ≠ 0 := by
  have hletter : ∀ c : Int, isLetter c = 1 → c ≠ 62 ∧ c ≠ 60 ∧ c ≠ EOF ∧ c ≠ 47 ∧ c ≠ 0 := by
    intro c hc
    have := isLetter_bounds hc
    unfold EOF
    omega
  have hplain : ∀ v, IsPlainValue v → ∀ c ∈ v, c ≠ 62 ∧ c ≠ 60 ∧ c ≠ EOF ∧ c ≠ 47 ∧ c ≠ 0 :=
    fun v hv c hc => ⟨(hv c hc).2.2.2.1, (hv c hc).2.2.1, (hv c hc).2.2.2.2.2.2,
      (hv c hc).2.2.2.2.1, (hv c hc).2.2.2.2.2.1⟩
  have hspace : ∀ c : Int, isspace c = 1 → c ≠ 62 ∧ c ≠ 60 ∧ c ≠ EOF ∧ c ≠ 47 ∧ c ≠ 0 := by
    intro c hc
    have := isspace_cases hc
    unfold EOF
    omega
  induction hB with
  | one a v ha hv =>
    intro c hc
    simp only [List.mem_append, List.mem_cons, List.mem_singleton, List.not_mem_nil,
      or_false] at hc
    rcases hc with h | h | h | h | h
    · exact hletter c (ha.2 c h)
    · subst h; simp [EOF]
    · subst h; simp [EOF]
    · exact hplain v hv c h
    · subst h; simp [EOF]
  | cons a v w B ha hv _ hw _ ih =>
    intro c hc
    simp only [List.mem_append, List.mem_cons] at hc
    rcases hc with h | h | h | h | h | h | h
    · exact hletter c (ha.2 c h)
    · subst h; simp [EOF]
    · subst h; simp [EOF]
    · exact hplain v hv c h
    · subst h; simp [EOF]
    · exact hspace c (hw c h)
    · exact ih c h

theorem quoteRun_pair (a v : List Int) (ha : IsName a) (hv : IsPlainValue v) (rest : List Int) :
    quoteRun 0 (a ++ 61 :: 34 :: (v ++ 34 :: rest)) = quoteRun 0 rest := by
  have h1 : ∀ q, quoteRun q a = q := quoteRun_of_no_quote a (fun c hc => by
    have := isLetter_bounds (ha.2 c hc)
    omega)
  have h2 : ∀ q, quoteRun q v = q :=
    quoteRun_of_no_quote v (fun c hc => ⟨(hv c hc).1, (hv c hc).2.1⟩)
  rw [quoteRun_append, h1, quoteRun_cons, quoteRun_cons, quoteRun_append, h2, quoteRun_cons]
  rfl

theorem attrBlock_quoteRun (B : List Int) (hB : AttrBlock B) : quoteRun 0 B = 0 := by
  induction hB with
  | one a v ha hv => rw [quoteRun_pair a v ha hv]; rfl
  | cons a v w B ha hv _ hw _ ih =>
    have h3 : ∀ q, quoteRun q w = q := quoteRun_of_no_quote w (fun c hc => by
      have := isspace_cases (hw c hc)
      omega)
    rw [quoteRun_pair a v ha hv, quoteRun_append, h3, ih]

theorem attrBlock_pairs (B : List Int) (hB : AttrBlock B) : AttrPairs B := by
  have hname : ∀ a, IsName a → ∀ c ∈ a, isspace c = 0 ∧ c ≠ 61 := fun a ha c hc =>
    ⟨isspace_of_isLetter (ha.2 c hc), by have := isLetter_bounds (ha.2 c hc); omega⟩
  have hnil : IsSpaces [] := fun x hx => absurd hx (List.not_mem_nil _)
  induction hB with
  | one a v ha hv =>
    have h := AttrPairs.cons a [] [] v [] [] 34 ha.1 (hname a ha) hnil hnil (Or.inl rfl)
      (fun c hc => ⟨(hv c hc).1, (hv c hc).2.2.1, (hv c hc).2.2.2.1⟩) hnil AttrPairs.nil
    simpa using h
  | cons a v w B ha hv _ hw _ ih =>
    have h := AttrPairs.cons a [] [] v w B 34 ha.1 (hname a ha) hnil hnil (Or.inl rfl)
      (fun c hc => ⟨(hv c hc).1, (hv c hc).2.2.1, (hv c hc).2.2.2.1⟩) hw ih
    simpa using h

theorem attrBlock_head (B : List Int) (hB : AttrBlock B) :
    B ≠ [] ∧ ∀ x ∈ B.head?, isLetter x = 1 := by
  cases hB with
  | one a v ha hv =>
    refine ⟨?_, ha.head_letter _⟩
    obtain ⟨x, a', rfl⟩ := List.exists_cons_of_ne_nil ha.1
    simp
  | cons a v w B ha hv _ hw _ =>
    refine ⟨?_, ha.head_letter _⟩
    obtain ⟨x, a', rfl⟩ := List.exists_cons_of_ne_nil ha.1
    simp

theorem isValidAttributes_attrBlock (B : List Int) (hB : AttrBlock B) :
    isValidAttributes B = some 1 :=
  isValidAttributes_of_matches B (fun c hc => (attrBlock_chars B hB c hc).2.2.2.2)
    ⟨[], B, fun _ hx => absurd hx (List.not_mem_nil _), attrBlock_pairs B hB, rfl⟩

theorem accumulates_attrBlock (B : List Int) (hB : AttrBlock B) : Accumulates 0 B :=
  accumulates_of_plain B (fun c hc =>
    ⟨(attrBlock_chars B hB c hc).1, (attrBlock_chars B hB c hc).2.1,
      (attrBlock_chars B hB c hc).2.2.1, (attrBlock_chars B hB c hc).2.2.2.1⟩) 0

/-! ## Opening tags with attributes -/

theorem readAttributesAcc_slash_mk (file : List Int) (line : Nat) (acc : List Int) :
    readAttributesAcc ⟨47, file, line⟩ 0 acc = (acc, ⟨47, file, line⟩) :=
  readAttributesAcc_slash rfl acc

theorem readAttributesAcc_gt_mk (file : List Int) (line : Nat) (q : Int) (acc : List Int) :
    readAttributesAcc ⟨62, file, line⟩ q acc = (acc, ⟨62, file, line⟩) :=
  readAttributesAcc_stop (fun h => h.1 rfl) q acc

/-- From the end of the tag name to the first character of the attributes:
the handler skips the white space and enters its last part. -/
theorem handleOpeningTag_to_attributes (MAX : Nat) (n : List Int) (hn : IsName n)
    (hlen : n.length < 100) (w : List Int) (hw : IsBlank w) (hwne : w ≠ []) (X : List Int)
    (hX : ∀ x ∈ X.head?, isLetter x = 1) (hXne : X ≠ []) (line : Nat) (s : List (List Int)) :
    handleOpeningTag MAX (advance (n ++ (w ++ X)) line) s
      = handleOpeningTagAttributes MAX n (advance X (line + w.count 10)) s := by
  have hwl : ∀ x ∈ (w ++ X).head?, isLetter x = 0 := by
    obtain ⟨c, w', rfl⟩ := List.exists_cons_of_ne_nil hwne
    intro x hx
    simp at hx
    subst hx
    exact isLetter_of_isWhiteSpace (hw _ (List.mem_cons_self _ _))
  have hrun := readLettersAcc_advance_run n hn.2 (w ++ X) hwl line []
  have hlen' : ¬ 100 ≤ n.length := by omega
  obtain ⟨c, w', rfl⟩ := List.exists_cons_of_ne_nil hwne
  obtain ⟨x, X', rfl⟩ := List.exists_cons_of_ne_nil hXne
  have hx : isLetter x = 1 := hX x (by simp)
  have hc : isWhiteSpace c = 1 := hw c (List.mem_cons_self _ _)
  have hw' : IsBlank w' := fun y hy => hw y (List.mem_cons_of_mem _ hy)
  have hc47 : c ≠ 47 := by rcases isWhiteSpace_cases hc with h | h | h <;> simp [h]
  have hc62 : c ≠ 62 := by rcases isWhiteSpace_cases hc with h | h | h <;> simp [h]
  have hx47 := ne_slash_of_isLetter hx
  have hx62 : x ≠ 62 := by have := isLetter_bounds hx; omega
  have h1 : skipWhiteSpaces ⟨c, w' ++ x :: X', if c = 10 then line + 1 else line⟩
      = advance (x :: X') ((if c = 10 then line + 1 else line) + w'.count 10) := by
    rw [skipWhiteSpaces_of_ws hc]
    exact skipWhiteSpaces_advance_run w' hw' (x :: X')
      (by simpa using isWhiteSpace_of_isLetter hx) _
  have hl : (if c = 10 then line + 1 else line) + w'.count 10 = line + (c :: w').count 10 := by
    by_cases h10 : c = 10
    · subst h10; simp; omega
    · simp [h10, List.count_cons]
  rw [hl] at h1
  simp only [List.nil_append, List.cons_append] at hrun
  simp [handleOpeningTag, readLetters_eq, hrun, advance_cons, hlen', hc, hc47, hc62, h1,
    hx, hx47, hx62, Result.bind]

/-- The last part of the handler on an attribute text followed by `/>`:
nothing is pushed. -/
theorem handleOpeningTagAttributes_selfClosing (MAX : Nat) (n T : List Int)
    (hacc : Accumulates 0 T) (hq : quoteRun 0 T = 0) (hvalid : isValidAttributes T = some 1)
    (hM : T.length < MAX) (w : List Int) (hw : IsBlank w) (rest : List Int) (line : Nat)
    (s : List (List Int)) :
    handleOpeningTagAttributes MAX n (advance (T ++ 47 :: (w ++ 62 :: rest)) line) s
      = .ok (⟨62, rest, line + T.count 10 + w.count 10⟩, s) := by
  have h1 := readAttributesAcc_advance_run T (47 :: (w ++ 62 :: rest)) 0 [] line hacc
  rw [hq, advance_cons, readAttributesAcc_slash_mk] at h1
  simp only [List.nil_append, show ¬ (47 : Int) = 10 by decide, if_false] at h1
  have h2 := expectTagEnd_run 47 w hw rest (line + T.count 10)
  have hM' : ¬ MAX ≤ T.length := by omega
  simp [handleOpeningTagAttributes, readAttributes_eq, h1, hvalid, hM', h2, Result.bind]

/-- The last part of the handler on an attribute text followed by `>`: the
name is pushed. -/
theorem handleOpeningTagAttributes_open (MAX : Nat) (n T : List Int)
    (hacc : Accumulates 0 T) (hvalid : isValidAttributes T = some 1)
    (hM : T.length < MAX) (rest : List Int) (line : Nat) (s : List (List Int)) :
    handleOpeningTagAttributes MAX n (advance (T ++ 62 :: rest) line) s
      = .ok (⟨62, rest, line + T.count 10⟩, n :: s) := by
  have h1 := readAttributesAcc_advance_run T (62 :: rest) 0 [] line hacc
  rw [advance_cons, readAttributesAcc_gt_mk] at h1
  simp only [List.nil_append, show ¬ (62 : Int) = 10 by decide, if_false] at h1
  have hM' : ¬ MAX ≤ T.length := by omega
  simp [handleOpeningTagAttributes, readAttributes_eq, h1, hvalid, hM', Result.bind, StackPush]

/-- A closing tag that does not name the top of the stack, or that meets an
empty stack, is an error, reported once its name has been read. -/
theorem handleClosingTag_mismatch (n : List Int) (hn : IsName n) (hlen : n.length < 10000)
    (w : List Int) (hw : IsBlank w) (rest : List Int) (hr : ∀ x ∈ rest.head?, isLetter x = 0)
    (c : Int) (line : Nat) (s : List (List Int)) (hs : ∀ top ∈ s.head?, top ≠ n) :
    handleClosingTag ⟨c, w ++ (n ++ rest), line⟩ s
      = .error (advance rest (line + w.count 10)).line := by
  have h1 := skipWhiteSpaces_advance_run w hw (n ++ rest) (hn.head_not_ws _) line
  have h2 := readLettersAcc_advance_run n hn.2 rest hr (line + w.count 10) []
  have h4 := hn.advance_letter rest (line + w.count 10)
  have hlen' : ¬ 10000 ≤ n.length := by omega
  cases s with
  | nil =>
    simp [handleClosingTag, h1, readLetters_eq, h2, h4, StackPop, hlen']
  | cons top s' =>
    have htop : top ≠ n := hs top (by simp)
    simp [handleClosingTag, h1, readLetters_eq, h2, h4, StackPop, hlen', Ne.symm htop]

/-- One iteration on a self-closing tag with attributes leaves the stack as
it was. -/
theorem scanLoop_attributes_selfClosing (MAX f : Nat) (n : List Int) (hn : IsName n)
    (hlen : n.length < 100) (w₁ : List Int) (hw₁ : IsBlank w₁) (hwne : w₁ ≠ []) (T : List Int)
    (hT : ∀ x ∈ T.head?, isLetter x = 1) (hTne : T ≠ []) (hacc : Accumulates 0 T)
    (hq : quoteRun 0 T = 0) (hvalid : isValidAttributes T = some 1) (hM : T.length < MAX)
    (w₂ : List Int) (hw₂ : IsBlank w₂) (rest : List Int) (line : Nat) (s : List (List Int)) :
    scanLoop MAX (f + 1) (60 :: (n ++ (w₁ ++ (T ++ 47 :: (w₂ ++ 62 :: rest))))) line s
      = scanLoop MAX f rest (line + w₁.count 10 + T.count 10 + w₂.count 10) s := by
  have h2 : skipWhiteSpaces (advance (n ++ (w₁ ++ (T ++ 47 :: (w₂ ++ 62 :: rest)))) line)
      = advance (n ++ (w₁ ++ (T ++ 47 :: (w₂ ++ 62 :: rest)))) line :=
    skipWhiteSpaces_of_not (isWhiteSpace_of_isLetter (hn.advance_letter _ _))
  have h3 := hn.advance_letter (w₁ ++ (T ++ 47 :: (w₂ ++ 62 :: rest))) line
  have h4 := ne_slash_of_isLetter h3
  have h5 := handleOpeningTag_to_attributes MAX n hn hlen w₁ hw₁ hwne
    (T ++ 47 :: (w₂ ++ 62 :: rest)) (by rw [List.head?_append_of_ne_nil _ hTne]; exact hT)
    (by simp [hTne]) line s
  have h6 := handleOpeningTagAttributes_selfClosing MAX n T hacc hq hvalid hM w₂ hw₂ rest
    (line + w₁.count 10) s
  simp [scanLoop, advance_cons, skipWhiteSpaces_lt, h2, EOF, h3, h4, h5, h6, Result.bind]

/-- One iteration on a closing tag that does not name the top of the stack,
or meets an empty stack, ends the scan with an error. -/
theorem scanLoop_close_mismatch (MAX f : Nat) (n : List Int) (hn : IsName n)
    (hlen : n.length < 10000) (w₀ w₁ : List Int) (hw₀ : IsBlank w₀) (hw₁ : IsBlank w₁)
    (rest : List Int) (hr : ∀ x ∈ rest.head?, isLetter x = 0) (line : Nat)
    (s : List (List Int)) (hs : ∀ top ∈ s.head?, top ≠ n) :
    scanLoop MAX (f + 1) (60 :: (w₀ ++ 47 :: (w₁ ++ (n ++ rest)))) line s
      = .error (advance rest (line + w₀.count 10 + w₁.count 10)).line := by
  have h2 := skipWhiteSpaces_advance_run w₀ hw₀ (47 :: (w₁ ++ (n ++ rest)))
    (by simp [isWhiteSpace]) line
  have h3 := handleClosingTag_mismatch n hn hlen w₁ hw₁ rest hr 47 (line + w₀.count 10) s hs
  simp [scanLoop, advance_cons, skipWhiteSpaces_lt, h2, EOF, isLetter, h3, Result.bind]

theorem isBlank_space : IsBlank [32] := by decide

/-- C4, as amended: for every non-empty alphabetic name `n` (within the name
buffer) and every attribute text `B` that is a white-space-separated, non-empty
sequence of pairs `a="v"`, `a` alphabetic and `v` without quote character,
`<`, `>`, `/`, NUL byte or byte `0xFF`, with `B` shorter than `attributeName`:
the document `<n B/>` is accepted with the Tag Stack empty at the end, the
handler returning at the `>` with the stack it was given (`n` is not pushed),
and the document `<n B/></n>` is rejected. -/
theorem selfClosing_attributes_accepted (MAX : Nat) (n B rest : List Int) (line : Nat)
    (s : List (List Int)) (hn : IsName n) (hlen : n.length < 100) (hB : AttrBlock B)
    (hM : B.length < MAX) :
    performLexicalAnalysis MAX (60 :: (n ++ 32 :: (B ++ [47, 62]))) = .ok [] ∧
    handleOpeningTag MAX (advance (n ++ 32 :: (B ++ 47 :: 62 :: rest)) line) s
      = .ok (⟨62, rest, line + B.count 10⟩, s) ∧
    performLexicalAnalysis MAX (60 :: (n ++ 32 :: (B ++ 47 :: 62 :: 60 :: 47 :: (n ++ [62]))))
      = .error (1 + B.count 10) := by
  have hacc := accumulates_attrBlock B hB
  have hq := attrBlock_quoteRun B hB
  have hvalid := isValidAttributes_attrBlock B hB
  obtain ⟨hBne, hBhead⟩ := attrBlock_head B hB
  have hstep : ∀ (f : Nat) (rest : List Int) (line : Nat) (s : List (List Int)),
      scanLoop MAX (f + 1) (60 :: (n ++ 32 :: (B ++ 47 :: 62 :: rest))) line s
        = scanLoop MAX f rest (line + B.count 10) s := by
    intro f rest line s
    have h := scanLoop_attributes_selfClosing MAX f n hn hlen [32] isBlank_space (by simp) B
      hBhead hBne hacc hq hvalid hM [] isBlank_nil rest line s
    simpa using h
  refine ⟨?_, ?_, ?_⟩
  · have e : (60 :: (n ++ 32 :: (B ++ [47, 62]))).length + 1
        = (n.length + B.length + 3 + 1) + 1 := by simp; omega
    unfold performLexicalAnalysis
    rw [e]
    have h := hstep (n.length + B.length + 3 + 1) [] 1 StackCreate
    simp only [List.append_nil] at h ⊢
    rw [h, scanLoop_nil]
    rfl
  · have h1 := handleOpeningTag_to_attributes MAX n hn hlen [32] isBlank_space (by simp)
      (B ++ 47 :: 62 :: rest) (by rw [List.head?_append_of_ne_nil _ hBne]; exact hBhead)
      (by simp [hBne]) line s
    have h2 := handleOpeningTagAttributes_selfClosing MAX n B hacc hq hvalid hM [] isBlank_nil
      rest line s
    simp only [List.nil_append, List.singleton_append, List.count_nil, Nat.add_zero,
      show List.count (10 : Int) [32] = 0 by decide] at h1 h2
    rw [h1, h2]
  · have e : (60 :: (n ++ 32 :: (B ++ 47 :: 62 :: 60 :: 47 :: (n ++ [62])))).length + 1
        = (n.length + n.length + B.length + 6 + 1) + 1 := by simp; omega
    have h2 := scanLoop_close_mismatch MAX (n.length + n.length + B.length + 6) n hn (by omega)
      [] [] isBlank_nil isBlank_nil [62] (by simp [isLetter]) (1 + B.count 10) StackCreate
      (by simp [StackCreate])
    simp only [List.nil_append, List.count_nil, Nat.add_zero] at h2
    unfold performLexicalAnalysis
    rw [e, hstep, h2]
    rfl

/-- The attribute text of `<label text="hi"/>` is a block of pairs. -/
theorem label_text_block : AttrBlock (chars "text=\"hi\"") :=
  AttrBlock.one (chars "text") (chars "hi") (by decide) (by decide)

/-- C4 as stated fails at `<label text="h?i"/>` with the byte `0xFF`, and with
a NUL byte, for `?`: the value holds no quote character, `<`, `>` or `/`, and
the document is not accepted, whatever the size of `attributeName`; where that
buffer can hold the text read, the scan reports an error. The attribute loop
stops at the byte `0xFF` as at the end of the input, and `isValidAttributes`
reads the text stored as a C string, which ends at the NUL. -/
theorem selfClosing_attributes_counterexample :
    IsName (chars "label") ∧ IsName (chars "text") ∧
    (∀ c ∈ chars "h" ++ -1 :: chars "i", c ≠ 34 ∧ c ≠ 39 ∧ c ≠ 60 ∧ c ≠ 62 ∧ c ≠ 47) ∧
    (∀ MAX, performLexicalAnalysis MAX
      (chars "<label text=\"" ++ ((chars "h" ++ -1 :: chars "i") ++ chars "\"/>")) ≠ .ok []) ∧
    performLexicalAnalysis 8
      (chars "<label text=\"" ++ ((chars "h" ++ -1 :: chars "i") ++ chars "\"/>")) = .error 1 ∧
    (∀ c ∈ chars "h" ++ 0 :: chars "i", c ≠ 34 ∧ c ≠ 39 ∧ c ≠ 60 ∧ c ≠ 62 ∧ c ≠ 47) ∧
    (∀ MAX, performLexicalAnalysis MAX
      (chars "<label text=\"" ++ ((chars "h" ++ 0 :: chars "i") ++ chars "\"/>")) ≠ .ok []) ∧
    performLexicalAnalysis 11
      (chars "<label text=\"" ++ ((chars "h" ++ 0 :: chars "i") ++ chars "\"/>")) = .error 1 := by
  refine ⟨by decide, by decide, by decide, fun MAX => ?_, by decide, by decide, fun MAX => ?_,
    by decide⟩
  · by_cases h : 8 ≤ MAX
    · rw [performLexicalAnalysis_mono h _ (by decide)]
      decide
    · have h' : MAX < 8 := Nat.lt_of_not_le h
      interval_cases MAX <;> decide
  · by_cases h : 11 ≤ MAX
    · rw [performLexicalAnalysis_mono h _ (by decide)]
      decide
    · have h' : MAX < 11 := Nat.lt_of_not_le h
      interval_cases MAX <;> decide

/-- C4 at `<label text="hi"/>`, with a buffer of 10 characters and the handler
entered on a stack that holds `window`. -/
theorem selfClosing_attributes_accepted_witness :
    performLexicalAnalysis 10 (chars "<label text=\"hi\"/>") = .ok [] ∧
    handleOpeningTag 10 (advance (chars "label text=\"hi\"/>") 1) [chars "window"]
      = .ok (⟨62, [], 1⟩, [chars "window"]) ∧
    performLexicalAnalysis 10 (chars "<label text=\"hi\"/></label>") = .error 1 :=
  selfClosing_attributes_accepted 10 (chars "label") (chars "text=\"hi\"") [] 1
    [chars "window"] (by decide) (by decide) label_text_block (by decide)

/-! ## Attribute texts the validator refuses -/

/-- Whatever follows, the text stored by the attribute loop up to the next
`>` extends what was stored before by a prefix of the input. -/
theorem readAttributesAcc_initial (t rest : List Int) :
    ∀ (q : Int) (acc : List Int) (line : Nat),
      ∃ p, p <+: t ∧ (readAttributesAcc (advance (t ++ 62 :: rest) line) q acc).1 = acc ++ p := by
  induction t with
  | nil =>
    intro q acc line
    refine ⟨[], List.prefix_refl _, ?_⟩
    rw [List.nil_append, advance_cons, readAttributesAcc_gt_mk]
    simp
  | cons c t ih =>
    intro q acc line
    rw [List.cons_append, advance_cons]
    by_cases hstop : c ≠ 62 ∧ c ≠ 60 ∧ c ≠ EOF
    · by_cases hslash : c = 47 ∧ quoteAfter q c = 0
      · have hq : q = 0 := by
          have h := hslash.2
          rw [hslash.1] at h
          simpa [quoteAfter] using h
        refine ⟨[], List.nil_prefix, ?_⟩
        rw [hq, hslash.1, readAttributesAcc_slash_mk]
        simp
      · rw [readAttributesAcc_step c _ _ q acc hstop hslash]
        obtain ⟨p, hp, e⟩ := ih (quoteAfter q c) (acc ++ [c]) (if c = 10 then line + 1 else line)
        refine ⟨c :: p, List.cons_prefix_cons.mpr ⟨rfl, hp⟩, ?_⟩
        rw [e]
        simp
    · refine ⟨[], List.nil_prefix, ?_⟩
      rw [readAttributesAcc_stop hstop]
      simp

/-- The text the handler stores when the input stands at `t₀ t >`, with `t₀`
gone over entirely: `t₀` followed by a prefix of `t`. -/
theorem readAttributes_initial (t₀ t rest : List Int) (h₀ : Accumulates 0 t₀) (line : Nat) :
    ∃ p, p <+: t ∧ (readAttributes (advance (t₀ ++ (t ++ 62 :: rest)) line)).1 = t₀ ++ p := by
  rw [readAttributes_eq, readAttributesAcc_advance_run t₀ _ 0 [] line h₀]
  exact readAttributesAcc_initial t rest _ _ _

theorem handleOpeningTagAttributes_invalid (MAX : Nat) (n : List Int) (cur : Cursor)
    (s : List (List Int)) (h1 : (readAttributes cur).1.length < MAX)
    (h2 : isValidAttributes (readAttributes cur).1 = some 0) :
    handleOpeningTagAttributes MAX n cur s = .error (readAttributes cur).2.line := by
  have hM : ¬ MAX ≤ (readAttributes cur).1.length := by omega
  simp [handleOpeningTagAttributes, hM, h2]

/-- An iteration that meets `<` and a name hands over to `handleOpeningTag`. -/
theorem scanLoop_tag (MAX f : Nat) (n : List Int) (hn : IsName n) (rest : List Int)
    (line : Nat) (s : List (List Int)) :
    scanLoop MAX (f + 1) (60 :: (n ++ rest)) line s
      = (handleOpeningTag MAX (advance (n ++ rest) line) s).bind fun r =>
          scanLoop MAX f r.1.file r.1.line r.2 := by
  have h2 : skipWhiteSpaces (advance (n ++ rest) line) = advance (n ++ rest) line :=
    skipWhiteSpaces_of_not (isWhiteSpace_of_isLetter (hn.advance_letter _ _))
  have h3 := hn.advance_letter rest line
  have h4 := ne_slash_of_isLetter h3
  simp [scanLoop, advance_cons, skipWhiteSpaces_lt, h2, EOF, h3, h4]

/-- A document `<n X` whose attribute text is refused is rejected. -/
theorem performLexicalAnalysis_invalid_attributes (MAX : Nat) (n X : List Int) (hn : IsName n)
    (hlen : n.length < 100) (hX : ∀ x ∈ X.head?, isLetter x = 1) (hXne : X ≠ [])
    (h1 : (readAttributes (advance X 1)).1.length < MAX)
    (h2 : isValidAttributes (readAttributes (advance X 1)).1 = some 0) :
    ∃ line, performLexicalAnalysis MAX (60 :: (n ++ 32 :: X)) = .error line := by
  refine ⟨(readAttributes (advance X 1)).2.line, ?_⟩
  have h := handleOpeningTag_to_attributes MAX n hn hlen [32] isBlank_space (by simp) X hX hXne
    1 StackCreate
  simp only [List.singleton_append, show List.count (10 : Int) [32] = 0 by decide,
    Nat.add_zero] at h
  unfold performLexicalAnalysis
  rw [List.length_cons, scanLoop_tag MAX _ n hn, h,
    handleOpeningTagAttributes_invalid MAX n _ _ h1 h2]
  rfl

theorem isValidAttributesLoop_unquoted (f : Nat) (a p : List Int) (hne : a ≠ [])
    (ha : ∀ c ∈ a, c ≠ 0 ∧ isspace c = 0 ∧ c ≠ 61)
    (hp : ∀ x ∈ p.head?, isspace x = 0 ∧ x ≠ 34 ∧ x ≠ 39) :
    isValidAttributesLoop (f + 1) (a ++ 61 :: p) = some 0 := by
  obtain ⟨x, a', rfl⟩ := List.exists_cons_of_ne_nil hne
  obtain ⟨hx0, hxs, hx61⟩ := ha x (List.mem_cons_self _ _)
  have e1 : skipSpaces ((x :: a') ++ 61 :: p) = (x :: a') ++ 61 :: p :=
    skipSpaces_of_head _ (by simpa using hxs)
  have e2 : skipName ((x :: a') ++ 61 :: p) = 61 :: p := skipName_append _ ha _ (by simp)
  have e3 : skipSpaces (61 :: p) = 61 :: p := skipSpaces_of_head _ (by simp [isspace])
  have e4 : skipSpaces p = p := skipSpaces_of_head _ (fun y hy => (hp y hy).1)
  have hlen : ¬ ((x :: a') ++ 61 :: p).length = (61 :: p).length := by
    simp only [List.length_append, List.length_cons]; omega
  have hd : deref ((x :: a') ++ 61 :: p) = x := rfl
  have hqq : deref p ≠ 34 ∧ deref p ≠ 39 := by
    cases p with
    | nil => simp [deref]
    | cons y p' => exact (hp y (by simp)).2
  rw [isValidAttributesLoop]
  simp only [e1, hd, hx0, if_false, e2, hlen, e3, deref_cons, ne_eq, not_true_eq_false,
    List.tail_cons, e4]
  rw [if_pos hqq]

theorem skipValue_unterminated (q : Int) (p : List Int) (hp : ∀ c ∈ p, c ≠ q) :
    skipValue q p = none ∨ ∃ p', skipValue q p = some p' ∧ deref p' = 0 := by
  induction p with
  | nil => right; exact ⟨[], rfl, rfl⟩
  | cons c p ih =>
    have hcq : c ≠ q := hp c (List.mem_cons_self _ _)
    simp only [skipValue]
    by_cases h0 : c = 0
    · right
      exact ⟨c :: p, by simp [h0], by simp [h0, deref]⟩
    · rw [if_pos ⟨hcq, h0⟩]
      by_cases hbr : c = 60 ∨ c = 62
      · left; rw [if_pos hbr]
      · rw [if_neg hbr]
        exact ih (fun x hx => hp x (List.mem_cons_of_mem _ hx))

theorem isValidAttributesLoop_unterminated (f : Nat) (a p : List Int) (q : Int) (hne : a ≠ [])
    (ha : ∀ c ∈ a, c ≠ 0 ∧ isspace c = 0 ∧ c ≠ 61) (hq : q = 34 ∨ q = 39)
    (hp : ∀ c ∈ p, c ≠ q) :
    isValidAttributesLoop (f + 1) (a ++ 61 :: q :: p) = some 0 := by
  have hq0 : q ≠ 0 := by rcases hq with h | h <;> simp [h]
  rw [isValidAttributesLoop_value _ a _ q hne ha hq]
  rcases skipValue_unterminated q p hp with h | ⟨p', h, hp'⟩
  · rw [h]
  · rw [h]
    simp only
    rw [if_pos (by rw [hp']; exact fun h0 => hq0 h0.symm)]

theorem IsName.attr_name {a : List Int} (ha : IsName a) :
    ∀ c ∈ a, c ≠ 0 ∧ isspace c = 0 ∧ c ≠ 61 := by
  intro c hc
  have hl := ha.2 c hc
  have := isLetter_bounds hl
  exact ⟨by omega, isspace_of_isLetter hl, by omega⟩

theorem IsName.plain {a : List Int} (ha : IsName a) :
    ∀ c ∈ a, c ≠ 62 ∧ c ≠ 60 ∧ c ≠ EOF ∧ c ≠ 47 := by
  intro c hc
  have := isLetter_bounds (ha.2 c hc)
  unfold EOF
  omega

theorem head?_of_initial {P : Int → Prop} {p t : List Int} (hp : p <+: t)
    (ht : ∀ x ∈ t.head?, P x) : ∀ x ∈ p.head?, P x := by
  obtain ⟨u, rfl⟩ := hp
  cases p with
  | nil => intro x hx; simp at hx
  | cons y p' => simpa using ht

/-- A tag `<n a=t>...` whose value does not start with a quote is rejected,
whatever the value `t` and what follows the `>` are. -/
theorem performLexicalAnalysis_unquoted (MAX : Nat) (n a t rest : List Int) (hn : IsName n)
    (hlen : n.length < 100) (ha : IsName a)
    (ht : ∀ x ∈ t.head?, isspace x = 0 ∧ x ≠ 34 ∧ x ≠ 39) (hM : a.length + 1 + t.length < MAX) :
    ∃ line, performLexicalAnalysis MAX (60 :: (n ++ 32 :: (a ++ 61 :: (t ++ 62 :: rest))))
      = .error line := by
  have hacc : Accumulates 0 (a ++ [61]) := accumulates_of_plain _ (by
    intro c hc
    rcases List.mem_append.mp hc with h | h
    · exact ha.plain c h
    · simp at h; subst h; simp [EOF]) 0
  have e : a ++ 61 :: (t ++ 62 :: rest) = (a ++ [61]) ++ (t ++ 62 :: rest) := by simp
  obtain ⟨p, hp, htext⟩ := readAttributes_initial (a ++ [61]) t rest hacc 1
  rw [← e] at htext
  have hplen := hp.length_le
  apply performLexicalAnalysis_invalid_attributes MAX n _ hn hlen (ha.head_letter _)
    (by simp [ha.1])
  · rw [htext]; simp; omega
  · rw [htext]
    unfold isValidAttributes
    rw [List.append_assoc, List.singleton_append]
    exact isValidAttributesLoop_unquoted _ a p ha.1 ha.attr_name (head?_of_initial hp ht)

/-- C8: unquoted attribute values are rejected: for all non-empty alphabetic
names `n` and `a` and every non-empty value text `v` whose first character is
not a quote and which contains no white space, `<`, `>` or `/`, with `n`
within the name buffer and `a=v/` within `attributeName`, the documents
`<n a=v>` and `<n a=v/>` make the scan fail with an error. -/
theorem unquoted_value_rejected (MAX : Nat) (n a v : List Int) (hn : IsName n)
    (hlen : n.length < 100) (ha : IsName a) (hvne : v ≠ [])
    (hv₀ : ∀ x ∈ v.head?, x ≠ 34 ∧ x ≠ 39)
    (hv : ∀ c ∈ v, isspace c = 0 ∧ c ≠ 60 ∧ c ≠ 62 ∧ c ≠ 47)
    (hM : a.length + v.length + 2 < MAX) :
    (∃ line, performLexicalAnalysis MAX (60 :: (n ++ 32 :: (a ++ 61 :: (v ++ [62]))))
      = .error line) ∧
    (∃ line, performLexicalAnalysis MAX (60 :: (n ++ 32 :: (a ++ 61 :: (v ++ [47, 62]))))
      = .error line) := by
  obtain ⟨x, v', rfl⟩ := List.exists_cons_of_ne_nil hvne
  have hx : isspace x = 0 ∧ x ≠ 34 ∧ x ≠ 39 :=
    ⟨(hv x (List.mem_cons_self _ _)).1, hv₀ x (by simp)⟩
  constructor
  · exact performLexicalAnalysis_unquoted MAX n a (x :: v') [] hn hlen ha (by simpa using hx)
      (by simp at hM ⊢; omega)
  · have h := performLexicalAnalysis_unquoted MAX n a ((x :: v') ++ [47]) [] hn hlen ha
      (by simpa using hx) (by simp at hM ⊢; omega)
    simpa using h

/-- C8 at `<a x=y>` and `<label text=hi/>`. -/
theorem unquoted_value_rejected_witness :
    ((∃ line, performLexicalAnalysis 16 (chars "<a x=y>") = .error line) ∧
     (∃ line, performLexicalAnalysis 16 (chars "<a x=y/>") = .error line)) ∧
    ((∃ line, performLexicalAnalysis 16 (chars "<label text=hi>") = .error line) ∧
     (∃ line, performLexicalAnalysis 16 (chars "<label text=hi/>") = .error line)) :=
  ⟨unquoted_value_rejected 16 (chars "a") (chars "x") (chars "y") (by decide) (by decide)
      (by decide) (by decide) (by decide) (by decide) (by decide),
   unquoted_value_rejected 16 (chars "label") (chars "text") (chars "hi") (by decide)
      (by decide) (by decide) (by decide) (by decide) (by decide) (by decide)⟩

/-- C10: unterminated quotes are rejected: for all non-empty alphabetic names
`n` and `a`, a delimiter `q` that is the double or the single quote, every
value text `v` that does not contain `q`, and every continuation `X`, with `n`
within the name buffer and `a=qv` within `attributeName`, the document
`<n a=qv>` followed by `X` makes the scan fail with an error. -/
theorem unterminated_quote_rejected (MAX : Nat) (n a v X : List Int) (q : Int) (hn : IsName n)
    (hlen : n.length < 100) (ha : IsName a) (hq : q = 34 ∨ q = 39) (hv : ∀ c ∈ v, c ≠ q)
    (hM : a.length + v.length + 2 < MAX) :
    ∃ line, performLexicalAnalysis MAX (60 :: (n ++ 32 :: (a ++ 61 :: q :: (v ++ 62 :: X))))
      = .error line := by
  have hacc : Accumulates 0 (a ++ [61, q]) := accumulates_of_plain _ (by
    intro c hc
    rcases List.mem_append.mp hc with h | h
    · exact ha.plain c h
    · simp at h
      rcases h with h | h
      · subst h; simp [EOF]
      · subst h; rcases hq with h' | h' <;> simp [h', EOF]) 0
  have e : a ++ 61 :: q :: (v ++ 62 :: X) = (a ++ [61, q]) ++ (v ++ 62 :: X) := by simp
  obtain ⟨p, hp, htext⟩ := readAttributes_initial (a ++ [61, q]) v X hacc 1
  rw [← e] at htext
  have hplen := hp.length_le
  apply performLexicalAnalysis_invalid_attributes MAX n _ hn hlen (ha.head_letter _)
    (by simp [ha.1])
  · rw [htext]; simp; omega
  · rw [htext]
    unfold isValidAttributes
    have e' : a ++ [61, q] ++ p = a ++ 61 :: q :: p := by simp
    rw [e']
    exact isValidAttributesLoop_unterminated _ a p q ha.1 ha.attr_name hq
      (fun c hc => hv c (hp.subset hc))

/-- C10 at `<a x="y>`, with a buffer of 8 characters. -/
theorem unterminated_quote_rejected_witness :
    ∃ line, performLexicalAnalysis 8 (chars "<a x=\"y>") = .error line :=
  unterminated_quote_rejected 8 (chars "a") (chars "x") (chars "y") [] 34 (by decide)
    (by decide) (by decide) (by decide) (by decide) (by decide)

/-! ## Closing tags that do not match -/

/-- A run of white space in front of the input is skipped within the same
iteration. -/
theorem scanLoop_blank (MAX f : Nat) (w : List Int) (hw : IsBlank w) (rest : List Int)
    (line : Nat) (s : List (List Int)) :
    scanLoop MAX (f + 1) (w ++ rest) line s
      = scanLoop MAX (f + 1) rest (line + w.count 10) s := by
  induction w generalizing line with
  | nil => simp
  | cons c w ih =>
    have hc : isWhiteSpace c = 1 := hw c (List.mem_cons_self _ _)
    rw [List.cons_append, scanLoop_ws MAX f c _ line s hc,
      ih (fun x hx => hw x (List.mem_cons_of_mem _ hx))]
    congr 1
    by_cases h10 : c = 10
    · subst h10; simp; omega
    · simp [h10, List.count_cons]

theorem performLexicalAnalysis_of_zero (MAX : Nat) (file : List Int) (r : Result (List (List Int)))
    (h : performLexicalAnalysis 0 file = r) (hr : r ≠ .undefined) :
    performLexicalAnalysis MAX file = r := by
  rw [performLexicalAnalysis_mono (Nat.zero_le MAX) file (by rw [h]; exact hr), h]

/-- C6: a closing tag `</n>` (`n` a non-empty alphabetic name within the name
buffer) met with a Tag Stack `s` that is empty, or whose top entry is not
exactly `n`, makes the scan fail, the error being reported once the name has
been read. Hence for all distinct names `a` and `b` and every continuation
`X` the document `<a><b></a>` followed by `X` is rejected, and every document
whose first tag is the closing tag `</n>` (white space allowed before `<`, `/`
and `n`) is rejected; so are `<window><button id="ok"></window>` (whenever
`attributeName` can hold `id="ok"`), `<box><grid></box>` and `<a></A>`. -/
theorem mismatched_close_rejected (MAX : Nat) (n w rest a b X w₀ w₁ w₂ Y : List Int) (c : Int)
    (line : Nat) (s : List (List Int)) (hn : IsName n) (hlen : n.length < 10000) :
    (IsBlank w → (∀ x ∈ rest.head?, isLetter x = 0) → (∀ top ∈ s.head?, top ≠ n) →
      handleClosingTag ⟨c, w ++ (n ++ rest), line⟩ s
        = .error (advance rest (line + w.count 10)).line) ∧
    (IsName a → IsName b → a.length < 100 → b.length < 100 → a ≠ b →
      performLexicalAnalysis MAX (60 :: (a ++ 62 :: 60 :: (b ++ 62 :: 60 :: 47 :: (a ++ 62 :: X))))
        = .error 1) ∧
    (IsBlank w₀ → IsBlank w₁ → IsBlank w₂ → (∀ x ∈ Y.head?, isLetter x = 0) →
      ∃ l, performLexicalAnalysis MAX (w₀ ++ 60 :: (w₁ ++ 47 :: (w₂ ++ (n ++ Y)))) = .error l) ∧
    (8 ≤ MAX → performLexicalAnalysis MAX (chars "<window><button id=\"ok\"></window>")
      = .error 1) ∧
    performLexicalAnalysis MAX (chars "<box><grid></box>") = .error 1 ∧
    performLexicalAnalysis MAX (chars "<a></A>") = .error 1 := by
  refine ⟨?_, ?_, ?_, ?_, ?_, ?_⟩
  · intro hw hr hs
    exact handleClosingTag_mismatch n hn hlen w hw rest hr c line s hs
  · intro ha hb hla hlb hab
    have e : (60 :: (a ++ 62 :: 60 :: (b ++ 62 :: 60 :: 47 :: (a ++ 62 :: X)))).length + 1
        = (a.length + a.length + b.length + X.length + 5 + 1 + 1) + 1 := by simp; omega
    have h1 := scanLoop_open MAX (a.length + a.length + b.length + X.length + 5 + 1 + 1) a ha hla
      [] isBlank_nil (60 :: (b ++ 62 :: 60 :: 47 :: (a ++ 62 :: X))) 1 StackCreate
    have h2 := scanLoop_open MAX (a.length + a.length + b.length + X.length + 5 + 1) b hb hlb
      [] isBlank_nil (60 :: 47 :: (a ++ 62 :: X)) 1 [a]
    have h3 := scanLoop_close_mismatch MAX (a.length + a.length + b.length + X.length + 5) a ha
      (by omega) [] [] isBlank_nil isBlank_nil (62 :: X) (by simp [isLetter]) 1 [b, a]
      (by simpa using Ne.symm hab)
    simp only [List.nil_append, List.count_nil, Nat.add_zero, StackCreate] at h1 h2 h3
    unfold performLexicalAnalysis
    simp only [StackCreate]
    rw [e, h1, h2, h3]
    rfl
  · intro hw₀ hw₁ hw₂ hr
    refine ⟨(advance Y (1 + w₀.count 10 + w₁.count 10 + w₂.count 10)).line, ?_⟩
    unfold performLexicalAnalysis
    rw [scanLoop_blank MAX _ w₀ hw₀, scanLoop_close_mismatch MAX _ n hn hlen w₁ w₂ hw₁ hw₂ Y hr
      _ _ (by simp [StackCreate])]
    rfl
  · intro hM
    have h : performLexicalAnalysis 8 (chars "<window><button id=\"ok\"></window>")
        = .error 1 := by decide
    rw [performLexicalAnalysis_mono hM _ (by rw [h]; simp), h]
  · exact performLexicalAnalysis_of_zero MAX _ _ (by decide) (by simp)
  · exact performLexicalAnalysis_of_zero MAX _ _ (by decide) (by simp)

/-- C6 at the closing tag `</a>` met with `b` on top of the stack, at
`<a><b></a>`, at ` </a>`, and at the three documents named, with a buffer of
8 characters. -/
theorem mismatched_close_rejected_witness :
    handleClosingTag ⟨47, chars "a>", 1⟩ [chars "b", chars "a"] = .error 1 ∧
    performLexicalAnalysis 8 (chars "<a><b></a>") = .error 1 ∧
    (∃ l, performLexicalAnalysis 8 (chars " </a>") = .error l) ∧
    performLexicalAnalysis 8 (chars "<window><button id=\"ok\"></window>") = .error 1 ∧
    performLexicalAnalysis 8 (chars "<box><grid></box>") = .error 1 ∧
    performLexicalAnalysis 8 (chars "<a></A>") = .error 1 :=
  have h := mismatched_close_rejected 8 (chars "a") [] (chars ">") (chars "a") (chars "b") []
    (chars " ") [] [] (chars ">") 47 1 [chars "b", chars "a"] (by decide) (by decide)
  ⟨h.1 (by decide) (by decide) (by decide),
   h.2.1 (by decide) (by decide) (by decide) (by decide) (by decide),
   h.2.2.1 (by decide) (by decide) (by decide) (by decide),
   h.2.2.2.1 (by decide), h.2.2.2.2.1, h.2.2.2.2.2⟩

/-! ## Entries below the top of the stack -/

theorem Result.bind_eq_ok {α β : Type} {r : Result α} {f : α → Result β} {b : β}
    (h : r.bind f = .ok b) : ∃ a, r = .ok a ∧ f a = .ok b := by
  cases r with
  | ok a => exact ⟨a, rfl, h⟩
  | error l => exact absurd h (by simp [Result.bind])
  | undefined => exact absurd h (by simp [Result.bind])
  | outOfFuel => exact absurd h (by simp [Result.bind])

theorem Result.bind_bind_congr {α β γ : Type} (r : Result α) (f : α → Result β)
    (g : α → Result γ) (k : β → Result γ) (h : ∀ a, g a = (f a).bind k) :
    r.bind g = (r.bind f).bind k := by
  cases r with
  | ok a => exact h a
  | _ => rfl

/-- A closing tag handled with success is handled alike, with the same
entry popped, when further entries lie at the bottom of the stack. -/
theorem handleClosingTag_frame (cur : Cursor) (s t : List (List Int))
    (r : Cursor × List (List Int)) (h : handleClosingTag cur s = .ok r) :
    handleClosingTag cur (s ++ t) = .ok (r.1, r.2 ++ t) := by
  unfold handleClosingTag at h ⊢
  generalize skipWhiteSpaces (advance cur.file cur.line) = c1 at h ⊢
  dsimp only at h ⊢
  generalize (readLetters c1).1 = name at h ⊢
  generalize (readLetters c1).2 = c2 at h ⊢
  generalize skipWhiteSpaces c2 = c3 at h ⊢
  cases s with
  | nil =>
    simp only [StackPop] at h
    split_ifs at h
  | cons top s' =>
    simp only [StackPop, List.cons_append] at h ⊢
    split_ifs at h ⊢
    simp only [Result.ok.injEq] at h
    rw [← h]

/-- The opening-tag handler uses the stack only to push on it. -/
theorem handleOpeningTagAttributes_frame (MAX : Nat) (n : List Int) (cur : Cursor)
    (s t : List (List Int)) :
    handleOpeningTagAttributes MAX n cur (s ++ t)
      = (handleOpeningTagAttributes MAX n cur s).bind fun r => .ok (r.1, r.2 ++ t) := by
  unfold handleOpeningTagAttributes
  generalize (readAttributes cur).1 = text
  generalize (readAttributes cur).2 = c1
  dsimp only
  by_cases h1 : MAX ≤ text.length
  · simp [h1, Result.bind]
  · simp only [h1, if_false]
    cases isValidAttributes text with
    | none => rfl
    | some valid =>
      dsimp only
      by_cases h2 : valid = 0
      · simp [h2, Result.bind]
      · simp only [h2, if_false]
        cases expectTagEnd c1 <;> by_cases h3 : c1.character = 47 <;>
          by_cases h4 : c1.character = 62 <;> simp [h3, h4, Result.bind, StackPush]

theorem handleOpeningTag_frame (MAX : Nat) (cur : Cursor) (s t : List (List Int)) :
    handleOpeningTag MAX cur (s ++ t)
      = (handleOpeningTag MAX cur s).bind fun r => .ok (r.1, r.2 ++ t) := by
  unfold handleOpeningTag
  generalize (readLetters cur).1 = n
  generalize (readLetters cur).2 = c1
  dsimp only
  split_ifs with h1 h2 <;> try rfl
  all_goals
    refine Result.bind_bind_congr _ _ _ _ (fun a => ?_)
    generalize skipWhiteSpaces a = c2
    split_ifs with h3 h4 h5 <;> try (simp [Result.bind, StackPush])
    all_goals
      first
        | exact handleOpeningTagAttributes_frame MAX n _ s t
        | (refine Result.bind_bind_congr _ _ _ _ (fun b => ?_)
           exact handleOpeningTagAttributes_frame MAX n _ s t)

/-- A scan that leaves the loop normally does the same, and leaves the
further entries in place, when these lie at the bottom of the stack. -/
theorem scanLoop_frame (MAX : Nat) (t : List (List Int)) (f : Nat) :
    ∀ (file : List Int) (line : Nat) (s : List (List Int)) (r : Nat × List (List Int)),
      scanLoop MAX f file line s = .ok r →
      scanLoop MAX f file line (s ++ t) = .ok (r.1, r.2 ++ t) := by
  induction f with
  | zero => intro file line s r h; simp [scanLoop] at h
  | succ f ih =>
    intro file line s r h
    unfold scanLoop at h ⊢
    generalize advance file line = c0 at h ⊢
    dsimp only at h ⊢
    generalize skipWhiteSpaces c0 = c1 at h ⊢
    generalize skipWhiteSpaces (advance c1.file c1.line) = c2 at h ⊢
    split_ifs at h ⊢ with h1 h2 h3 h4 h5 h6
    · simp only [Result.ok.injEq] at h; rw [← h]
    · simp only [Result.ok.injEq] at h; rw [← h]
    · obtain ⟨a, ha, hk⟩ := Result.bind_eq_ok h
      rw [handleClosingTag_frame _ _ t _ ha]
      exact ih _ _ _ _ hk
    · obtain ⟨a, ha, hk⟩ := Result.bind_eq_ok h
      rw [handleOpeningTag_frame, ha]
      exact ih _ _ _ _ hk

/-- More fuel does not change a scan that left the loop. -/
theorem scanLoop_fuel_succ (MAX : Nat) (f : Nat) :
    ∀ (file : List Int) (line : Nat) (s : List (List Int)) (r : Nat × List (List Int)),
      scanLoop MAX f file line s = .ok r → scanLoop MAX (f + 1) file line s = .ok r := by
  induction f with
  | zero => intro file line s r h; simp [scanLoop] at h
  | succ f ih =>
    intro file line s r h
    rw [scanLoop] at h ⊢
    generalize advance file line = c0 at h ⊢
    dsimp only at h ⊢
    generalize skipWhiteSpaces c0 = c1 at h ⊢
    generalize skipWhiteSpaces (advance c1.file c1.line) = c2 at h ⊢
    split_ifs at h ⊢ with h1 h2 h3 h4 h5 h6
    · exact h
    · exact h
    · obtain ⟨a, ha, hk⟩ := Result.bind_eq_ok h
      rw [ha]
      exact ih _ _ _ _ hk
    · obtain ⟨a, ha, hk⟩ := Result.bind_eq_ok h
      rw [ha]
      exact ih _ _ _ _ hk

theorem scanLoop_fuel_add (MAX : Nat) (f k : Nat) (file : List Int) (line : Nat)
    (s : List (List Int)) (r : Nat × List (List Int)) (h : scanLoop MAX f file line s = .ok r) :
    scanLoop MAX (f + k) file line s = .ok r := by
  induction k with
  | zero => exact h
  | succ k ih => exact scanLoop_fuel_succ MAX (f + k) _ _ _ _ ih

/-- C5: for every document `D` that the scanner accepts and every non-empty
alphabetic name `n` within the name buffer, the document `<n>` followed by
`D` is rejected: the loop is left at the end of the input with exactly `n` on
the Tag Stack, and the error is reported at the line reached. -/
theorem unclosed_tag_rejected (MAX : Nat) (D n : List Int)
    (hD : performLexicalAnalysis MAX D = .ok []) (hn : IsName n) (hlen : n.length < 100) :
    ∃ line,
      scanLoop MAX ((60 :: (n ++ 62 :: D)).length + 1) (60 :: (n ++ 62 :: D)) 1 StackCreate
        = .ok (line, [n]) ∧
      performLexicalAnalysis MAX (60 :: (n ++ 62 :: D)) = .error line := by
  unfold performLexicalAnalysis at hD
  obtain ⟨⟨line, s⟩, hs, hk⟩ := Result.bind_eq_ok hD
  have hs' : s = [] := by
    dsimp only at hk
    split_ifs at hk
    simpa using hk
  subst hs'
  have h1 := scanLoop_fuel_add MAX _ (n.length + 1) _ _ _ _ hs
  have h2 := scanLoop_frame MAX [n] _ _ _ _ _ h1
  have e : (60 :: (n ++ 62 :: D)).length + 1 = (D.length + 1 + (n.length + 1)) + 1 := by
    simp; omega
  have h3 := scanLoop_open MAX (D.length + 1 + (n.length + 1)) n hn hlen [] isBlank_nil D 1
    StackCreate
  simp only [List.nil_append, List.count_nil, Nat.add_zero, StackCreate] at h2 h3
  have h4 : scanLoop MAX ((60 :: (n ++ 62 :: D)).length + 1) (60 :: (n ++ 62 :: D)) 1 StackCreate
      = .ok (line, [n]) := by
    rw [e]
    simp only [StackCreate]
    rw [h3, h2]
  refine ⟨line, h4, ?_⟩
  unfold performLexicalAnalysis
  rw [h4]
  rfl

/-- C5 at `<a>` followed by nothing. -/
theorem unclosed_tag_rejected_witness :
    performLexicalAnalysis 0 [] = .ok [] ∧
    ∃ line,
      scanLoop 0 ((chars "<a>").length + 1) (chars "<a>") 1 StackCreate
        = .ok (line, [chars "a"]) ∧
      performLexicalAnalysis 0 (chars "<a>") = .error line :=
  ⟨by decide, unclosed_tag_rejected 0 [] (chars "a") (by decide) (by decide) (by decide)⟩

/-! ## The end of the input inside a tag -/

theorem readAttributesAcc_EOF_mk (line : Nat) (q : Int) (acc : List Int) :
    readAttributesAcc ⟨EOF, [], line⟩ q acc = (acc, ⟨EOF, [], line⟩) :=
  readAttributesAcc_stop (fun h => h.2.2 rfl) q acc

/-- The last part of the handler on an attribute text followed by the end of
the file: it returns normally, with nothing pushed. -/
theorem handleOpeningTagAttributes_EOF (MAX : Nat) (n T : List Int) (hacc : Accumulates 0 T)
    (hvalid : isValidAttributes T = some 1) (hM : T.length < MAX) (line : Nat)
    (s : List (List Int)) :
    handleOpeningTagAttributes MAX n (advance T line) s
      = .ok (⟨EOF, [], line + T.count 10⟩, s) := by
  have h1 := readAttributesAcc_advance_run T [] 0 [] line hacc
  rw [advance_nil, readAttributesAcc_EOF_mk] at h1
  simp only [List.append_nil, List.nil_append] at h1
  have hM' : ¬ MAX ≤ T.length := by omega
  simp [handleOpeningTagAttributes, readAttributes_eq, h1, hvalid, hM', Result.bind, EOF]

/-- The handler on a name followed by the end of the file reports an error. -/
theorem handleOpeningTag_name_EOF (MAX : Nat) (n : List Int) (hn : IsName n)
    (hlen : n.length < 100) (line : Nat) (s : List (List Int)) :
    handleOpeningTag MAX (advance n line) s = .error line := by
  have hrun := readLettersAcc_advance_run n hn.2 [] (by simp) line []
  simp only [List.append_nil, List.nil_append, advance_nil] at hrun
  have hlen' : ¬ 100 ≤ n.length := by omega
  simp [handleOpeningTag, readLetters_eq, hrun, hlen', isWhiteSpace, EOF]

/-- The handler on a name followed by `/` and the end of the file reports an
error. -/
theorem handleOpeningTag_slash_EOF (MAX : Nat) (n : List Int) (hn : IsName n)
    (hlen : n.length < 100) (line : Nat) (s : List (List Int)) :
    handleOpeningTag MAX (advance (n ++ [47]) line) s = .error line := by
  have hrun := readLettersAcc_advance_run n hn.2 [47] (by simp [isLetter]) line []
  simp only [List.nil_append, advance_cons] at hrun
  have hlen' : ¬ 100 ≤ n.length := by omega
  have hskip : skipWhiteSpaces ⟨-1, [], line⟩ = ⟨-1, [], line⟩ :=
    skipWhiteSpaces_of_EOF rfl
  simp [handleOpeningTag, readLetters_eq, hrun, hlen', isWhiteSpace, expectTagEnd, advance_nil,
    hskip, Result.bind, EOF]

/-- C11 (the code departs from it): the end of the input inside an opening
tag is not always an error. For every non-empty alphabetic name `n` and every
block `B` of attribute pairs (both within their buffers), the input `<n B`,
which ends in the attribute text before any `>`, is scanned with success and
an empty Tag Stack; the input `<n`, which ends in the name, and the input
`<n/`, which ends after the `/`, are rejected. -/
theorem truncated_tag_accepted (MAX : Nat) (n B : List Int) (hn : IsName n)
    (hlen : n.length < 100) (hB : AttrBlock B) (hM : B.length < MAX) :
    performLexicalAnalysis MAX (60 :: (n ++ 32 :: B)) = .ok [] ∧
    performLexicalAnalysis MAX (60 :: n) = .error 1 ∧
    performLexicalAnalysis MAX (60 :: (n ++ [47])) = .error 1 := by
  refine ⟨?_, ?_, ?_⟩
  · obtain ⟨hBne, hBhead⟩ := attrBlock_head B hB
    have h1 := handleOpeningTag_to_attributes MAX n hn hlen [32] isBlank_space (by simp) B hBhead
      hBne 1 StackCreate
    have h2 := handleOpeningTagAttributes_EOF MAX n B (accumulates_attrBlock B hB)
      (isValidAttributes_attrBlock B hB) hM 1 StackCreate
    simp only [List.singleton_append, show List.count (10 : Int) [32] = 0 by decide,
      Nat.add_zero] at h1
    unfold performLexicalAnalysis
    rw [List.length_cons, scanLoop_tag MAX _ n hn, h1, h2]
    have e : (n ++ 32 :: B).length = (n.length + B.length) + 1 := by simp; omega
    rw [e]
    simp only [Result.bind, scanLoop_nil]
    rfl
  · have h := scanLoop_tag MAX (n.length + 1) n hn [] 1 StackCreate
    rw [List.append_nil] at h
    unfold performLexicalAnalysis
    rw [List.length_cons, h, handleOpeningTag_name_EOF MAX n hn hlen]
    rfl
  · unfold performLexicalAnalysis
    rw [List.length_cons, scanLoop_tag MAX _ n hn, handleOpeningTag_slash_EOF MAX n hn hlen]
    rfl

/-- C11 at `<img src="logo"`, `<img` and `<img/`, with a buffer of 16 characters. -/
theorem truncated_tag_accepted_witness :
    performLexicalAnalysis 16 (chars "<img src=\"logo\"") = .ok [] ∧
    performLexicalAnalysis 16 (chars "<img") = .error 1 ∧
    performLexicalAnalysis 16 (chars "<img/") = .error 1 :=
  truncated_tag_accepted 16 (chars "img") (chars "src=\"logo\"") (by decide) (by decide)
    (AttrBlock.one (chars "src") (chars "logo") (by decide) (by decide)) (by decide)

/-! ## Text between tags -/

theorem length_le_tagsText (P : List BareTag) : P.length ≤ (tagsText P).length := by
  induction P with
  | nil => simp [tagsText]
  | cons t P ih =>
    cases t <;> simp [tagsText, BareTag.text] <;> omega

/-- A sequence of bare tags that is scanned to its end without error is
scanned alike in front of any input, one iteration per tag; the line counter
does not move. -/
theorem scanLoop_tags (MAX : Nat) (P : List BareTag) (hP : WellNamed P) :
    ∀ (f line : Nat) (s : List (List Int)) (r : Nat × List (List Int)),
      scanLoop MAX f (tagsText P) line s = .ok r →
      r.1 = line ∧ ∀ (g : Nat) (rest : List Int),
        scanLoop MAX (g + P.length) (tagsText P ++ rest) line s = scanLoop MAX g rest r.1 r.2 := by
  induction P with
  | nil =>
    intro f line s r h
    cases f with
    | zero => simp [tagsText, scanLoop] at h
    | succ f =>
      simp only [tagsText, scanLoop_nil, Result.ok.injEq] at h
      subst h
      exact ⟨rfl, fun g rest => by simp [tagsText]⟩
  | cons t P ih =>
    intro f line s r h
    have ht := hP t (List.mem_cons_self _ _)
    have hP' : WellNamed P := fun u hu => hP u (List.mem_cons_of_mem _ hu)
    cases f with
    | zero => simp [scanLoop] at h
    | succ f =>
      cases t with
      | opening n =>
        have ht : IsName n ∧ n.length < 100 := ht
        have hstep : ∀ (k : Nat) (rest : List Int),
            scanLoop MAX (k + 1) (60 :: (n ++ 62 :: rest)) line s
              = scanLoop MAX k rest line (n :: s) := by
          intro k rest
          have := scanLoop_open MAX k n ht.1 ht.2 [] isBlank_nil rest line s
          simpa using this
        have e : tagsText (BareTag.opening n :: P) = 60 :: (n ++ 62 :: tagsText P) := by
          simp [tagsText, BareTag.text]
        rw [e, hstep] at h
        obtain ⟨h1, h2⟩ := ih hP' f line (n :: s) r h
        refine ⟨h1, fun g rest => ?_⟩
        have e' : tagsText (BareTag.opening n :: P) ++ rest
            = 60 :: (n ++ 62 :: (tagsText P ++ rest)) := by
          simp [tagsText, BareTag.text]
        rw [e', List.length_cons, ← Nat.add_assoc, hstep]
        exact h2 g rest
      | closing n =>
        have ht : IsName n ∧ n.length < 100 := ht
        have e : ∀ rest, tagsText (BareTag.closing n :: P) ++ rest
            = 60 :: 47 :: (n ++ 62 :: (tagsText P ++ rest)) := by
          intro rest; simp [tagsText, BareTag.text]
        have e0 := e []
        simp only [List.append_nil] at e0
        rw [e0] at h
        by_cases hs : ∀ top ∈ s.head?, top ≠ n
        · have hm := scanLoop_close_mismatch MAX f n ht.1 (by have := ht.2; omega) [] []
            isBlank_nil isBlank_nil (62 :: tagsText P) (by simp [isLetter]) line s hs
          simp only [List.nil_append] at hm
          rw [hm] at h
          exact absurd h (by simp)
        · have hs' : ∃ s', s = n :: s' := by
            cases s with
            | nil => exact absurd (by simp) hs
            | cons top s' =>
              refine ⟨s', ?_⟩
              by_cases htop : top = n
              · rw [htop]
              · exact absurd (by simpa using htop) hs
          obtain ⟨s', rfl⟩ := hs'
          have hstep : ∀ (k : Nat) (rest : List Int),
              scanLoop MAX (k + 1) (60 :: 47 :: (n ++ 62 :: rest)) line (n :: s')
                = scanLoop MAX k rest line s' := by
            intro k rest
            have := scanLoop_close MAX k n ht.1 (by have := ht.2; omega) [] [] [] isBlank_nil
              isBlank_nil isBlank_nil rest line s'
            simpa using this
          rw [hstep] at h
          obtain ⟨h1, h2⟩ := ih hP' f line s' r h
          refine ⟨h1, fun g rest => ?_⟩
          rw [e, List.length_cons, ← Nat.add_assoc, hstep]
          exact h2 g rest

/-- At the top level a character that is neither white space, nor `<`, nor
the end of the input is an error. -/
theorem scanLoop_unexpected (MAX f : Nat) (x : Int) (T : List Int) (line : Nat)
    (s : List (List Int)) (hx : isWhiteSpace x = 0) (h60 : x ≠ 60) (hE : x ≠ EOF) :
    scanLoop MAX (f + 1) (x :: T) line s = .error line := by
  have h10 : x ≠ 10 := by
    intro h; rw [h] at hx; exact absurd hx (by decide)
  have hskip : skipWhiteSpaces ⟨x, T, line⟩ = ⟨x, T, line⟩ := skipWhiteSpaces_of_not hx
  simp [scanLoop, advance_cons, h10, hE, hskip, h60]

/-- At the top level the byte `0xFF`, which the `char` of `readChar` holds as
`EOF`, ends the loop as the end of the input does. -/
theorem scanLoop_endByte (MAX f : Nat) (T : List Int) (line : Nat) (s : List (List Int)) :
    scanLoop MAX (f + 1) (EOF :: T) line s = .ok (line, s) := by
  simp [scanLoop, advance_cons, EOF]

/-- C12, as amended: free text between tags is rejected: for every sequence
`P` of complete bare opening and closing tags (names within the name buffer)
that is scanned to its end without error, leaving the stack `r.2`, `P` possibly
empty, and every text `T` made of a run `w` of spaces, tabs and newlines
followed by a character `x` that is not `<` (and by anything), scanning
`P ++ T` fails, the error being reported at the line of `x`, unless `x` is the
byte `0xFF` (read as `EOF`) and `P` leaves no tag open. -/
theorem free_text_rejected (MAX : Nat) (P : List BareTag) (w T : List Int) (x : Int)
    (r : Nat × List (List Int)) (hP : WellNamed P)
    (hscan : scanLoop MAX ((tagsText P).length + 1) (tagsText P) 1 StackCreate = .ok r)
    (hw : IsBlank w) (hx : isWhiteSpace x = 0) (h60 : x ≠ 60) (hE : x ≠ EOF ∨ r.2 ≠ []) :
    performLexicalAnalysis MAX (tagsText P ++ (w ++ x :: T)) = .error (1 + w.count 10) := by
  obtain ⟨h1, h2⟩ := scanLoop_tags MAX P hP _ _ _ _ hscan
  have hlen := length_le_tagsText P
  have e : (tagsText P ++ (w ++ x :: T)).length + 1
      = (((tagsText P).length - P.length + w.length + T.length + 1) + 1) + P.length := by
    simp only [List.length_append, List.length_cons]; omega
  unfold performLexicalAnalysis
  by_cases hEx : x = EOF
  · have hs : r.2 ≠ [] := hE.resolve_left (not_not.mpr hEx)
    rw [e, h2, scanLoop_blank MAX _ w hw, hEx, scanLoop_endByte, h1]
    obtain ⟨l, st⟩ := r
    cases st with
    | nil => exact absurd rfl hs
    | cons t st => rfl
  · rw [e, h2, scanLoop_blank MAX _ w hw, scanLoop_unexpected MAX _ x T _ _ hx h60 hEx, h1]
    rfl

/-- C12 as stated fails where the text starts with the byte `0xFF`, which is
not a space, tab or newline and is not `<`: `0xFF hello`, alone and after
`<a></a>` and a run of white space, is scanned to the end without an error,
whatever the size of `attributeName`. -/
theorem free_text_counterexample :
    isWhiteSpace (-1) = 0 ∧ (-1 : Int) ≠ 60 ∧
    WellNamed [BareTag.opening (chars "a"), BareTag.closing (chars "a")] ∧
    (∀ MAX, scanLoop MAX 8
      (tagsText [BareTag.opening (chars "a"), BareTag.closing (chars "a")]) 1 StackCreate
        = .ok (1, [])) ∧
    (∀ MAX, performLexicalAnalysis MAX (tagsText [] ++ ([] ++ -1 :: chars "hello")) = .ok []) ∧
    (∀ MAX, performLexicalAnalysis MAX
      (tagsText [BareTag.opening (chars "a"), BareTag.closing (chars "a")] ++
        (chars " \n" ++ -1 :: chars "hello")) = .ok []) := by
  refine ⟨by decide, by decide, by decide, fun MAX => ?_, fun MAX => ?_, fun MAX => ?_⟩
  · rw [scanLoop_mono (Nat.zero_le MAX) _ _ _ _ (by decide)]
    decide
  · rw [performLexicalAnalysis_mono (Nat.zero_le MAX) _ (by decide)]
    decide
  · rw [performLexicalAnalysis_mono (Nat.zero_le MAX) _ (by decide)]
    decide

/-- C12, as amended, at `hello`, at `<a>hello</a>` and at `<a>` followed by
the byte `0xFF`. -/
theorem free_text_rejected_witness :
    performLexicalAnalysis 0 (chars "hello") = .error 1 ∧
    performLexicalAnalysis 0 (chars "<a>hello</a>") = .error 1 ∧
    performLexicalAnalysis 0 (chars "<a>\n" ++ -1 :: chars "hello</a>") = .error 2 :=
  ⟨free_text_rejected 0 [] [] (chars "ello") 104 (1, []) (by decide) (by decide) (by decide)
      (by decide) (by decide) (Or.inl (by decide)),
   free_text_rejected 0 [BareTag.opening (chars "a")] [] (chars "ello</a>") 104
      (1, [chars "a"]) (by decide) (by decide) (by decide) (by decide) (by decide)
      (Or.inl (by decide)),
   free_text_rejected 0 [BareTag.opening (chars "a")] (chars "\n") (chars "hello</a>") (-1)
      (1, [chars "a"]) (by decide) (by decide) (by decide) (by decide) (by decide)
      (Or.inr (by decide))⟩

/-! ## The line counter -/

theorem count_newline_cons (d : Int) (p : List Int) (line : Nat) :
    (if d = 10 then line + 1 else line) + p.count 10 = line + (d :: p).count 10 := by
  by_cases h10 : d = 10
  · subst h10; simp; omega
  · simp [h10, List.count_cons]

theorem ReadsTo.refl (cur : Cursor) : ReadsTo cur cur := ⟨[], by simp, by simp⟩

theorem ReadsTo.trans {a b c : Cursor} (h₁ : ReadsTo a b) (h₂ : ReadsTo b c) : ReadsTo a c := by
  obtain ⟨p, hp, hl⟩ := h₁
  obtain ⟨q, hq, hl'⟩ := h₂
  refine ⟨p ++ q, by rw [hp, hq, List.append_assoc], ?_⟩
  rw [hl', hl, List.count_append]
  omega

/-- Only the file and the line of the starting position matter. -/
theorem ReadsTo.of_eq {a b c : Cursor} (hf : a.file = b.file) (hl : a.line = b.line)
    (h : ReadsTo b c) : ReadsTo a c := by
  obtain ⟨p, hp, hl'⟩ := h
  exact ⟨p, by rw [hf, hp], by rw [hl', hl]⟩

theorem readsTo_advance (cur : Cursor) : ReadsTo cur (advance cur.file cur.line) := by
  obtain ⟨c, file, line⟩ := cur
  cases file with
  | nil => exact ⟨[], by simp [advance, readChar], by simp [advance, readChar]⟩
  | cons d rest =>
    refine ⟨[d], by simp [advance, readChar], ?_⟩
    have := count_newline_cons d [] line
    simpa [advance_cons] using this

theorem readsTo_skipWhiteSpacesFrom (file : List Int) :
    ∀ (c : Int) (line : Nat), ReadsTo ⟨c, file, line⟩ (skipWhiteSpacesFrom c file line) := by
  induction file with
  | nil =>
    intro c line
    simp only [skipWhiteSpacesFrom]
    split_ifs
    · exact ⟨[], by simp [advance, readChar], by simp [advance, readChar]⟩
    · exact ReadsTo.refl _
  | cons d rest ih =>
    intro c line
    simp only [skipWhiteSpacesFrom]
    split_ifs
    · obtain ⟨p, hp, hl⟩ := ih d (readChar (d :: rest) line).2.2
      refine ⟨d :: p, by simpa using hp, ?_⟩
      rw [hl]
      exact count_newline_cons d p line
    · exact ReadsTo.refl _

theorem readsTo_skipWhiteSpaces (cur : Cursor) : ReadsTo cur (skipWhiteSpaces cur) :=
  readsTo_skipWhiteSpacesFrom cur.file cur.character cur.line

theorem readsTo_readLettersFrom (file : List Int) :
    ∀ (c : Int) (line : Nat) (name : List Int),
      ReadsTo ⟨c, file, line⟩ (readLettersFrom c file line name).2 := by
  induction file with
  | nil =>
    intro c line name
    simp only [readLettersFrom]
    split_ifs
    · exact ⟨[], by simp [advance, readChar], by simp [advance, readChar]⟩
    · exact ReadsTo.refl _
  | cons d rest ih =>
    intro c line name
    simp only [readLettersFrom]
    split_ifs
    · obtain ⟨p, hp, hl⟩ := ih d (readChar (d :: rest) line).2.2 (name ++ [c])
      refine ⟨d :: p, by simpa using hp, ?_⟩
      rw [hl]
      exact count_newline_cons d p line
    · exact ReadsTo.refl _

theorem readsTo_readLetters (cur : Cursor) : ReadsTo cur (readLetters cur).2 :=
  readsTo_readLettersFrom cur.file cur.character cur.line []

theorem readsTo_readAttributesFrom (file : List Int) :
    ∀ (c : Int) (line : Nat) (q : Int) (acc : List Int),
      ReadsTo ⟨c, file, line⟩ (readAttributesFrom c file line q acc).2 := by
  induction file with
  | nil =>
    intro c line q acc
    simp only [readAttributesFrom]
    generalize (if c = 34 ∨ c = 39 then (if q = 0 then 1 else 0) else q) = q'
    by_cases h1 : c ≠ 62 ∧ c ≠ 60 ∧ c ≠ EOF
    · rw [if_pos h1]
      by_cases h2 : c = 47 ∧ q' = 0
      · rw [if_pos h2]; exact ReadsTo.refl _
      · rw [if_neg h2]
        exact ⟨[], by simp [advance, readChar], by simp [advance, readChar]⟩
    · rw [if_neg h1]; exact ReadsTo.refl _
  | cons d rest ih =>
    intro c line q acc
    simp only [readAttributesFrom]
    generalize (if c = 34 ∨ c = 39 then (if q = 0 then 1 else 0) else q) = q'
    by_cases h1 : c ≠ 62 ∧ c ≠ 60 ∧ c ≠ EOF
    · rw [if_pos h1]
      by_cases h2 : c = 47 ∧ q' = 0
      · rw [if_pos h2]; exact ReadsTo.refl _
      · rw [if_neg h2]
        obtain ⟨p, hp, hl⟩ := ih d (readChar (d :: rest) line).2.2 q' (acc ++ [c])
        refine ⟨d :: p, by simpa using hp, ?_⟩
        rw [hl]
        exact count_newline_cons d p line
    · rw [if_neg h1]; exact ReadsTo.refl _

theorem readsTo_readAttributes (cur : Cursor) : ReadsTo cur (readAttributes cur).2 :=
  readsTo_readAttributesFrom cur.file cur.character cur.line 0 []

theorem LineAfter.of_readsTo {a b : Cursor} (h : ReadsTo a b) : LineAfter a b.line :=
  ⟨b, h, rfl⟩

theorem lineAfter_from {a b : Cursor} {l : Nat} (h : ReadsTo a b) (hl : LineAfter b l) :
    LineAfter a l := by
  obtain ⟨c, hc, e⟩ := hl
  exact ⟨c, h.trans hc, e⟩

theorem tracked_from {α : Type} {a b : Cursor} {pos : α → Cursor} {r : Result α}
    (h : ReadsTo a b) (hr : Tracked b pos r) : Tracked a pos r := by
  cases r with
  | ok x => exact h.trans hr
  | error l => exact lineAfter_from h hr
  | undefined => trivial
  | outOfFuel => trivial

theorem Tracked.bind {α β : Type} {cur : Cursor} {pos : α → Cursor} {pos' : β → Cursor}
    {r : Result α} {f : α → Result β} (hr : Tracked cur pos r)
    (hf : ∀ a, Tracked (pos a) pos' (f a)) : Tracked cur pos' (r.bind f) := by
  cases r with
  | ok x => exact tracked_from hr (hf x)
  | error l => exact hr
  | undefined => trivial
  | outOfFuel => trivial

theorem tracked_expectTagEnd (cur : Cursor) : Tracked cur id (expectTagEnd cur) := by
  have h : ReadsTo cur (skipWhiteSpaces (advance cur.file cur.line)) :=
    (readsTo_advance cur).trans (readsTo_skipWhiteSpaces _)
  unfold expectTagEnd
  generalize skipWhiteSpaces (advance cur.file cur.line) = c1 at h ⊢
  dsimp only
  split_ifs
  · exact LineAfter.of_readsTo h
  · exact h

theorem tracked_handleClosingTag (cur : Cursor) (s : List (List Int)) :
    Tracked cur (fun r => r.1) (handleClosingTag cur s) := by
  have h1 : ReadsTo cur (skipWhiteSpaces (advance cur.file cur.line)) :=
    (readsTo_advance cur).trans (readsTo_skipWhiteSpaces _)
  unfold handleClosingTag
  generalize skipWhiteSpaces (advance cur.file cur.line) = c1 at h1 ⊢
  have h2 : ReadsTo cur (readLetters c1).2 := h1.trans (readsTo_readLetters c1)
  have h3 : ReadsTo cur (skipWhiteSpaces (readLetters c1).2) :=
    h2.trans (readsTo_skipWhiteSpaces _)
  dsimp only
  generalize (readLetters c1).1 = name
  generalize (readLetters c1).2 = c2 at h2 h3 ⊢
  generalize skipWhiteSpaces c2 = c3 at h3 ⊢
  by_cases hl : isLetter c1.character = 0
  · rw [if_pos hl]; exact LineAfter.of_readsTo h1
  · rw [if_neg hl]
    by_cases hb : 10000 ≤ name.length
    · rw [if_pos hb]; trivial
    · rw [if_neg hb]
      cases (StackPop s).1 with
      | none => exact LineAfter.of_readsTo h2
      | some top =>
        dsimp only
        by_cases hne : name ≠ top
        · rw [if_pos hne]; exact LineAfter.of_readsTo h2
        · rw [if_neg hne]
          by_cases hc : c3.character ≠ 62
          · rw [if_pos hc]; exact LineAfter.of_readsTo h3
          · rw [if_neg hc]; exact h3

theorem tracked_slash (cur : Cursor) :
    Tracked cur id (if cur.character = 47 then expectTagEnd cur else Result.ok cur) := by
  split_ifs
  · exact tracked_expectTagEnd cur
  · exact ReadsTo.refl cur

theorem tracked_handleOpeningTagAttributes (MAX : Nat) (n : List Int) (cur : Cursor)
    (s : List (List Int)) :
    Tracked cur (fun r => r.1) (handleOpeningTagAttributes MAX n cur s) := by
  have h1 : ReadsTo cur (readAttributes cur).2 := readsTo_readAttributes cur
  unfold handleOpeningTagAttributes
  generalize (readAttributes cur).1 = text
  generalize (readAttributes cur).2 = c1 at h1 ⊢
  dsimp only
  by_cases hM : MAX ≤ text.length
  · rw [if_pos hM]; trivial
  · rw [if_neg hM]
    cases isValidAttributes text with
    | none => trivial
    | some valid =>
      dsimp only
      by_cases hv : valid = 0
      · rw [if_pos hv]; exact LineAfter.of_readsTo h1
      · rw [if_neg hv]
        exact tracked_from h1 (Tracked.bind (tracked_slash c1) (fun a => ReadsTo.refl a))

theorem tracked_handleOpeningTag (MAX : Nat) (cur : Cursor) (s : List (List Int)) :
    Tracked cur (fun r => r.1) (handleOpeningTag MAX cur s) := by
  have h1 : ReadsTo cur (readLetters cur).2 := readsTo_readLetters cur
  unfold handleOpeningTag
  generalize (readLetters cur).1 = n
  generalize (readLetters cur).2 = c1 at h1 ⊢
  dsimp only
  by_cases hl : 100 ≤ n.length
  · rw [if_pos hl]; trivial
  · rw [if_neg hl]
    by_cases he : isWhiteSpace c1.character = 0 ∧ c1.character ≠ 62 ∧ c1.character ≠ 47
    · rw [if_pos he]; exact LineAfter.of_readsTo h1
    · rw [if_neg he]
      refine tracked_from h1 (Tracked.bind (tracked_slash c1) (fun a => ?_))
      have h2 : ReadsTo a (skipWhiteSpaces a) := readsTo_skipWhiteSpaces a
      generalize skipWhiteSpaces a = c2 at h2 ⊢
      by_cases ha : a.character = 62
      · rw [if_pos ha]; exact ReadsTo.refl a
      · rw [if_neg ha]
        by_cases hb : isLetter c2.character = 0 ∧ c2.character ≠ 62 ∧ c2.character ≠ 47
        · rw [if_pos hb]; exact LineAfter.of_readsTo h2
        · rw [if_neg hb]
          by_cases hc : c2.character = 62
          · rw [if_pos hc]; exact h2
          · rw [if_neg hc]
            exact tracked_from h2 (Tracked.bind (tracked_slash c2)
              (fun b => tracked_handleOpeningTagAttributes MAX n b s))

theorem isBlank_replicate_newline (k : Nat) : IsBlank (List.replicate k 10) := by
  intro c hc
  rw [List.eq_of_mem_replicate hc]
  decide

/-! ## White space inside tags -/

/-- An opening tag with white space between the name and the `>`: the handler
pushes the name and returns at the `>`. -/
theorem handleOpeningTag_blank_gt (MAX : Nat) (n : List Int) (hn : IsName n)
    (hlen : n.length < 100) (w : List Int) (hw : IsBlank w) (rest : List Int) (line : Nat)
    (s : List (List Int)) :
    handleOpeningTag MAX (advance (n ++ (w ++ 62 :: rest)) line) s
      = .ok (⟨62, rest, line + w.count 10⟩, n :: s) := by
  cases w with
  | nil => simpa using handleOpeningTag_bare MAX n hn hlen rest line s
  | cons c w' =>
    have hrun := readLettersAcc_advance_run n hn.2 ((c :: w') ++ 62 :: rest)
      (blank_gt_head _ _ hw) line []
    have hlen' : ¬ 100 ≤ n.length := by omega
    have hc : isWhiteSpace c = 1 := hw c (List.mem_cons_self _ _)
    have hw' : IsBlank w' := fun y hy => hw y (List.mem_cons_of_mem _ hy)
    have hc47 : c ≠ 47 := by rcases isWhiteSpace_cases hc with h | h | h <;> simp [h]
    have hc62 : c ≠ 62 := by rcases isWhiteSpace_cases hc with h | h | h <;> simp [h]
    have h1 : skipWhiteSpaces ⟨c, w' ++ 62 :: rest, if c = 10 then line + 1 else line⟩
        = advance (62 :: rest) ((if c = 10 then line + 1 else line) + w'.count 10) := by
      rw [skipWhiteSpaces_of_ws hc]
      exact skipWhiteSpaces_advance_run w' hw' (62 :: rest) (by simp [isWhiteSpace]) _
    rw [count_newline_cons c w' line] at h1
    simp only [List.nil_append, List.cons_append] at hrun
    simp [handleOpeningTag, readLetters_eq, hrun, advance_cons, hlen', hc, hc47, hc62, h1,
      Result.bind, StackPush]

/-- One iteration on an opening tag with white space after the `<` and before
the `>` pushes its name. -/
theorem scanLoop_open_blank (MAX f : Nat) (n : List Int) (hn : IsName n) (hlen : n.length < 100)
    (w₁ w₂ : List Int) (hw₁ : IsBlank w₁) (hw₂ : IsBlank w₂) (rest : List Int) (line : Nat)
    (s : List (List Int)) :
    scanLoop MAX (f + 1) (60 :: (w₁ ++ (n ++ (w₂ ++ 62 :: rest)))) line s
      = scanLoop MAX f rest (line + w₁.count 10 + w₂.count 10) (n :: s) := by
  have h2 := skipWhiteSpaces_advance_run w₁ hw₁ (n ++ (w₂ ++ 62 :: rest)) (hn.head_not_ws _) line
  have h3 := hn.advance_letter (w₂ ++ 62 :: rest) (line + w₁.count 10)
  have h4 := ne_slash_of_isLetter h3
  have h5 := handleOpeningTag_blank_gt MAX n hn hlen w₂ hw₂ rest (line + w₁.count 10) s
  simp [scanLoop, advance_cons, skipWhiteSpaces_lt, h2, EOF, h3, h4, h5, Result.bind]

/-- One iteration on a self-closing tag with attributes, with white space after
the `<`: nothing is pushed. -/
theorem scanLoop_blank_attributes_selfClosing (MAX f : Nat) (n : List Int) (hn : IsName n)
    (hlen : n.length < 100) (w₀ w₁ : List Int) (hw₀ : IsBlank w₀) (hw₁ : IsBlank w₁)
    (hwne : w₁ ≠ []) (T : List Int) (hT : ∀ x ∈ T.head?, isLetter x = 1) (hTne : T ≠ [])
    (hacc : Accumulates 0 T) (hq : quoteRun 0 T = 0) (hvalid : isValidAttributes T = some 1)
    (hM : T.length < MAX) (w₂ : List Int) (hw₂ : IsBlank w₂) (rest : List Int) (line : Nat)
    (s : List (List Int)) :
    scanLoop MAX (f + 1) (60 :: (w₀ ++ (n ++ (w₁ ++ (T ++ 47 :: (w₂ ++ 62 :: rest)))))) line s
      = scanLoop MAX f rest (line + w₀.count 10 + w₁.count 10 + T.count 10 + w₂.count 10) s := by
  have h2 := skipWhiteSpaces_advance_run w₀ hw₀ (n ++ (w₁ ++ (T ++ 47 :: (w₂ ++ 62 :: rest))))
    (hn.head_not_ws _) line
  have h3 := hn.advance_letter (w₁ ++ (T ++ 47 :: (w₂ ++ 62 :: rest))) (line + w₀.count 10)
  have h4 := ne_slash_of_isLetter h3
  have h5 := handleOpeningTag_to_attributes MAX n hn hlen w₁ hw₁ hwne
    (T ++ 47 :: (w₂ ++ 62 :: rest)) (by rw [List.head?_append_of_ne_nil _ hTne]; exact hT)
    (by simp [hTne]) (line + w₀.count 10) s
  have h6 := handleOpeningTagAttributes_selfClosing MAX n T hacc hq hvalid hM w₂ hw₂ rest
    (line + w₀.count 10 + w₁.count 10) s
  simp [scanLoop, advance_cons, skipWhiteSpaces_lt, h2, EOF, h3, h4, h5, h6, Result.bind]

theorem accumulates_append (t u : List Int) :
    ∀ q, Accumulates q t → Accumulates (quoteRun q t) u → Accumulates q (t ++ u) := by
  induction t with
  | nil => intro q _ h; exact h
  | cons c t ih =>
    intro q h hu
    exact ⟨h.1, h.2.1, ih _ h.2.2 hu⟩

theorem isBlank_plain {w : List Int} (hw : IsBlank w) :
    ∀ c ∈ w, c ≠ 62 ∧ c ≠ 60 ∧ c ≠ EOF ∧ c ≠ 47 ∧ c ≠ 0 ∧ c ≠ 34 ∧ c ≠ 39 := by
  intro c hc
  unfold EOF
  rcases isWhiteSpace_cases (hw c hc) with h | h | h <;> simp [h]

theorem IsBlank.isSpaces {w : List Int} (hw : IsBlank w) : IsSpaces w := by
  intro c hc
  rcases isWhiteSpace_cases (hw c hc) with h | h | h <;> simp [h, isspace]

/-- The facts about the attribute text `a w₃ = w₄ "v" w₅` that the handler
relies on: the attribute loop goes over all of it and ends outside quotes, and
`isValidAttributes` accepts it. -/
theorem spaced_pair (a v w₃ w₄ w₅ : List Int) (ha : IsName a) (hv : IsPlainValue v)
    (hw₃ : IsBlank w₃) (hw₄ : IsBlank w₄) (hw₅ : IsBlank w₅) :
    Accumulates 0 (a ++ (w₃ ++ 61 :: (w₄ ++ 34 :: (v ++ 34 :: w₅)))) ∧
    quoteRun 0 (a ++ (w₃ ++ 61 :: (w₄ ++ 34 :: (v ++ 34 :: w₅)))) = 0 ∧
    isValidAttributes (a ++ (w₃ ++ 61 :: (w₄ ++ 34 :: (v ++ 34 :: w₅)))) = some 1 := by
  have qa : ∀ q, quoteRun q a = q := quoteRun_of_no_quote a (fun c hc => by
    have := isLetter_bounds (ha.2 c hc)
    omega)
  have qw : ∀ w, IsBlank w → ∀ q, quoteRun q w = q := fun w hw =>
    quoteRun_of_no_quote w (fun c hc => ⟨(isBlank_plain hw c hc).2.2.2.2.2.1, (isBlank_plain hw c hc).2.2.2.2.2.2⟩)
  have qv : ∀ q, quoteRun q v = q :=
    quoteRun_of_no_quote v (fun c hc => ⟨(hv c hc).1, (hv c hc).2.1⟩)
  have aw : ∀ w, IsBlank w → ∀ q, Accumulates q w := fun w hw =>
    accumulates_of_plain w (fun c hc =>
      ⟨(isBlank_plain hw c hc).1, (isBlank_plain hw c hc).2.1, (isBlank_plain hw c hc).2.2.1, (isBlank_plain hw c hc).2.2.2.1⟩)
  have av : ∀ q, Accumulates q v := accumulates_of_plain v (fun c hc =>
    ⟨(hv c hc).2.2.2.1, (hv c hc).2.2.1, (hv c hc).2.2.2.2.2.2, (hv c hc).2.2.2.2.1⟩)
  have h5 : Accumulates 1 (34 :: w₅) :=
    ⟨by decide, by decide, aw w₅ hw₅ _⟩
  have h4 : Accumulates 0 (34 :: (v ++ 34 :: w₅)) :=
    ⟨by decide, by decide, accumulates_append v _ _ (av _) (by rw [qv]; exact h5)⟩
  have h3 : Accumulates 0 (61 :: (w₄ ++ 34 :: (v ++ 34 :: w₅))) :=
    ⟨by decide, by decide, accumulates_append w₄ _ _ (aw w₄ hw₄ _) (by rw [qw w₄ hw₄]; exact h4)⟩
  refine ⟨?_, ?_, ?_⟩
  · refine accumulates_append a _ 0 (accumulates_of_plain a ha.plain 0) ?_
    rw [qa]
    refine accumulates_append w₃ _ 0 (aw w₃ hw₃ 0) ?_
    rw [qw w₃ hw₃]
    exact h3
  · rw [quoteRun_append, qa, quoteRun_append, qw w₃ hw₃, quoteRun_cons, quoteRun_append,
      qw w₄ hw₄, quoteRun_cons, quoteRun_append, qv, quoteRun_cons, qw w₅ hw₅]
    rfl
  · refine isValidAttributes_of_matches _ ?_ ⟨[], _, fun _ hx => absurd hx (List.not_mem_nil _),
      ?_, (List.nil_append _).symm⟩
    · intro c hc
      simp only [List.mem_append, List.mem_cons] at hc
      rcases hc with h | h | h | h | h | h | h | h
      · exact (ha.attr_name c h).1
      · exact (isBlank_plain hw₃ c h).2.2.2.2.1
      · rw [h]; decide
      · exact (isBlank_plain hw₄ c h).2.2.2.2.1
      · rw [h]; decide
      · exact (hv c h).2.2.2.2.2.1
      · rw [h]; decide
      · exact (isBlank_plain hw₅ c h).2.2.2.2.1
    · have h := AttrPairs.cons a w₃ w₄ v w₅ [] 34 ha.1
        (fun c hc => ⟨(ha.attr_name c hc).2.1, (ha.attr_name c hc).2.2⟩) hw₃.isSpaces
        hw₄.isSpaces (Or.inl rfl) (fun c hc => ⟨(hv c hc).1, (hv c hc).2.2.1, (hv c hc).2.2.2.1⟩)
        hw₅.isSpaces AttrPairs.nil
      simpa using h

/-- A scan that leaves the loop with an empty stack within the fuel of the
driver is a successful scan. -/
theorem performLexicalAnalysis_of_scanLoop (MAX f : Nat) (file : List Int)
    (hf : f ≤ file.length + 1) (h : ∃ l, scanLoop MAX f file 1 StackCreate = .ok (l, [])) :
    performLexicalAnalysis MAX file = .ok [] := by
  obtain ⟨l, h⟩ := h
  have h' := scanLoop_fuel_add MAX f (file.length + 1 - f) file 1 StackCreate _ h
  rw [Nat.add_sub_cancel' hf] at h'
  unfold performLexicalAnalysis
  rw [h']
  rfl

/-- C14, as amended: white space is tolerated inside tags. For all non-empty
alphabetic names `n` (within the name buffer) and `a`, every value `v` without
quote, `<`, `>`, `/`, NUL byte or byte `0xFF`, and all runs `w₁ .. w₆` of
spaces, tabs and newlines with `w₂` non-empty, the attribute text being shorter
than `attributeName`: the document `< w₁ n w₂ a w₃ = w₄ "v" w₅ / w₆ >` is
accepted, and the document `< w₁ n w₃ > < w₄ / w₅ n w₆ >` is accepted. -/
theorem blanks_tolerated (MAX : Nat) (n a v w₁ w₂ w₃ w₄ w₅ w₆ : List Int) (hn : IsName n)
    (hlen : n.length < 100) (ha : IsName a) (hv : IsPlainValue v) (hw₁ : IsBlank w₁)
    (hw₂ : IsBlank w₂) (hne : w₂ ≠ []) (hw₃ : IsBlank w₃) (hw₄ : IsBlank w₄) (hw₅ : IsBlank w₅)
    (hw₆ : IsBlank w₆)
    (hM : (a ++ (w₃ ++ 61 :: (w₄ ++ 34 :: (v ++ 34 :: w₅)))).length < MAX) :
    performLexicalAnalysis MAX
      (60 :: (w₁ ++ (n ++ (w₂ ++ ((a ++ (w₃ ++ 61 :: (w₄ ++ 34 :: (v ++ 34 :: w₅))))
        ++ 47 :: (w₆ ++ [62])))))) = .ok [] ∧
    performLexicalAnalysis MAX
      (60 :: (w₁ ++ (n ++ (w₃ ++ 62 :: 60 :: (w₄ ++ 47 :: (w₅ ++ (n ++ (w₆ ++ [62])))))))) = .ok []
    := by
  obtain ⟨hacc, hq, hvalid⟩ := spaced_pair a v w₃ w₄ w₅ ha hv hw₃ hw₄ hw₅
  have hane : a ≠ [] := ha.1
  constructor
  · refine performLexicalAnalysis_of_scanLoop MAX 2 _ (by simp) ?_
    rw [scanLoop_blank_attributes_selfClosing MAX 1 n hn hlen w₁ w₂ hw₁ hw₂ hne _
      (ha.head_letter _) (by simp [hane]) hacc hq hvalid hM w₆ hw₆ [] 1 StackCreate,
      scanLoop_nil]
    exact ⟨_, rfl⟩
  · refine performLexicalAnalysis_of_scanLoop MAX 3 _ ?_ ?_
    · have := List.length_pos.mpr hn.1
      simp only [List.length_cons, List.length_append]
      omega
    · rw [scanLoop_open_blank MAX 2 n hn hlen w₁ w₃ hw₁ hw₃ _ 1 StackCreate,
        scanLoop_close MAX 1 n hn (by omega) w₄ w₅ w₆ hw₄ hw₅ hw₆ [] _ StackCreate,
        scanLoop_nil]
      exact ⟨_, rfl⟩

/-- C14 as stated fails at `<a   x = "?1"   />` with the byte `0xFF` for `?`,
and at `<a   x = "1?"   />` with a NUL byte for `?`: the value holds no quote,
`<`, `>` or `/`, the runs between the parts are spaces, and the document is not
accepted, whatever the size of `attributeName`; where that buffer can hold the
text read, the scan reports an error. -/
theorem blanks_tolerated_counterexample :
    IsName (chars "a") ∧ IsName (chars "x") ∧ IsBlank (chars "   ") ∧ IsBlank (chars " ") ∧
    (∀ c ∈ -1 :: chars "1", c ≠ 34 ∧ c ≠ 39 ∧ c ≠ 60 ∧ c ≠ 62 ∧ c ≠ 47) ∧
    (∀ MAX, performLexicalAnalysis MAX
      (chars "<a   x = \"" ++ ((-1 :: chars "1") ++ chars "\"   />")) ≠ .ok []) ∧
    performLexicalAnalysis 6
      (chars "<a   x = \"" ++ ((-1 :: chars "1") ++ chars "\"   />")) = .error 1 ∧
    (∀ c ∈ chars "1" ++ [0], c ≠ 34 ∧ c ≠ 39 ∧ c ≠ 60 ∧ c ≠ 62 ∧ c ≠ 47) ∧
    (∀ MAX, performLexicalAnalysis MAX
      (chars "<a   x = \"" ++ ((chars "1" ++ [0]) ++ chars "\"   />")) ≠ .ok []) ∧
    performLexicalAnalysis 12
      (chars "<a   x = \"" ++ ((chars "1" ++ [0]) ++ chars "\"   />")) = .error 1 := by
  refine ⟨by decide, by decide, by decide, by decide, by decide, fun MAX => ?_, by decide,
    by decide, fun MAX => ?_, by decide⟩
  · by_cases h : 6 ≤ MAX
    · rw [performLexicalAnalysis_mono h _ (by decide)]
      decide
    · have h' : MAX < 6 := Nat.lt_of_not_le h
      interval_cases MAX <;> decide
  · by_cases h : 12 ≤ MAX
    · rw [performLexicalAnalysis_mono h _ (by decide)]
      decide
    · have h' : MAX < 12 := Nat.lt_of_not_le h
      interval_cases MAX <;> decide

/-- C14 at `<a   x = "1"   />`, `<a x="1"/>` and `< a></a>`. -/
theorem blanks_tolerated_witness :
    performLexicalAnalysis 12 (chars "<a   x = \"1\"   />") = .ok [] ∧
    performLexicalAnalysis 12 (chars "<a x=\"1\"/>") = .ok [] ∧
    performLexicalAnalysis 12 (chars "< a></a>") = .ok [] :=
  ⟨(blanks_tolerated 12 (chars "a") (chars "x") (chars "1") [] (chars "   ") (chars " ")
      (chars " ") (chars "   ") [] (by decide) (by decide) (by decide) (by decide) (by decide)
      (by decide) (by decide) (by decide) (by decide) (by decide) (by decide) (by decide)).1,
   (blanks_tolerated 12 (chars "a") (chars "x") (chars "1") [] (chars " ") [] [] [] []
      (by decide) (by decide) (by decide) (by decide) (by decide) (by decide) (by decide)
      (by decide) (by decide) (by decide) (by decide) (by decide)).1,
   (blanks_tolerated 12 (chars "a") (chars "x") (chars "1") (chars " ") (chars " ") [] [] [] []
      (by decide) (by decide) (by decide) (by decide) (by decide) (by decide) (by decide)
      (by decide) (by decide) (by decide) (by decide) (by decide)).2⟩


/-! ## The Tag Stack -/

/-- C30: the Tag Stack is a LIFO. For every stack `s` and string `x`, `StackPop`
after `StackPush(s, x)` returns a string equal to `x` and leaves the stack
equal to `s`; `StackIsEmpty` is true of the stack of `StackCreate` and false
after a `StackPush`; `StackPop` on an empty stack returns `NULL`, which no
pushed string is, and leaves the stack empty. -/
theorem tagStack_lifo (s : List (List Int)) (x : List Int) :
    StackPop (StackPush s x) = (some x, s) ∧
    StackIsEmpty StackCreate = true ∧
    StackIsEmpty (StackPush s x) = false ∧
    (StackIsEmpty s = true →
      StackPop s = (none, s) ∧ (StackPop s).1 ≠ (StackPop (StackPush s x)).1 ∧
      StackIsEmpty (StackPop s).2 = true) := by
  refine ⟨rfl, rfl, rfl, fun h => ?_⟩
  cases s with
  | nil => exact ⟨rfl, by simp [StackPop, StackPush], rfl⟩
  | cons top next => simp [StackIsEmpty] at h

/-- C30 at the stack of `StackCreate` and the string `window`. -/
theorem tagStack_lifo_witness :
    StackPop (StackPush StackCreate (chars "window")) = (some (chars "window"), StackCreate) ∧
    StackPop StackCreate = (none, StackCreate) ∧
    (StackPop StackCreate).1 ≠ (StackPop (StackPush StackCreate (chars "window"))).1 :=
  ⟨(tagStack_lifo StackCreate (chars "window")).1,
   ((tagStack_lifo StackCreate (chars "window")).2.2.2 rfl).1,
   ((tagStack_lifo StackCreate (chars "window")).2.2.2 rfl).2.1⟩

/-- A close that succeeds has popped exactly one entry, whatever the stack. -/
theorem handleClosingTag_pops (cur : Cursor) (st : List (List Int))
    (r : Cursor × List (List Int)) (h : handleClosingTag cur st = .ok r) :
    ∃ top, st = top :: r.2 ∧ top = (readLetters (skipWhiteSpaces (advance cur.file cur.line))).1 := by
  unfold handleClosingTag at h
  generalize skipWhiteSpaces (advance cur.file cur.line) = c1 at h ⊢
  dsimp only at h
  by_cases hl : isLetter c1.character = 0
  · rw [if_pos hl] at h; exact absurd h (by simp)
  · rw [if_neg hl] at h
    by_cases hb : 10000 ≤ (readLetters c1).1.length
    · rw [if_pos hb] at h; exact absurd h (by simp)
    · rw [if_neg hb] at h
      cases st with
      | nil => simp [StackPop] at h
      | cons top next =>
        simp only [StackPop] at h
        by_cases hne : (readLetters c1).1 ≠ top
        · rw [if_pos hne] at h; exact absurd h (by simp)
        · rw [if_neg hne] at h
          by_cases hc : (skipWhiteSpaces (readLetters c1).2).character ≠ 62
          · rw [if_pos hc] at h; exact absurd h (by simp)
          · rw [if_neg hc] at h
            simp only [Result.ok.injEq] at h
            rw [← h]
            exact ⟨top, rfl, (not_not.mp hne).symm⟩

/-- C24: a successful close pops exactly one entry. If the Tag Stack is
`n :: s` when `handleClosingTag` is entered, the closing tag names `n` (within
the name buffer) and is followed, after optional spaces, tabs and newlines,
by `>`, then the handler returns at the `>` and the Tag Stack is exactly `s`;
the driver goes on with `s`; and whenever the handler returns normally, on any
input and any stack, the stack it was given is the one it leaves with one
entry, the name read, on top. -/
theorem close_pops_one (MAX : Nat) (n : List Int) (hn : IsName n) (hlen : n.length < 10000)
    (w₀ w₁ w₂ : List Int) (hw₀ : IsBlank w₀) (hw₁ : IsBlank w₁) (hw₂ : IsBlank w₂)
    (rest : List Int) (c : Int) (line : Nat) (s : List (List Int)) :
    handleClosingTag ⟨c, w₁ ++ (n ++ (w₂ ++ 62 :: rest)), line⟩ (n :: s)
      = .ok (⟨62, rest, line + w₁.count 10 + w₂.count 10⟩, s) ∧
    (∀ f, scanLoop MAX (f + 1) (60 :: (w₀ ++ 47 :: (w₁ ++ (n ++ (w₂ ++ 62 :: rest))))) line
        (n :: s)
      = scanLoop MAX f rest (line + w₀.count 10 + w₁.count 10 + w₂.count 10) s) ∧
    (∀ (cur : Cursor) (st : List (List Int)) (r : Cursor × List (List Int)),
      handleClosingTag cur st = .ok r → ∃ top, st = top :: r.2) := by
  refine ⟨handleClosingTag_match n hn hlen w₁ w₂ hw₁ hw₂ rest c line s, fun f => ?_,
    fun cur st r h => ?_⟩
  · exact scanLoop_close MAX f n hn hlen w₀ w₁ w₂ hw₀ hw₁ hw₂ rest line s
  · obtain ⟨top, e, _⟩ := handleClosingTag_pops cur st r h
    exact ⟨top, e⟩

/-- C24 at the closing tag `</ b >` met with `b`, `a` on the stack. -/
theorem close_pops_one_witness :
    handleClosingTag ⟨47, chars " b >", 1⟩ [chars "b", chars "a"]
      = .ok (⟨62, [], 1⟩, [chars "a"]) :=
  (close_pops_one 0 (chars "b") (by decide) (by decide) [] (chars " ") (chars " ") (by decide)
    (by decide) (by decide) [] 47 1 [chars "a"]).1


/-- The stack left by a scan of bare tags that ends without error is the chain
of the tags opened and not yet closed. -/
theorem scanLoop_tags_chain (MAX : Nat) (P : List BareTag) (hP : WellNamed P) :
    ∀ (f line : Nat) (s : List (List Int)) (r : Nat × List (List Int)),
      scanLoop MAX f (tagsText P) line s = .ok r → r.2 = openChain s P := by
  induction P with
  | nil =>
    intro f line s r h
    cases f with
    | zero => simp [tagsText, scanLoop] at h
    | succ f =>
      simp only [tagsText, scanLoop_nil, Result.ok.injEq] at h
      subst h
      rfl
  | cons t P ih =>
    intro f line s r h
    have ht := hP t (List.mem_cons_self _ _)
    have hP' : WellNamed P := fun u hu => hP u (List.mem_cons_of_mem _ hu)
    cases f with
    | zero => simp [scanLoop] at h
    | succ f =>
      cases t with
      | opening n =>
        have ht : IsName n ∧ n.length < 100 := ht
        have e : tagsText (BareTag.opening n :: P) = 60 :: ([] ++ (n ++ 62 :: tagsText P)) := by
          simp [tagsText, BareTag.text]
        rw [e, scanLoop_open MAX f n ht.1 ht.2 [] isBlank_nil] at h
        exact ih hP' f _ (n :: s) r h
      | closing n =>
        have ht : IsName n ∧ n.length < 100 := ht
        have e : tagsText (BareTag.closing n :: P)
            = 60 :: ([] ++ 47 :: ([] ++ (n ++ ([] ++ 62 :: tagsText P)))) := by
          simp [tagsText, BareTag.text]
        rw [e] at h
        by_cases hs : ∀ top ∈ s.head?, top ≠ n
        · have hm := scanLoop_close_mismatch MAX f n ht.1 (by have := ht.2; omega) [] []
            isBlank_nil isBlank_nil (62 :: tagsText P) (by simp [isLetter]) line s hs
          simp only [List.nil_append] at hm h
          rw [hm] at h
          exact absurd h (by simp)
        · cases s with
          | nil => exact absurd (by simp) hs
          | cons top s' =>
            have htop : top = n := by
              by_contra hne
              exact hs (by simpa using hne)
            subst htop
            rw [scanLoop_close MAX f top ht.1 (by have := ht.2; omega) [] [] [] isBlank_nil
              isBlank_nil isBlank_nil] at h
            exact ih hP' f _ s' r h

/-- A run of bare opening tags is scanned to its end and leaves the names on
the stack, the last one on top. -/
theorem scanLoop_openings (MAX : Nat) (names : List (List Int))
    (hnames : ∀ n ∈ names, IsName n ∧ n.length < 100) :
    ∀ (line : Nat) (s : List (List Int)),
      scanLoop MAX (names.length + 1) (tagsText (names.map BareTag.opening)) line s
        = .ok (line, names.reverse ++ s) := by
  induction names with
  | nil => intro line s; simp [tagsText, scanLoop_nil]
  | cons n names ih =>
    intro line s
    have hn := hnames n (List.mem_cons_self _ _)
    have e : tagsText ((n :: names).map BareTag.opening)
        = 60 :: ([] ++ (n ++ 62 :: tagsText (names.map BareTag.opening))) := by
      simp [tagsText, BareTag.text]
    rw [e, List.length_cons, scanLoop_open MAX _ n hn.1 hn.2 [] isBlank_nil,
      ih (fun m hm => hnames m (List.mem_cons_of_mem _ hm))]
    simp

/-- C25: the Tag Stack mirrors the chain of open tags. Once the scanner has
gone, without error, through a sequence `P` of complete bare opening tags `<n>`
and closing tags `</n>` (names within the name buffer), the Tag Stack, read
from the top, is the list of the names of the tags opened and not yet closed,
most recently opened first, and it is with that stack that the scan of what
follows `P` goes on; after `<n1><n2>...<nk>` the stack is `[nk, ..., n1]`. -/
theorem tagStack_mirrors_chain (MAX : Nat) (P : List BareTag) (hP : WellNamed P) :
    (∀ (f : Nat) (r : Nat × List (List Int)),
      scanLoop MAX f (tagsText P) 1 StackCreate = .ok r →
      r.2 = openChain [] P ∧
      ∀ (g : Nat) (rest : List Int),
        scanLoop MAX (g + P.length) (tagsText P ++ rest) 1 StackCreate
          = scanLoop MAX g rest 1 (openChain [] P)) ∧
    (∀ names : List (List Int), P = names.map BareTag.opening →
      scanLoop MAX (P.length + 1) (tagsText P) 1 StackCreate = .ok (1, names.reverse)) := by
  refine ⟨fun f r h => ?_, fun names e => ?_⟩
  · have hc := scanLoop_tags_chain MAX P hP f 1 StackCreate r h
    obtain ⟨h1, h2⟩ := scanLoop_tags MAX P hP f 1 StackCreate r h
    refine ⟨hc, fun g rest => ?_⟩
    rw [h2 g rest, h1, hc]
    rfl
  · subst e
    have hnames : ∀ n ∈ names, IsName n ∧ n.length < 100 := fun n hn =>
      hP (BareTag.opening n) (List.mem_map.mpr ⟨n, hn, rfl⟩)
    have h := scanLoop_openings MAX names hnames 1 StackCreate
    simpa [StackCreate] using h

/-- C25 after `<a><b></b><c>`, where `a` and `c` are open, and after
`<a><b><c>`. -/
theorem tagStack_mirrors_chain_witness :
    scanLoop 0 5 (chars "<a><b></b><c>") 1 StackCreate = .ok (1, [chars "c", chars "a"]) ∧
    [chars "c", chars "a"]
      = openChain [] [.opening (chars "a"), .opening (chars "b"), .closing (chars "b"),
          .opening (chars "c")] ∧
    scanLoop 0 4 (chars "<a><b><c>") 1 StackCreate = .ok (1, [chars "c", chars "b", chars "a"]) :=
  ⟨by decide,
   ((tagStack_mirrors_chain 0
      [.opening (chars "a"), .opening (chars "b"), .closing (chars "b"), .opening (chars "c")]
      (by decide)).1 5 (1, [chars "c", chars "a"]) (by decide)).1,
   (tagStack_mirrors_chain 0
      [.opening (chars "a"), .opening (chars "b"), .opening (chars "c")] (by decide)).2
      [chars "a", chars "b", chars "c"] rfl⟩


/-! ## What may follow a tag name -/

/-- The handler on a name followed by a character that is neither a letter,
nor white space, nor `>`, nor `/`, reports an error. -/
theorem handleOpeningTag_name_end (MAX : Nat) (n : List Int) (hn : IsName n)
    (hlen : n.length < 100) (c : Int) (rest : List Int) (line : Nat) (s : List (List Int))
    (hl : isLetter c = 0) (hw : isWhiteSpace c = 0) (h62 : c ≠ 62) (h47 : c ≠ 47) :
    handleOpeningTag MAX (advance (n ++ c :: rest) line) s = .error line := by
  have h10 : c ≠ 10 := by
    intro h; rw [h] at hw; exact absurd hw (by decide)
  have hrun := readLettersAcc_advance_run n hn.2 (c :: rest) (by simpa using hl) line []
  simp only [List.nil_append, advance_cons, if_neg h10] at hrun
  have hlen' : ¬ 100 ≤ n.length := by omega
  simp [handleOpeningTag, readLetters_eq, hrun, hlen', hw, h62, h47]

/-- C27: tag names are purely alphabetic. For every non-empty alphabetic name
`n` (within the name buffer) and every character `c` that is not an ASCII
letter, a space, a tab, a newline, `>` or `/`, every document that begins with
`<` `n` `c` is rejected, at line 1; the handler reports the error as soon as
it has read `c`, whatever the stack. -/
theorem name_purely_alphabetic (MAX : Nat) (n : List Int) (hn : IsName n)
    (hlen : n.length < 100) (c : Int) (rest : List Int) (hl : isLetter c = 0)
    (hs : c ≠ 32) (ht : c ≠ 9) (hnl : c ≠ 10) (h62 : c ≠ 62) (h47 : c ≠ 47) :
    performLexicalAnalysis MAX (60 :: (n ++ c :: rest)) = .error 1 ∧
    ∀ (line : Nat) (s : List (List Int)),
      handleOpeningTag MAX (advance (n ++ c :: rest) line) s = .error line := by
  have hw : isWhiteSpace c = 0 := by simp [isWhiteSpace, hs, ht, hnl]
  refine ⟨?_, fun line s => handleOpeningTag_name_end MAX n hn hlen c rest line s hl hw h62 h47⟩
  unfold performLexicalAnalysis
  rw [List.length_cons, scanLoop_tag MAX _ n hn,
    handleOpeningTag_name_end MAX n hn hlen c rest 1 StackCreate hl hw h62 h47]
  rfl

/-- C27 at `<h1>` and at `<a-b>`. -/
theorem name_purely_alphabetic_witness :
    performLexicalAnalysis 0 (chars "<h1>") = .error 1 ∧
    performLexicalAnalysis 0 (chars "<a-b>") = .error 1 :=
  ⟨(name_purely_alphabetic 0 (chars "h") (by decide) (by decide) 49 (chars ">") (by decide)
      (by decide) (by decide) (by decide) (by decide) (by decide)).1,
   (name_purely_alphabetic 0 (chars "a") (by decide) (by decide) 45 (chars "b>") (by decide)
      (by decide) (by decide) (by decide) (by decide) (by decide)).1⟩

/-! ## Attribute pairs that touch -/

theorem isSpaces_append {w w' : List Int} (hw : IsSpaces w) (hw' : IsSpaces w') :
    IsSpaces (w ++ w') := by
  intro c hc
  rcases List.mem_append.mp hc with h | h
  · exact hw c h
  · exact hw' c h

/-- Two texts of pairs, the first not empty, put together with any run of
white space in between, the empty one included, make a text of pairs. -/
theorem attrPairs_append (r₁ : List Int) (h₁ : AttrPairs r₁) (w r₂ : List Int)
    (hw : IsSpaces w) (h₂ : AttrPairs r₂) (hne : r₁ ≠ []) : AttrPairs (r₁ ++ (w ++ r₂)) := by
  induction h₁ with
  | nil => exact absurd rfl hne
  | cons name w₁ w₂ v w₃ r q hname hn hw₁ hw₂ hq hv hw₃ hr ih =>
    by_cases hr0 : r = []
    · subst hr0
      have h := AttrPairs.cons name w₁ w₂ v (w₃ ++ w) r₂ q hname hn hw₁ hw₂ hq hv
        (isSpaces_append hw₃ hw) h₂
      simpa [List.append_assoc] using h
    · have h := AttrPairs.cons name w₁ w₂ v w₃ (r ++ (w ++ r₂)) q hname hn hw₁ hw₂ hq hv hw₃
        (ih hr0)
      simpa [List.append_assoc] using h

/-- The texts of the attribute grammar are closed under concatenation. -/
theorem matches_append (t₁ t₂ : List Int) (h₁ : MatchesAttributeGrammar t₁)
    (h₂ : MatchesAttributeGrammar t₂) : MatchesAttributeGrammar (t₁ ++ t₂) := by
  obtain ⟨w₁, r₁, hw₁, hr₁, rfl⟩ := h₁
  obtain ⟨w₂, r₂, hw₂, hr₂, rfl⟩ := h₂
  by_cases hne : r₁ = []
  · subst hne
    exact ⟨w₁ ++ w₂, r₂, isSpaces_append hw₁ hw₂, hr₂, by simp⟩
  · exact ⟨w₁, r₁ ++ (w₂ ++ r₂), hw₁, attrPairs_append r₁ hr₁ w₂ r₂ hw₂ hr₂ hne, by simp⟩

/-- C28, as amended: attribute pairs need not be separated by white space. For
all texts `p₁` and `p₂` without NUL that `isValidAttributes` accepts on their
own, and so for all pairs `a₁="v₁"` and `a₂="v₂"` that it accepts,
`isValidAttributes(p₁ ++ p₂)` returns 1. -/
theorem touching_pairs_accepted (p₁ p₂ : List Int) (hnul₁ : ∀ c ∈ p₁, c ≠ 0)
    (hnul₂ : ∀ c ∈ p₂, c ≠ 0) (h₁ : isValidAttributes p₁ = some 1)
    (h₂ : isValidAttributes p₂ = some 1) :
    isValidAttributes (p₁ ++ p₂) = some 1 := by
  have m₁ := matches_of_isValidAttributesLoop _ p₁ hnul₁ h₁
  have m₂ := matches_of_isValidAttributesLoop _ p₂ hnul₂ h₂
  refine isValidAttributes_of_matches (p₁ ++ p₂) (fun c hc => ?_) (matches_append p₁ p₂ m₁ m₂)
  rcases List.mem_append.mp hc with h | h
  · exact hnul₁ c h
  · exact hnul₂ c h

/-- C28 as stated fails at `a="1"b="2"`: each pair is accepted on its own and
the two put together are not refused. -/
theorem touching_pairs_counterexample :
    isValidAttributes (chars "a=\"1\"") = some 1 ∧
    isValidAttributes (chars "b=\"2\"") = some 1 ∧
    isValidAttributes (chars "a=\"1\"" ++ chars "b=\"2\"") ≠ some 0 := by
  decide

/-- C28, as amended, at `a="1"b="2"`. -/
theorem touching_pairs_accepted_witness :
    isValidAttributes (chars "a=\"1\"b=\"2\"") = some 1 :=
  touching_pairs_accepted (chars "a=\"1\"") (chars "b=\"2\"") (by decide) (by decide)
    (by decide) (by decide)


/-! ## Termination -/

theorem Result.bind_ne_outOfFuel {α β : Type} {r : Result α} {f : α → Result β}
    (hr : r ≠ .outOfFuel) (hf : ∀ a, r = .ok a → f a ≠ .outOfFuel) :
    r.bind f ≠ .outOfFuel := by
  cases r with
  | ok a => exact hf a rfl
  | error l => simp [Result.bind]
  | undefined => simp [Result.bind]
  | outOfFuel => exact absurd rfl hr

theorem expectTagEnd_returns (cur : Cursor) : expectTagEnd cur ≠ .outOfFuel := by
  unfold expectTagEnd
  dsimp only
  split_ifs <;> simp

theorem slash_returns (cur : Cursor) :
    (if cur.character = 47 then expectTagEnd cur else Result.ok cur) ≠ .outOfFuel := by
  split_ifs
  · exact expectTagEnd_returns cur
  · simp

theorem handleClosingTag_returns (cur : Cursor) (s : List (List Int)) :
    handleClosingTag cur s ≠ .outOfFuel := by
  unfold handleClosingTag
  generalize skipWhiteSpaces (advance cur.file cur.line) = c1
  dsimp only
  generalize (readLetters c1).1 = name
  generalize (readLetters c1).2 = c2
  generalize skipWhiteSpaces c2 = c3
  by_cases hl : isLetter c1.character = 0
  · rw [if_pos hl]; simp
  · rw [if_neg hl]
    by_cases hb : 10000 ≤ name.length
    · rw [if_pos hb]; simp
    · rw [if_neg hb]
      cases (StackPop s).1 with
      | none => simp
      | some top =>
        dsimp only
        by_cases hne : name ≠ top
        · rw [if_pos hne]; simp
        · rw [if_neg hne]
          by_cases hc : c3.character ≠ 62
          · rw [if_pos hc]; simp
          · rw [if_neg hc]; simp

theorem handleOpeningTagAttributes_returns (MAX : Nat) (n : List Int) (cur : Cursor)
    (s : List (List Int)) : handleOpeningTagAttributes MAX n cur s ≠ .outOfFuel := by
  unfold handleOpeningTagAttributes
  have ht := isValidAttributes_total (readAttributes cur).1
  generalize (readAttributes cur).1 = text at ht ⊢
  generalize (readAttributes cur).2 = c1
  dsimp only
  by_cases hM : MAX ≤ text.length
  · rw [if_pos hM]; simp
  · rw [if_neg hM]
    rcases ht with h | h
    · rw [h]; simp
    · rw [h]
      simp only [one_ne_zero, if_false]
      exact Result.bind_ne_outOfFuel (slash_returns c1) (fun a _ => by simp)

theorem handleOpeningTag_returns (MAX : Nat) (cur : Cursor) (s : List (List Int)) :
    handleOpeningTag MAX cur s ≠ .outOfFuel := by
  unfold handleOpeningTag
  generalize (readLetters cur).1 = n
  generalize (readLetters cur).2 = c1
  dsimp only
  by_cases hl : 100 ≤ n.length
  · rw [if_pos hl]; simp
  · rw [if_neg hl]
    by_cases he : isWhiteSpace c1.character = 0 ∧ c1.character ≠ 62 ∧ c1.character ≠ 47
    · rw [if_pos he]; simp
    · rw [if_neg he]
      refine Result.bind_ne_outOfFuel (slash_returns c1) (fun a _ => ?_)
      generalize skipWhiteSpaces a = c2
      by_cases ha : a.character = 62
      · rw [if_pos ha]; simp
      · rw [if_neg ha]
        by_cases hb : isLetter c2.character = 0 ∧ c2.character ≠ 62 ∧ c2.character ≠ 47
        · rw [if_pos hb]; simp
        · rw [if_neg hb]
          by_cases hc : c2.character = 62
          · rw [if_pos hc]; simp
          · rw [if_neg hc]
            exact Result.bind_ne_outOfFuel (slash_returns c2)
              (fun b _ => handleOpeningTagAttributes_returns MAX n b s)

theorem ReadsTo.length_le {a b : Cursor} (h : ReadsTo a b) : b.file.length ≤ a.file.length := by
  obtain ⟨p, hp, _⟩ := h
  rw [hp, List.length_append]
  omega

/-- The driver's loop returns within as many iterations as the input has
characters, plus one: every iteration that does not leave the loop reads at
least one character. -/
theorem scanLoop_returns (MAX : Nat) (f : Nat) :
    ∀ (file : List Int) (line : Nat) (s : List (List Int)), file.length < f →
      scanLoop MAX f file line s ≠ .outOfFuel := by
  induction f with
  | zero => intro file line s h; exact absurd h (Nat.not_lt_zero _)
  | succ f ih =>
    intro file line s hf
    cases file with
    | nil => rw [scanLoop_nil]; simp
    | cons d rest =>
      have hrest : rest.length < f := by simpa using hf
      unfold scanLoop
      rw [advance_cons]
      dsimp only
      have h1 : (skipWhiteSpaces ⟨d, rest, if d = 10 then line + 1 else line⟩).file.length
          ≤ rest.length := (readsTo_skipWhiteSpaces ⟨d, rest, _⟩).length_le
      generalize skipWhiteSpaces ⟨d, rest, if d = 10 then line + 1 else line⟩ = c1 at h1 ⊢
      have h2 : (skipWhiteSpaces (advance c1.file c1.line)).file.length ≤ c1.file.length :=
        ((readsTo_advance c1).trans (readsTo_skipWhiteSpaces _)).length_le
      have hT1 := tracked_handleClosingTag (skipWhiteSpaces (advance c1.file c1.line)) s
      have hT2 := tracked_handleOpeningTag MAX (skipWhiteSpaces (advance c1.file c1.line)) s
      have hR1 := handleClosingTag_returns (skipWhiteSpaces (advance c1.file c1.line)) s
      have hR2 := handleOpeningTag_returns MAX (skipWhiteSpaces (advance c1.file c1.line)) s
      generalize skipWhiteSpaces (advance c1.file c1.line) = c2 at h2 hT1 hT2 hR1 hR2 ⊢
      have hrec : ∀ (r : Result (Cursor × List (List Int))), Tracked c2 (fun r => r.1) r →
          r ≠ .outOfFuel →
          (r.bind fun a => scanLoop MAX f a.1.file a.1.line a.2) ≠ .outOfFuel := by
        intro r hr hne
        refine Result.bind_ne_outOfFuel hne (fun a ha => ih _ _ _ ?_)
        rw [ha] at hr
        have hle : a.1.file.length ≤ c2.file.length := ReadsTo.length_le hr
        omega
      split_ifs <;> first | exact hrec _ hT1 hR1 | exact hrec _ hT2 hR2 | simp

theorem skipWhiteSpacesFrom_unfold (c : Int) (file : List Int) (line : Nat) :
    skipWhiteSpacesFrom c file line
      = if isWhiteSpace c ≠ 0 then skipWhiteSpaces (advance file line) else ⟨c, file, line⟩ := by
  cases file with
  | nil =>
    rw [skipWhiteSpaces_of_EOF (show (advance [] line).character = EOF from rfl)]
    rfl
  | cons d rest => rfl

theorem readLettersFrom_unfold (c : Int) (file : List Int) (line : Nat) (name : List Int) :
    readLettersFrom c file line name
      = if isLetter c ≠ 0 then readLettersAcc (advance file line) (name ++ [c])
        else (name, ⟨c, file, line⟩) := by
  cases file with
  | nil =>
    rw [readLettersAcc_of_not (show isLetter (advance [] line).character = 0 from rfl)]
    rfl
  | cons d rest => rfl

theorem readAttributesFrom_unfold (c : Int) (file : List Int) (line : Nat) (q : Int)
    (acc : List Int) :
    readAttributesFrom c file line q acc
      = if c ≠ 62 ∧ c ≠ 60 ∧ c ≠ EOF then
          if c = 47 ∧ quoteAfter q c = 0 then (acc, ⟨c, file, line⟩)
          else readAttributesAcc (advance file line) (quoteAfter q c) (acc ++ [c])
        else (acc, ⟨c, file, line⟩) := by
  cases file with
  | nil =>
    rw [readAttributesAcc_stop (show ¬ ((advance [] line).character ≠ 62 ∧
      (advance [] line).character ≠ 60 ∧ (advance [] line).character ≠ EOF) from
        fun h => h.2.2 rfl)]
    rfl
  | cons d rest => rfl


/-- C29: termination. On every finite input, after whose last character every
read yields `EOF`, `performLexicalAnalysis` comes to an end: it returns, or it
reports an error, or it has stored past the end of one of its buffers; its loop
runs at most once more than the input has characters. `isValidAttributes`
returns 0 or 1 on every text. Each loop over the input is the `while` loop of
the source, one read per iteration, and none can spin at the end of the input:
entered with `EOF` as the current character, the white-space loop, the name
loop, the attribute loop and the driver's loop are left at once. -/
theorem scanner_terminates (MAX : Nat) (file : List Int) :
    ((∃ st, performLexicalAnalysis MAX file = .ok st) ∨
      (∃ l, performLexicalAnalysis MAX file = .error l) ∨
      performLexicalAnalysis MAX file = .undefined) ∧
    (∀ (line : Nat) (s : List (List Int)),
      scanLoop MAX (file.length + 1) file line s ≠ .outOfFuel) ∧
    (∀ text, isValidAttributes text = some 0 ∨ isValidAttributes text = some 1) ∧
    (∀ (c : Int) (f : List Int) (line : Nat),
      skipWhiteSpacesFrom c f line
        = if isWhiteSpace c ≠ 0 then skipWhiteSpaces (advance f line) else ⟨c, f, line⟩) ∧
    (∀ (c : Int) (f : List Int) (line : Nat) (name : List Int),
      readLettersFrom c f line name
        = if isLetter c ≠ 0 then readLettersAcc (advance f line) (name ++ [c])
          else (name, ⟨c, f, line⟩)) ∧
    (∀ (c : Int) (f : List Int) (line : Nat) (q : Int) (acc : List Int),
      readAttributesFrom c f line q acc
        = if c ≠ 62 ∧ c ≠ 60 ∧ c ≠ EOF then
            if c = 47 ∧ quoteAfter q c = 0 then (acc, ⟨c, f, line⟩)
            else readAttributesAcc (advance f line) (quoteAfter q c) (acc ++ [c])
          else (acc, ⟨c, f, line⟩)) ∧
    (∀ (line : Nat) (s : List (List Int)) (q : Int) (acc : List Int),
      advance [] line = ⟨EOF, [], line⟩ ∧
      skipWhiteSpaces ⟨EOF, [], line⟩ = ⟨EOF, [], line⟩ ∧
      readLettersAcc ⟨EOF, [], line⟩ acc = (acc, ⟨EOF, [], line⟩) ∧
      readAttributesAcc ⟨EOF, [], line⟩ q acc = (acc, ⟨EOF, [], line⟩) ∧
      scanLoop MAX 1 [] line s = .ok (line, s)) := by
  have hloop : ∀ (line : Nat) (s : List (List Int)),
      scanLoop MAX (file.length + 1) file line s ≠ .outOfFuel :=
    fun line s => scanLoop_returns MAX _ file line s (Nat.lt_succ_self _)
  refine ⟨?_, hloop, isValidAttributes_total, skipWhiteSpacesFrom_unfold,
    readLettersFrom_unfold, readAttributesFrom_unfold, fun line s q acc => ?_⟩
  · have h : performLexicalAnalysis MAX file ≠ .outOfFuel := by
      unfold performLexicalAnalysis
      refine Result.bind_ne_outOfFuel (hloop 1 StackCreate) (fun a _ => ?_)
      split_ifs <;> simp
    cases hp : performLexicalAnalysis MAX file with
    | ok st => exact Or.inl ⟨st, rfl⟩
    | error l => exact Or.inr (Or.inl ⟨l, rfl⟩)
    | undefined => exact Or.inr (Or.inr rfl)
    | outOfFuel => exact absurd hp h
  · have hl : isLetter (Cursor.mk EOF [] line).character = 0 := rfl
    exact ⟨rfl, skipWhiteSpaces_of_EOF rfl, readLettersAcc_of_not hl _,
      readAttributesAcc_stop (fun h => h.2.2 rfl) _ _, scanLoop_nil MAX 0 line s⟩


/-! ## A `/` inside a quoted value -/

/-- Inside a value opened by a double quote, the attribute loop goes over a
text whose single quotes are paired around no `/`, and is still inside the
value at its end. -/
theorem accumulates_of_singlesPaired (v : List Int)
    (hv : ∀ c ∈ v, c ≠ 60 ∧ c ≠ 62 ∧ c ≠ 34 ∧ c ≠ EOF) :
    ∀ odd : Bool, singlesPaired odd v = true →
      Accumulates (if odd then 0 else 1) v ∧ quoteRun (if odd then 0 else 1) v = 1 := by
  induction v with
  | nil =>
    intro odd h
    cases odd with
    | false => exact ⟨trivial, rfl⟩
    | true => simp [singlesPaired] at h
  | cons c v ih =>
    intro odd h
    obtain ⟨h60, h62, h34, hE⟩ := hv c (List.mem_cons_self _ _)
    have ih' := ih (fun x hx => hv x (List.mem_cons_of_mem _ hx))
    simp only [singlesPaired, Bool.and_eq_true] at h
    obtain ⟨hslash, hrest⟩ := h
    have hq : quoteAfter (if odd then 0 else 1) c
        = if (if c = 39 then !odd else odd) = true then 0 else 1 := by
      by_cases h39 : c = 39
      · cases odd <;> simp [quoteAfter, h39]
      · cases odd <;> simp [quoteAfter, h39, h34]
    obtain ⟨hacc, hrun⟩ := ih' _ hrest
    refine ⟨⟨⟨h62, h60, hE⟩, ?_, ?_⟩, ?_⟩
    · rintro ⟨h47, hz⟩
      have h39 : c ≠ 39 := by rw [h47]; decide
      rw [hq] at hz
      cases odd <;> simp [h47] at hslash hz
    · rw [hq]; exact hacc
    · rw [quoteRun_cons, hq]; exact hrun

/-- The facts about the attribute text `a="v"` that the handler relies on, for
a value `v` whose single quotes are paired around no `/`. -/
theorem quoted_pair (a v : List Int) (ha : IsName a)
    (hv : ∀ c ∈ v, c ≠ 60 ∧ c ≠ 62 ∧ c ≠ 34 ∧ c ≠ 0 ∧ c ≠ EOF)
    (hp : singlesPaired false v = true) :
    Accumulates 0 (a ++ 61 :: 34 :: (v ++ [34])) ∧
    quoteRun 0 (a ++ 61 :: 34 :: (v ++ [34])) = 0 ∧
    isValidAttributes (a ++ 61 :: 34 :: (v ++ [34])) = some 1 := by
  have qa : ∀ q, quoteRun q a = q := quoteRun_of_no_quote a (fun c hc => by
    have := isLetter_bounds (ha.2 c hc)
    omega)
  obtain ⟨hacc, hrun⟩ := accumulates_of_singlesPaired v
    (fun c hc => ⟨(hv c hc).1, (hv c hc).2.1, (hv c hc).2.2.1, (hv c hc).2.2.2.2⟩) false hp
  simp only [Bool.false_eq_true, if_false] at hacc hrun
  have h3 : Accumulates 1 (v ++ [34]) :=
    accumulates_append v [34] 1 hacc (by rw [hrun]; exact ⟨by decide, by decide, trivial⟩)
  have h2 : Accumulates 0 (61 :: 34 :: (v ++ [34])) :=
    ⟨by decide, by decide, by decide, by decide, h3⟩
  refine ⟨?_, ?_, ?_⟩
  · refine accumulates_append a _ 0 (accumulates_of_plain a ha.plain 0) ?_
    rw [qa]
    exact h2
  · rw [quoteRun_append, qa, quoteRun_cons, quoteRun_cons, quoteRun_append]
    have e : quoteAfter (quoteAfter 0 61) 34 = 1 := by decide
    rw [e, hrun]
    rfl
  · refine isValidAttributes_of_matches _ ?_ ⟨[], _, fun _ hx => absurd hx (List.not_mem_nil _),
      ?_, (List.nil_append _).symm⟩
    · intro c hc
      simp only [List.mem_append, List.mem_cons, List.not_mem_nil, or_false] at hc
      rcases hc with h | h | h | h | h
      · exact (ha.attr_name c h).1
      · rw [h]; decide
      · rw [h]; decide
      · exact (hv c h).2.2.2.1
      · rw [h]; decide
    · have h := AttrPairs.cons a [] [] v [] [] 34 ha.1
        (fun c hc => ⟨(ha.attr_name c hc).2.1, (ha.attr_name c hc).2.2⟩)
        (fun _ hx => absurd hx (List.not_mem_nil _))
        (fun _ hx => absurd hx (List.not_mem_nil _)) (Or.inl rfl)
        (fun c hc => ⟨(hv c hc).2.2.1, (hv c hc).1, (hv c hc).2.1⟩)
        (fun _ hx => absurd hx (List.not_mem_nil _)) AttrPairs.nil
      simpa using h


/-- C26, as amended: a `/` inside a quoted attribute value does not end the
attribute scan when the single quotes of the value are paired around no `/`.
For all non-empty alphabetic names `n` (within the name buffer) and `a` and
every value `v` that contains no `<`, `>`, `"`, NUL byte or byte `0xFF`, in
which an even number of `'` precedes every `/` and whose number of `'` is even
(`v` may contain `/`), the attribute text being shorter than `attributeName`:
the document `<n a="v"/>` is accepted, and the handler returns at the `>` with
the stack it was given, nothing being pushed. -/
theorem quoted_slash_kept (MAX : Nat) (n a v : List Int) (hn : IsName n)
    (hlen : n.length < 100) (ha : IsName a)
    (hv : ∀ c ∈ v, c ≠ 60 ∧ c ≠ 62 ∧ c ≠ 34 ∧ c ≠ 0 ∧ c ≠ EOF)
    (hp : singlesPaired false v = true)
    (hM : (a ++ 61 :: 34 :: (v ++ [34])).length < MAX) :
    performLexicalAnalysis MAX (60 :: (n ++ 32 :: (a ++ 61 :: 34 :: (v ++ [34, 47, 62]))))
      = .ok [] ∧
    ∀ (rest : List Int) (line : Nat) (s : List (List Int)),
      handleOpeningTag MAX
          (advance (n ++ 32 :: (a ++ 61 :: 34 :: (v ++ 34 :: 47 :: 62 :: rest))) line) s
        = .ok (⟨62, rest, line + (a ++ 61 :: 34 :: (v ++ [34])).count 10⟩, s) := by
  obtain ⟨hacc, hq, hvalid⟩ := quoted_pair a v ha hv hp
  have hane : a ≠ [] := ha.1
  constructor
  · refine performLexicalAnalysis_of_scanLoop MAX 2 _ (by simp) ?_
    have h := scanLoop_attributes_selfClosing MAX 1 n hn hlen [32] isBlank_space (by simp)
      (a ++ 61 :: 34 :: (v ++ [34])) (ha.head_letter _) (by simp [hane]) hacc hq hvalid hM []
      isBlank_nil [] 1 StackCreate
    simp only [List.nil_append, List.singleton_append, List.append_assoc, List.cons_append]
      at h
    rw [h, scanLoop_nil]
    exact ⟨_, rfl⟩
  · intro rest line s
    have h1 := handleOpeningTag_to_attributes MAX n hn hlen [32] isBlank_space (by simp)
      ((a ++ 61 :: 34 :: (v ++ [34])) ++ 47 :: 62 :: rest)
      (by rw [List.append_assoc]; exact ha.head_letter _) (by simp [hane]) line s
    have h2 := handleOpeningTagAttributes_selfClosing MAX n (a ++ 61 :: 34 :: (v ++ [34]))
      hacc hq hvalid hM [] isBlank_nil rest line s
    simp only [List.nil_append, List.singleton_append, List.count_nil, Nat.add_zero,
      show List.count (10 : Int) [32] = 0 by decide, List.append_assoc, List.cons_append]
      at h1 h2
    rw [h1, h2]

/-- C26 as stated fails at `<a href="x'/y"/>`: the value holds no `<`, `>` or
`"`, and the document is not accepted, whatever the size of `attributeName`;
where that buffer can hold the text read, the scan reports an error. It fails
too, the single quotes being out of the matter, at `<a href="x/?y"/>` with the
byte `0xFF`, and with a NUL byte, for `?`. -/
theorem quoted_slash_counterexample :
    (∀ c ∈ chars "x'/y", c ≠ 60 ∧ c ≠ 62 ∧ c ≠ 34) ∧
    (∀ MAX, performLexicalAnalysis MAX (chars "<a href=\"x'/y\"/>") ≠ .ok []) ∧
    performLexicalAnalysis 9 (chars "<a href=\"x'/y\"/>") = .error 1 ∧
    ((∀ c ∈ chars "x/" ++ -1 :: chars "y", c ≠ 60 ∧ c ≠ 62 ∧ c ≠ 34 ∧ c ≠ 39) ∧
      singlesPaired false (chars "x/" ++ -1 :: chars "y") = true) ∧
    (∀ MAX, performLexicalAnalysis MAX
      (chars "<a href=\"" ++ ((chars "x/" ++ -1 :: chars "y") ++ chars "\"/>")) ≠ .ok []) ∧
    performLexicalAnalysis 9
      (chars "<a href=\"" ++ ((chars "x/" ++ -1 :: chars "y") ++ chars "\"/>")) = .error 1 ∧
    ((∀ c ∈ chars "x/" ++ 0 :: chars "y", c ≠ 60 ∧ c ≠ 62 ∧ c ≠ 34 ∧ c ≠ 39) ∧
      singlesPaired false (chars "x/" ++ 0 :: chars "y") = true) ∧
    (∀ MAX, performLexicalAnalysis MAX
      (chars "<a href=\"" ++ ((chars "x/" ++ 0 :: chars "y") ++ chars "\"/>")) ≠ .ok []) ∧
    performLexicalAnalysis 12
      (chars "<a href=\"" ++ ((chars "x/" ++ 0 :: chars "y") ++ chars "\"/>")) = .error 1 := by
  refine ⟨by decide, fun MAX => ?_, by decide, by decide, fun MAX => ?_, by decide, by decide,
    fun MAX => ?_, by decide⟩
  · by_cases h : 9 ≤ MAX
    · rw [performLexicalAnalysis_mono h _ (by decide)]
      decide
    · have h' : MAX < 9 := Nat.lt_of_not_le h
      interval_cases MAX <;> decide
  · by_cases h : 9 ≤ MAX
    · rw [performLexicalAnalysis_mono h _ (by decide)]
      decide
    · have h' : MAX < 9 := Nat.lt_of_not_le h
      interval_cases MAX <;> decide
  · by_cases h : 12 ≤ MAX
    · rw [performLexicalAnalysis_mono h _ (by decide)]
      decide
    · have h' : MAX < 12 := Nat.lt_of_not_le h
      interval_cases MAX <;> decide

/-- C26, as amended, at `<a href="x/y"/>` and at `<a t="'/'"/>`. -/
theorem quoted_slash_kept_witness :
    performLexicalAnalysis 16 (chars "<a href=\"x/y\"/>") = .ok [] ∧
    performLexicalAnalysis 16 (chars "<a t=\"'/'\"/>") = .error 1 ∧
    performLexicalAnalysis 16 (chars "<a t=\"''/\"/>") = .ok [] :=
  ⟨(quoted_slash_kept 16 (chars "a") (chars "href") (chars "x/y") (by decide) (by decide)
      (by decide) (by decide) (by decide) (by decide)).1,
   by decide,
   (quoted_slash_kept 16 (chars "a") (chars "t") (chars "''/") (by decide) (by decide)
      (by decide) (by decide) (by decide) (by decide)).1⟩


/-! ## The two sets of white space -/

theorem isSpaces_plain {w : List Int} (hw : IsSpaces w) :
    ∀ c ∈ w, c ≠ 62 ∧ c ≠ 60 ∧ c ≠ EOF ∧ c ≠ 47 ∧ c ≠ 0 ∧ c ≠ 34 ∧ c ≠ 39 := by
  intro c hc
  have := isspace_cases (hw c hc)
  unfold EOF
  omega

theorem singlesPaired_of_plain (v : List Int) (hv : IsPlainValue v) :
    singlesPaired false v = true := by
  induction v with
  | nil => rfl
  | cons c v ih =>
    obtain ⟨_, h39, _, _, h47, _, _⟩ := hv c (List.mem_cons_self _ _)
    simp only [singlesPaired, if_neg h47, if_neg h39, Bool.true_and]
    exact ih (fun x hx => hv x (List.mem_cons_of_mem _ hx))

/-- The facts about the attribute text `a="v"` followed by a run of `isspace`
characters that the handler relies on. -/
theorem pair_then_spaces (a v w : List Int) (ha : IsName a) (hv : IsPlainValue v)
    (hw : IsSpaces w) :
    Accumulates 0 (a ++ 61 :: 34 :: (v ++ 34 :: w)) ∧
    isValidAttributes (a ++ 61 :: 34 :: (v ++ 34 :: w)) = some 1 := by
  have hv' : ∀ c ∈ v, c ≠ 60 ∧ c ≠ 62 ∧ c ≠ 34 ∧ c ≠ 0 ∧ c ≠ EOF := fun c hc =>
    ⟨(hv c hc).2.2.1, (hv c hc).2.2.2.1, (hv c hc).1, (hv c hc).2.2.2.2.2.1,
      (hv c hc).2.2.2.2.2.2⟩
  obtain ⟨hacc, hq, hvalid⟩ := quoted_pair a v ha hv' (singlesPaired_of_plain v hv)
  have e : a ++ 61 :: 34 :: (v ++ 34 :: w) = (a ++ 61 :: 34 :: (v ++ [34])) ++ w := by simp
  have hnul : ∀ c ∈ a ++ 61 :: 34 :: (v ++ [34]), c ≠ 0 := by
    intro c hc
    simp only [List.mem_append, List.mem_cons, List.not_mem_nil, or_false] at hc
    rcases hc with h | h | h | h | h
    · exact (ha.attr_name c h).1
    · rw [h]; decide
    · rw [h]; decide
    · exact (hv' c h).2.2.2.1
    · rw [h]; decide
  rw [e]
  refine ⟨accumulates_append _ w 0 hacc (accumulates_of_plain w (fun c hc =>
    ⟨(isSpaces_plain hw c hc).1, (isSpaces_plain hw c hc).2.1, (isSpaces_plain hw c hc).2.2.1,
      (isSpaces_plain hw c hc).2.2.2.1⟩) _), ?_⟩
  refine isValidAttributes_of_matches _ (fun c hc => ?_)
    (matches_append _ w (matches_of_isValidAttributesLoop _ _ hnul hvalid)
      ⟨w, [], hw, AttrPairs.nil, by simp⟩)
  rcases List.mem_append.mp hc with h | h
  · exact hnul c h
  · exact (isSpaces_plain hw c h).2.2.2.2.1

/-- One iteration on an opening tag with attributes pushes its name. -/
theorem scanLoop_attributes_open (MAX f : Nat) (n : List Int) (hn : IsName n)
    (hlen : n.length < 100) (w₁ : List Int) (hw₁ : IsBlank w₁) (hwne : w₁ ≠ []) (T : List Int)
    (hT : ∀ x ∈ T.head?, isLetter x = 1) (hTne : T ≠ []) (hacc : Accumulates 0 T)
    (hvalid : isValidAttributes T = some 1) (hM : T.length < MAX) (rest : List Int)
    (line : Nat) (s : List (List Int)) :
    scanLoop MAX (f + 1) (60 :: (n ++ (w₁ ++ (T ++ 62 :: rest)))) line s
      = scanLoop MAX f rest (line + w₁.count 10 + T.count 10) (n :: s) := by
  have h5 := handleOpeningTag_to_attributes MAX n hn hlen w₁ hw₁ hwne (T ++ 62 :: rest)
    (by rw [List.head?_append_of_ne_nil _ hTne]; exact hT) (by simp [hTne]) line s
  have h6 := handleOpeningTagAttributes_open MAX n T hacc hvalid hM rest
    (line + w₁.count 10) s
  rw [scanLoop_tag MAX f n hn, h5, h6]
  rfl

/-- Where the driver stands between two tags, a character that is neither
space, tab, newline nor `<`, met after a run of those, is an error. -/
theorem between_tags_rejected (MAX : Nat) (pre : List Int) (k line : Nat)
    (s : List (List Int)) (hk : k ≤ pre.length)
    (hpre : ∀ (g : Nat) (rest : List Int),
      scanLoop MAX (g + k) (pre ++ rest) 1 StackCreate = scanLoop MAX g rest line s)
    (w T : List Int) (hw : IsBlank w) (x : Int) (hx : isWhiteSpace x = 0) (h60 : x ≠ 60)
    (hE : x ≠ EOF) :
    performLexicalAnalysis MAX (pre ++ (w ++ x :: T)) = .error (line + w.count 10) := by
  have e : (pre ++ (w ++ x :: T)).length + 1
      = ((pre.length - k + w.length + T.length + 1) + 1) + k := by
    simp only [List.length_append, List.length_cons]; omega
  unfold performLexicalAnalysis
  rw [e, hpre, scanLoop_blank MAX _ w hw, scanLoop_unexpected MAX _ x T _ _ hx h60 hE]
  rfl


/-- C32: the scanner and the attribute validator do not use the same set of
white space. A carriage return, a vertical tab and a form feed are white space
for `isspace` and not for `isWhiteSpace`. Such a character `c` makes the scan
fail wherever the driver stands between two tags: after any part `pre` of a
document that the driver has gone through in full iterations, and so after any
sequence of complete bare tags scanned without error, and after a run of
spaces, tabs and newlines; it also does right after a tag name. Inside an
attribute text it is white space: the document `<n a="v" w></n>`, `w` a run of
`isspace` characters, is accepted (names within the name buffer, the attribute
text shorter than `attributeName`, `v` a text without quote, `<`, `>` or `/`). -/
theorem whiteSpace_sets_differ (MAX : Nat) (c : Int) (hc : c = 13 ∨ c = 11 ∨ c = 12) :
    (isWhiteSpace c = 0 ∧ isspace c = 1) ∧
    (∀ (pre : List Int) (k line : Nat) (s : List (List Int)), k ≤ pre.length →
      (∀ (g : Nat) (rest : List Int),
        scanLoop MAX (g + k) (pre ++ rest) 1 StackCreate = scanLoop MAX g rest line s) →
      ∀ w T : List Int, IsBlank w →
        performLexicalAnalysis MAX (pre ++ (w ++ c :: T)) = .error (line + w.count 10)) ∧
    (∀ (P : List BareTag) (r : Nat × List (List Int)), WellNamed P →
      scanLoop MAX ((tagsText P).length + 1) (tagsText P) 1 StackCreate = .ok r →
      ∀ w T : List Int, IsBlank w →
        performLexicalAnalysis MAX (tagsText P ++ (w ++ c :: T)) = .error (1 + w.count 10)) ∧
    (∀ n rest : List Int, IsName n → n.length < 100 →
      performLexicalAnalysis MAX (60 :: (n ++ c :: rest)) = .error 1) ∧
    (∀ n a v w : List Int, IsName n → n.length < 100 → IsName a → IsPlainValue v →
      IsSpaces w → (a ++ 61 :: 34 :: (v ++ 34 :: w)).length < MAX →
      performLexicalAnalysis MAX
        (60 :: (n ++ 32 :: ((a ++ 61 :: 34 :: (v ++ 34 :: w)) ++ 62 :: 60 :: 47 :: (n ++ [62]))))
        = .ok []) := by
  have hx : isWhiteSpace c = 0 := by rcases hc with h | h | h <;> rw [h] <;> decide
  have hsp : isspace c = 1 := by rcases hc with h | h | h <;> rw [h] <;> decide
  have h60 : c ≠ 60 := by rcases hc with h | h | h <;> rw [h] <;> decide
  have hE : c ≠ EOF := by rcases hc with h | h | h <;> rw [h] <;> decide
  have hl : isLetter c = 0 := by rcases hc with h | h | h <;> rw [h] <;> decide
  have h62 : c ≠ 62 := by rcases hc with h | h | h <;> rw [h] <;> decide
  have h47 : c ≠ 47 := by rcases hc with h | h | h <;> rw [h] <;> decide
  refine ⟨⟨hx, hsp⟩, fun pre k line s hk hpre w T hw => ?_, fun P r hP hscan w T hw => ?_,
    fun n rest hn hlen => ?_, fun n a v w hn hlen ha hv hw hM => ?_⟩
  · exact between_tags_rejected MAX pre k line s hk hpre w T hw c hx h60 hE
  · obtain ⟨h1, h2⟩ := scanLoop_tags MAX P hP _ _ _ _ hscan
    have h := between_tags_rejected MAX (tagsText P) P.length r.1 r.2 (length_le_tagsText P)
      h2 w T hw c hx h60 hE
    rw [h1] at h
    exact h
  · unfold performLexicalAnalysis
    rw [List.length_cons, scanLoop_tag MAX _ n hn,
      handleOpeningTag_name_end MAX n hn hlen c rest 1 StackCreate hl hx h62 h47]
    rfl
  · obtain ⟨hacc, hvalid⟩ := pair_then_spaces a v w ha hv hw
    have hane : a ≠ [] := ha.1
    refine performLexicalAnalysis_of_scanLoop MAX 3 _ ?_ ?_
    · have := List.length_pos.mpr hn.1
      simp only [List.length_cons, List.length_append]
      omega
    · have h1 := scanLoop_attributes_open MAX 2 n hn hlen [32] isBlank_space (by simp)
        (a ++ 61 :: 34 :: (v ++ 34 :: w)) (ha.head_letter _) (by simp [hane]) hacc hvalid hM
        (60 :: 47 :: (n ++ [62])) 1 StackCreate
      have h2 := scanLoop_close MAX 1 n hn (by omega) [] [] [] isBlank_nil isBlank_nil
        isBlank_nil [] (1 + List.count 10 [32] + (a ++ 61 :: 34 :: (v ++ 34 :: w)).count 10)
        StackCreate
      simp only [List.nil_append, List.singleton_append] at h1 h2
      rw [h1]
      exact ⟨_, h2.trans (scanLoop_nil MAX 0 _ _)⟩

/-- C32 at `<a>\r\n</a>`, rejected at line 1, and at `<a x="1"\r></a>`,
accepted. -/
theorem whiteSpace_sets_differ_witness :
    performLexicalAnalysis 8 (chars "<a>\r\n</a>") = .error 1 ∧
    performLexicalAnalysis 8 (chars "<a x=\"1\"\r></a>") = .ok [] :=
  ⟨(whiteSpace_sets_differ 8 13 (Or.inl rfl)).2.2.1 [.opening (chars "a")] (1, [chars "a"])
      (by decide) (by decide) [] (chars "\n</a>") (by decide),
   (whiteSpace_sets_differ 8 13 (Or.inl rfl)).2.2.2.2 (chars "a") (chars "x") (chars "1") [13]
      (by decide) (by decide) (by decide) (by decide) (by decide) (by decide)⟩


/-! ## The line reported and the place of the failure -/

theorem Located.toResult_bind {α β γ : Type} (r : Located α) (f : α → Located β)
    (g : β → γ) :
    (r.bind f).toResult g = (r.toResult id).bind fun a => (f a).toResult g := by
  cases r <;> rfl

theorem expectTagEndAt_toResult (cur : Cursor) :
    (expectTagEndAt cur).toResult id = expectTagEnd cur := by
  unfold expectTagEndAt expectTagEnd
  dsimp only
  split_ifs <;> rfl

theorem slashAt_toResult (cur : Cursor) :
    (if cur.character = 47 then expectTagEndAt cur else Located.ok cur).toResult id
      = if cur.character = 47 then expectTagEnd cur else Result.ok cur := by
  split_ifs
  · exact expectTagEndAt_toResult cur
  · rfl

/-- The closing-tag handler with the places of its exits prints the lines of
`handleClosingTag` and returns as it does. -/
theorem handleClosingTagAt_toResult (cur : Cursor) (s : List (List Int)) :
    (handleClosingTagAt cur s).toResult id = handleClosingTag cur s := by
  unfold handleClosingTagAt handleClosingTag
  generalize skipWhiteSpaces (advance cur.file cur.line) = c1
  dsimp only
  generalize (readLetters c1).1 = name
  generalize (readLetters c1).2 = c2
  generalize skipWhiteSpaces c2 = c3
  by_cases hl : isLetter c1.character = 0
  · rw [if_pos hl, if_pos hl]; rfl
  · rw [if_neg hl, if_neg hl]
    by_cases hb : 10000 ≤ name.length
    · rw [if_pos hb, if_pos hb]; rfl
    · rw [if_neg hb, if_neg hb]
      cases (StackPop s).1 with
      | none => rfl
      | some top =>
        dsimp only
        by_cases hne : name ≠ top
        · rw [if_pos hne, if_pos hne]; rfl
        · rw [if_neg hne, if_neg hne]
          by_cases hc : c3.character ≠ 62
          · rw [if_pos hc, if_pos hc]; rfl
          · rw [if_neg hc, if_neg hc]; rfl

theorem handleOpeningTagAttributesAt_toResult (MAX : Nat) (n : List Int) (cur : Cursor)
    (s : List (List Int)) :
    (handleOpeningTagAttributesAt MAX n cur s).toResult id
      = handleOpeningTagAttributes MAX n cur s := by
  unfold handleOpeningTagAttributesAt handleOpeningTagAttributes
  generalize (readAttributes cur).1 = text
  generalize (readAttributes cur).2 = c1
  dsimp only
  by_cases hM : MAX ≤ text.length
  · rw [if_pos hM, if_pos hM]; rfl
  · rw [if_neg hM, if_neg hM]
    cases isValidAttributes text with
    | none => rfl
    | some valid =>
      dsimp only
      by_cases hv : valid = 0
      · rw [if_pos hv, if_pos hv]; rfl
      · rw [if_neg hv, if_neg hv, Located.toResult_bind, slashAt_toResult]
        rfl

/-- The opening-tag handler with the places of its exits prints the lines of
`handleOpeningTag` and returns as it does. -/
theorem handleOpeningTagAt_toResult (MAX : Nat) (cur : Cursor) (s : List (List Int)) :
    (handleOpeningTagAt MAX cur s).toResult id = handleOpeningTag MAX cur s := by
  unfold handleOpeningTagAt handleOpeningTag
  generalize (readLetters cur).1 = n
  generalize (readLetters cur).2 = c1
  dsimp only
  by_cases hl : 100 ≤ n.length
  · rw [if_pos hl, if_pos hl]; rfl
  · rw [if_neg hl, if_neg hl]
    by_cases he : isWhiteSpace c1.character = 0 ∧ c1.character ≠ 62 ∧ c1.character ≠ 47
    · rw [if_pos he, if_pos he]; rfl
    · rw [if_neg he, if_neg he, Located.toResult_bind, slashAt_toResult]
      congr 1
      funext a
      generalize skipWhiteSpaces a = c2
      by_cases ha : a.character = 62
      · rw [if_pos ha, if_pos ha]; rfl
      · rw [if_neg ha, if_neg ha]
        by_cases hb : isLetter c2.character = 0 ∧ c2.character ≠ 62 ∧ c2.character ≠ 47
        · rw [if_pos hb, if_pos hb]; rfl
        · rw [if_neg hb, if_neg hb]
          by_cases hc : c2.character = 62
          · rw [if_pos hc, if_pos hc]; rfl
          · rw [if_neg hc, if_neg hc, Located.toResult_bind, slashAt_toResult]
            congr 1
            funext b
            exact handleOpeningTagAttributesAt_toResult MAX n b s

/-- The driver's loop with the places of its exits prints the lines of
`scanLoop`, and leaves the loop with the line counter that `scanLoop` gives. -/
theorem scanLoopAt_toResult (MAX : Nat) (f : Nat) :
    ∀ (file : List Int) (line : Nat) (s : List (List Int)),
      (scanLoopAt MAX f file line s).toResult (fun r => (r.1.line, r.2))
        = scanLoop MAX f file line s := by
  induction f with
  | zero => intro file line s; rfl
  | succ f ih =>
    intro file line s
    unfold scanLoopAt scanLoop
    generalize advance file line = c0
    dsimp only
    generalize skipWhiteSpaces c0 = c1
    generalize skipWhiteSpaces (advance c1.file c1.line) = c2
    by_cases h0 : c0.character = EOF
    · rw [if_pos h0, if_pos h0]; rfl
    · rw [if_neg h0, if_neg h0]
      by_cases h1 : c1.character = EOF
      · rw [if_pos h1, if_pos h1]; rfl
      · rw [if_neg h1, if_neg h1]
        by_cases h2 : c1.character ≠ 60
        · rw [if_pos h2, if_pos h2]; rfl
        · rw [if_neg h2, if_neg h2]
          by_cases h3 : isLetter c2.character = 0 ∧ c2.character ≠ 47
          · rw [if_pos h3, if_pos h3]; rfl
          · rw [if_neg h3, if_neg h3]
            by_cases h4 : c2.character = 47
            · rw [if_pos h4, if_pos h4, Located.toResult_bind, handleClosingTagAt_toResult]
              congr 1
              funext a
              exact ih _ _ _
            · rw [if_neg h4, if_neg h4]
              by_cases h5 : isLetter c2.character = 0
              · rw [if_pos h5, if_pos h5]; rfl
              · rw [if_neg h5, if_neg h5, Located.toResult_bind, handleOpeningTagAt_toResult]
                congr 1
                funext a
                exact ih _ _ _

/-- The scan with the places of its exits prints the line of
`performLexicalAnalysis` and returns as it does. -/
theorem performLexicalAnalysisAt_toResult (MAX : Nat) (file : List Int) :
    (performLexicalAnalysisAt MAX file).toResult id = performLexicalAnalysis MAX file := by
  unfold performLexicalAnalysisAt performLexicalAnalysis
  rw [← scanLoopAt_toResult]
  cases scanLoopAt MAX (file.length + 1) file 1 StackCreate with
  | ok r =>
    simp only [Located.bind, Located.toResult, Result.bind]
    split_ifs <;> rfl
  | error c => rfl
  | undefined => rfl
  | outOfFuel => rfl


theorem readsOn_from {α : Type} {a b : Cursor} {pos : α → Cursor} {r : Located α}
    (h : ReadsTo a b) (hr : ReadsOn b pos r) : ReadsOn a pos r := by
  cases r with
  | ok x => exact h.trans hr
  | error c => exact h.trans hr
  | undefined => trivial
  | outOfFuel => trivial

theorem readsOn_bind {α β : Type} {cur : Cursor} {pos : α → Cursor} {pos' : β → Cursor}
    {r : Located α} {f : α → Located β} (hr : ReadsOn cur pos r)
    (hf : ∀ a, ReadsOn (pos a) pos' (f a)) : ReadsOn cur pos' (r.bind f) := by
  cases r with
  | ok x => exact readsOn_from hr (hf x)
  | error c => exact hr
  | undefined => trivial
  | outOfFuel => trivial

theorem readsOn_expectTagEndAt (cur : Cursor) : ReadsOn cur id (expectTagEndAt cur) := by
  have h : ReadsTo cur (skipWhiteSpaces (advance cur.file cur.line)) :=
    (readsTo_advance cur).trans (readsTo_skipWhiteSpaces _)
  unfold expectTagEndAt
  generalize skipWhiteSpaces (advance cur.file cur.line) = c1 at h ⊢
  dsimp only
  split_ifs <;> exact h

theorem readsOn_slashAt (cur : Cursor) :
    ReadsOn cur id (if cur.character = 47 then expectTagEndAt cur else Located.ok cur) := by
  split_ifs
  · exact readsOn_expectTagEndAt cur
  · exact ReadsTo.refl cur

/-- Where the closing-tag handler returns or stops the process, the input has
been read on from where the handler was entered. -/
theorem readsOn_handleClosingTagAt (cur : Cursor) (s : List (List Int)) :
    ReadsOn cur (fun r => r.1) (handleClosingTagAt cur s) := by
  have h1 : ReadsTo cur (skipWhiteSpaces (advance cur.file cur.line)) :=
    (readsTo_advance cur).trans (readsTo_skipWhiteSpaces _)
  unfold handleClosingTagAt
  generalize skipWhiteSpaces (advance cur.file cur.line) = c1 at h1 ⊢
  have h2 : ReadsTo cur (readLetters c1).2 := h1.trans (readsTo_readLetters c1)
  have h3 : ReadsTo cur (skipWhiteSpaces (readLetters c1).2) :=
    h2.trans (readsTo_skipWhiteSpaces _)
  dsimp only
  generalize (readLetters c1).1 = name
  generalize (readLetters c1).2 = c2 at h2 h3 ⊢
  generalize skipWhiteSpaces c2 = c3 at h3 ⊢
  by_cases hl : isLetter c1.character = 0
  · rw [if_pos hl]; exact h1
  · rw [if_neg hl]
    by_cases hb : 10000 ≤ name.length
    · rw [if_pos hb]; trivial
    · rw [if_neg hb]
      cases (StackPop s).1 with
      | none => exact h2
      | some top =>
        dsimp only
        by_cases hne : name ≠ top
        · rw [if_pos hne]; exact h2
        · rw [if_neg hne]
          by_cases hc : c3.character ≠ 62
          · rw [if_pos hc]; exact h3
          · rw [if_neg hc]; exact h3

theorem readsOn_handleOpeningTagAttributesAt (MAX : Nat) (n : List Int) (cur : Cursor)
    (s : List (List Int)) :
    ReadsOn cur (fun r => r.1) (handleOpeningTagAttributesAt MAX n cur s) := by
  have h1 : ReadsTo cur (readAttributes cur).2 := readsTo_readAttributes cur
  unfold handleOpeningTagAttributesAt
  generalize (readAttributes cur).1 = text
  generalize (readAttributes cur).2 = c1 at h1 ⊢
  dsimp only
  by_cases hM : MAX ≤ text.length
  · rw [if_pos hM]; trivial
  · rw [if_neg hM]
    cases isValidAttributes text with
    | none => trivial
    | some valid =>
      dsimp only
      by_cases hv : valid = 0
      · rw [if_pos hv]; exact h1
      · rw [if_neg hv]
        exact readsOn_from h1 (readsOn_bind (readsOn_slashAt c1) (fun a => ReadsTo.refl a))

/-- Where the opening-tag handler returns or stops the process, the input has
been read on from where the handler was entered. -/
theorem readsOn_handleOpeningTagAt (MAX : Nat) (cur : Cursor) (s : List (List Int)) :
    ReadsOn cur (fun r => r.1) (handleOpeningTagAt MAX cur s) := by
  have h1 : ReadsTo cur (readLetters cur).2 := readsTo_readLetters cur
  unfold handleOpeningTagAt
  generalize (readLetters cur).1 = n
  generalize (readLetters cur).2 = c1 at h1 ⊢
  dsimp only
  by_cases hl : 100 ≤ n.length
  · rw [if_pos hl]; trivial
  · rw [if_neg hl]
    by_cases he : isWhiteSpace c1.character = 0 ∧ c1.character ≠ 62 ∧ c1.character ≠ 47
    · rw [if_pos he]; exact h1
    · rw [if_neg he]
      refine readsOn_from h1 (readsOn_bind (readsOn_slashAt c1) (fun a => ?_))
      have h2 : ReadsTo a (skipWhiteSpaces a) := readsTo_skipWhiteSpaces a
      generalize skipWhiteSpaces a = c2 at h2 ⊢
      by_cases ha : a.character = 62
      · rw [if_pos ha]; exact ReadsTo.refl a
      · rw [if_neg ha]
        by_cases hb : isLetter c2.character = 0 ∧ c2.character ≠ 62 ∧ c2.character ≠ 47
        · rw [if_pos hb]; exact h2
        · rw [if_neg hb]
          by_cases hc : c2.character = 62
          · rw [if_pos hc]; exact h2
          · rw [if_neg hc]
            exact readsOn_from h2 (readsOn_bind (readsOn_slashAt c2)
              (fun b => readsOn_handleOpeningTagAttributesAt MAX n b s))

/-- Where the driver's loop is left or stops the process, the input has been
read on from where the loop was entered. -/
theorem readsOn_scanLoopAt (MAX : Nat) (f : Nat) :
    ∀ (file : List Int) (line : Nat) (s : List (List Int)) (c : Int),
      ReadsOn ⟨c, file, line⟩ (fun r => r.1) (scanLoopAt MAX f file line s) := by
  induction f with
  | zero => intro file line s c; trivial
  | succ f ih =>
    intro file line s c
    have h0 : ReadsTo ⟨c, file, line⟩ (advance file line) := readsTo_advance ⟨c, file, line⟩
    unfold scanLoopAt
    generalize advance file line = c0 at h0 ⊢
    have h1 : ReadsTo ⟨c, file, line⟩ (skipWhiteSpaces c0) :=
      h0.trans (readsTo_skipWhiteSpaces c0)
    dsimp only
    generalize skipWhiteSpaces c0 = c1 at h1 ⊢
    have h2 : ReadsTo ⟨c, file, line⟩ (skipWhiteSpaces (advance c1.file c1.line)) :=
      h1.trans ((readsTo_advance c1).trans (readsTo_skipWhiteSpaces _))
    generalize skipWhiteSpaces (advance c1.file c1.line) = c2 at h2 ⊢
    have hrec : ∀ a : Cursor × List (List Int),
        ReadsOn a.1 (fun r => r.1) (scanLoopAt MAX f a.1.file a.1.line a.2) :=
      fun a => ih a.1.file a.1.line a.2 a.1.character
    by_cases e0 : c0.character = EOF
    · rw [if_pos e0]; exact h0
    · rw [if_neg e0]
      by_cases e1 : c1.character = EOF
      · rw [if_pos e1]; exact h1
      · rw [if_neg e1]
        by_cases e2 : c1.character ≠ 60
        · rw [if_pos e2]; exact h1
        · rw [if_neg e2]
          by_cases e3 : isLetter c2.character = 0 ∧ c2.character ≠ 47
          · rw [if_pos e3]; exact h2
          · rw [if_neg e3]
            by_cases e4 : c2.character = 47
            · rw [if_pos e4]
              exact readsOn_from h2 (readsOn_bind (readsOn_handleClosingTagAt c2 s) hrec)
            · rw [if_neg e4]
              by_cases e5 : isLetter c2.character = 0
              · rw [if_pos e5]; exact h2
              · rw [if_neg e5]
                exact readsOn_from h2 (readsOn_bind (readsOn_handleOpeningTagAt MAX c2 s) hrec)

/-- Where the scan stops the process, the line counter is 1 plus the number of
newlines of the part of the file that has been read. -/
theorem performLexicalAnalysisAt_error (MAX : Nat) (file : List Int) (c : Cursor)
    (h : performLexicalAnalysisAt MAX file = .error c) :
    ∃ p, file = p ++ c.file ∧ c.line = 1 + p.count 10 := by
  have hs := readsOn_scanLoopAt MAX (file.length + 1) file 1 StackCreate 0
  unfold performLexicalAnalysisAt at h
  cases hr : scanLoopAt MAX (file.length + 1) file 1 StackCreate with
  | ok r =>
    rw [hr] at h hs
    simp only [Located.bind] at h
    split_ifs at h
    simp only [Located.error.injEq] at h
    rw [← h]
    exact hs
  | error c' =>
    rw [hr] at h hs
    simp only [Located.bind, Located.error.injEq] at h
    rw [← h]
    exact hs
  | undefined => rw [hr] at h; simp [Located.bind] at h
  | outOfFuel => rw [hr] at h; simp [Located.bind] at h


/-- C13: line tracking. `readChar` consumes at most the first character of the
input and adds to the counter the number of newlines in what it consumed;
every read and every loop over the input moves the counter by the number of
newlines of what it reads; wherever a handler returns or stops the process,
the counter is the one it was entered with plus the number of newlines of
what it has read, and the line it prints is that counter; so it is wherever
the loop of the driver is left or stops the process. The counter starts at 1:
whenever the scan of `file` fails with line `l`, the process is stopped
with a part `p` of the file read and the rest unread, and `l` is 1 plus the
number of newlines of `p`; the scan of `k` newlines followed by `x` reports
line `k + 1`. -/
theorem line_counter_tracks (MAX : Nat) (file : List Int) :
    (∀ (f : List Int) (line : Nat),
      f = f.take 1 ++ (readChar f line).2.1 ∧
      (readChar f line).2.2 = line + (f.take 1).count 10) ∧
    (∀ cur : Cursor,
      ReadsTo cur (advance cur.file cur.line) ∧ ReadsTo cur (skipWhiteSpaces cur) ∧
      ReadsTo cur (readLetters cur).2 ∧ ReadsTo cur (readAttributes cur).2) ∧
    (∀ (cur : Cursor) (s : List (List Int)),
      ReadsOn cur (fun r => r.1) (handleClosingTagAt cur s) ∧
      (handleClosingTagAt cur s).toResult id = handleClosingTag cur s ∧
      ReadsOn cur (fun r => r.1) (handleOpeningTagAt MAX cur s) ∧
      (handleOpeningTagAt MAX cur s).toResult id = handleOpeningTag MAX cur s) ∧
    (∀ (f line : Nat) (s : List (List Int)) (c : Int),
      ReadsOn ⟨c, file, line⟩ (fun r => r.1) (scanLoopAt MAX f file line s) ∧
      (scanLoopAt MAX f file line s).toResult (fun r => (r.1.line, r.2))
        = scanLoop MAX f file line s) ∧
    (performLexicalAnalysisAt MAX file).toResult id = performLexicalAnalysis MAX file ∧
    (∀ l, performLexicalAnalysis MAX file = .error l →
      ∃ c p, performLexicalAnalysisAt MAX file = .error c ∧ file = p ++ c.file ∧
        c.line = l ∧ l = 1 + p.count 10) ∧
    (∀ k, performLexicalAnalysis MAX (List.replicate k 10 ++ [120]) = .error (k + 1)) := by
  refine ⟨?_, fun cur => ⟨readsTo_advance cur, readsTo_skipWhiteSpaces cur,
      readsTo_readLetters cur, readsTo_readAttributes cur⟩,
    fun cur s => ⟨readsOn_handleClosingTagAt cur s, handleClosingTagAt_toResult cur s,
      readsOn_handleOpeningTagAt MAX cur s, handleOpeningTagAt_toResult MAX cur s⟩,
    fun f line s c => ⟨readsOn_scanLoopAt MAX f file line s c,
      scanLoopAt_toResult MAX f file line s⟩,
    performLexicalAnalysisAt_toResult MAX file, fun l h => ?_, ?_⟩
  · intro f line
    cases f with
    | nil => simp [readChar]
    | cons c rest =>
      refine ⟨by simp [readChar], ?_⟩
      have h := count_newline_cons c [] line
      simpa [readChar] using h
  · rw [← performLexicalAnalysisAt_toResult] at h
    cases hr : performLexicalAnalysisAt MAX file with
    | ok st => rw [hr] at h; simp [Located.toResult] at h
    | error c =>
      rw [hr] at h
      simp only [Located.toResult, Result.error.injEq] at h
      obtain ⟨p, hp, hl⟩ := performLexicalAnalysisAt_error MAX file c hr
      exact ⟨c, p, rfl, hp, h, by rw [← h, hl]⟩
    | undefined => rw [hr] at h; simp [Located.toResult] at h
    | outOfFuel => rw [hr] at h; simp [Located.toResult] at h
  · intro k
    unfold performLexicalAnalysis
    rw [scanLoop_blank MAX _ _ (isBlank_replicate_newline k),
      scanLoop_unexpected MAX _ 120 [] _ _ (by decide) (by decide) (by decide)]
    simp [Result.bind, StackIsEmpty, StackCreate, List.count_replicate_self, Nat.add_comm]

/-- C13 at a document whose third line closes `a` by `b` and that goes on for
two lines: line 3 is reported, with the last two newlines unread; and at three
newlines followed by `x`. -/
theorem line_counter_tracks_witness :
    performLexicalAnalysis 0 (chars "\n<a>\n</b>\n\n") = .error 3 ∧
    performLexicalAnalysisAt 0 (chars "\n<a>\n</b>\n\n") = .error ⟨62, chars "\n\n", 3⟩ ∧
    (∃ c p, performLexicalAnalysisAt 0 (chars "\n<a>\n</b>\n\n") = .error c ∧
      chars "\n<a>\n</b>\n\n" = p ++ c.file ∧ c.line = 3 ∧ 3 = 1 + p.count 10) ∧
    performLexicalAnalysis 0 (chars "\n\n\nx") = .error 4 :=
  ⟨by decide, rfl,
   (line_counter_tracks 0 (chars "\n<a>\n</b>\n\n")).2.2.2.2.2.1 3 (by decide),
   (line_counter_tracks 0 []).2.2.2.2.2.2 3⟩

end Scanner

/-! # Properties of the containers -/

namespace DataStructure

/-! ## The loops over the list of a map -/

theorem containsKeyFrom_eq_zero_or_one (l : List Node) (key : String) :
    containsKeyFrom l key = 0 ∨ containsKeyFrom l key = 1 := by
  induction l with
  | nil => exact Or.inl rfl
  | cons n l ih =>
    unfold containsKeyFrom
    split_ifs
    · exact Or.inr rfl
    · exact ih

theorem containsKeyFrom_eq_one_iff (l : List Node) (key : String) :
    containsKeyFrom l key = 1 ↔ key ∈ keysOf l := by
  induction l with
  | nil => simp [containsKeyFrom, keysOf]
  | cons n l ih =>
    unfold containsKeyFrom
    by_cases h : n.key = key
    · simp [h, keysOf]
    · rw [if_neg h, ih]
      simp only [keysOf, List.map_cons, List.mem_cons]
      exact ⟨Or.inr, fun h' => h'.resolve_left (fun e => h e.symm)⟩

theorem containsKeyFrom_eq_zero_iff (l : List Node) (key : String) :
    containsKeyFrom l key = 0 ↔ key ∉ keysOf l := by
  rw [← containsKeyFrom_eq_one_iff]
  rcases containsKeyFrom_eq_zero_or_one l key with h | h <;> simp [h]

theorem getFrom_eq_none_iff (l : List Node) (key : String) :
    getFrom l key = none ↔ key ∉ keysOf l := by
  induction l with
  | nil => simp [getFrom, keysOf]
  | cons n l ih =>
    unfold getFrom
    by_cases h : n.key = key
    · simp [h, keysOf]
    · rw [if_neg h, ih]
      simp only [keysOf, List.map_cons, List.mem_cons, not_or]
      exact ⟨fun h' => ⟨fun e => h e.symm, h'⟩, fun h' => h'.2⟩

/-- The update loop finds the key exactly when the search loop does; it keeps
the keys and their order, and the key then reads as the new value. -/
theorem updateFrom_of_mem (l : List Node) (key value : String) (h : key ∈ keysOf l) :
    ∃ l', updateFrom l key value = some l' ∧ keysOf l' = keysOf l ∧
      l'.length = l.length ∧ getFrom l' key = some value := by
  induction l with
  | nil => simp [keysOf] at h
  | cons n l ih =>
    unfold updateFrom
    by_cases hk : n.key = key
    · rw [if_pos hk]
      exact ⟨_, rfl, by simp [keysOf], by simp, by simp [getFrom, hk]⟩
    · rw [if_neg hk]
      have h' : key ∈ keysOf l := by
        simp only [keysOf, List.map_cons, List.mem_cons] at h
        exact h.resolve_left (fun e => hk e.symm)
      obtain ⟨l', e, hkeys, hlen, hget⟩ := ih h'
      refine ⟨n :: l', by rw [e]; rfl, ?_, by simp [hlen], by simp [getFrom, hk, hget]⟩
      simp only [keysOf, List.map_cons] at hkeys ⊢
      rw [hkeys]

theorem updateFrom_of_not_mem (l : List Node) (key value : String) (h : key ∉ keysOf l) :
    updateFrom l key value = none := by
  induction l with
  | nil => rfl
  | cons n l ih =>
    simp only [keysOf, List.map_cons, List.mem_cons, not_or] at h
    unfold updateFrom
    rw [if_neg (fun e => h.1 e.symm), ih h.2]
    rfl

/-- The values held under the other keys are not touched by the update loop. -/
theorem getFrom_updateFrom_ne (l l' : List Node) (key value other : String)
    (hne : other ≠ key) (h : updateFrom l key value = some l') :
    getFrom l' other = getFrom l other := by
  induction l generalizing l' with
  | nil => simp [updateFrom] at h
  | cons n l ih =>
    unfold updateFrom at h
    by_cases hk : n.key = key
    · rw [if_pos hk] at h
      simp only [Option.some.injEq] at h
      subst h
      have : ¬ n.key = other := fun e => hne (e ▸ hk)
      simp [getFrom, this]
    · rw [if_neg hk] at h
      cases hu : updateFrom l key value with
      | none => rw [hu] at h; simp at h
      | some l'' =>
        rw [hu] at h
        simp only [Option.map_some', Option.some.injEq] at h
        subst h
        simp [getFrom, ih l'' hu]

/-- The removal loop finds the key exactly when the search loop does. -/
theorem removeAfter_eq_none_iff (l : List Node) (key : String) :
    removeAfter l key = none ↔ key ∉ keysOf l := by
  induction l with
  | nil => simp [removeAfter, keysOf]
  | cons n l ih =>
    unfold removeAfter
    by_cases h : n.key = key
    · simp [h, keysOf]
    · rw [if_neg h]
      simp only [Option.map_eq_none', ih, keysOf, List.map_cons, List.mem_cons, not_or]
      exact ⟨fun h' => ⟨fun e => h e.symm, h'⟩, fun h' => h'.2⟩

/-- The removal loop unlinks one node: the first one that holds the key. -/
theorem removeAfter_some (l l' : List Node) (key : String) (h : removeAfter l key = some l') :
    l'.length + 1 = l.length ∧ keysOf l' = (keysOf l).erase key ∧
      ∃ l₁ n l₂, l = l₁ ++ n :: l₂ ∧ l' = l₁ ++ l₂ ∧ n.key = key ∧ key ∉ keysOf l₁ := by
  induction l generalizing l' with
  | nil => simp [removeAfter] at h
  | cons n l ih =>
    unfold removeAfter at h
    by_cases hk : n.key = key
    · rw [if_pos hk] at h
      simp only [Option.some.injEq] at h
      subst h
      exact ⟨rfl, by simp [keysOf, hk], [], n, l, rfl, rfl, hk, by simp [keysOf]⟩
    · rw [if_neg hk] at h
      cases hu : removeAfter l key with
      | none => rw [hu] at h; simp at h
      | some l'' =>
        rw [hu] at h
        simp only [Option.map_some', Option.some.injEq] at h
        subst h
        obtain ⟨hlen, hkeys, l₁, x, l₂, e₁, e₂, hx, hl₁⟩ := ih l'' hu
        refine ⟨by simp [hlen], ?_, n :: l₁, x, l₂, by simp [e₁], by simp [e₂], hx, ?_⟩
        · simp only [keysOf, List.map_cons] at hkeys ⊢
          rw [List.erase_cons_tail (by simpa using hk), hkeys]
        · simp only [keysOf, List.map_cons, List.mem_cons, not_or]
          exact ⟨fun e => hk e.symm, hl₁⟩

/-! ## `HashMapPut` -/

/-- C15: `HashMapPut` of a new key. For every map `m`, every key `k` that
`HashMapContainsKey` does not find in `m` and every value `v`,
`HashMapPut(m, k, v)` returns 1, `HashMapSize` afterwards is one more than
before, and `HashMapGet(m, k)` afterwards is a string equal to `v`. -/
theorem HashMapPut_new_key (m : HashMap) (k v : String)
    (hk : HashMapContainsKey (some m) (some k) = 0) :
    (HashMapPut (some m) (some k) (some v)).1 = 1 ∧
    HashMapSize (HashMapPut (some m) (some k) (some v)).2 = HashMapSize (some m) + 1 ∧
    HashMapGet (HashMapPut (some m) (some k) (some v)).2 (some k) = some v := by
  have e : HashMapPut (some m) (some k) (some v) = (1, some ⟨m.size + 1, ⟨k, v⟩ :: m.head⟩) := by
    simp only [HashMapPut, hk]
    rfl
  rw [e]
  exact ⟨rfl, rfl, by simp [HashMapGet, getFrom]⟩

/-- C15 at the first call of the test `test_put_and_get`, and at a second key. -/
theorem HashMapPut_new_key_witness :
    (HashMapPut HashMapNew (some "key1") (some "value1")).1 = 1 ∧
    HashMapSize (HashMapPut HashMapNew (some "key1") (some "value1")).2
      = HashMapSize HashMapNew + 1 ∧
    HashMapGet (HashMapPut HashMapNew (some "key1") (some "value1")).2 (some "key1")
      = some "value1" :=
  HashMapPut_new_key ⟨0, []⟩ "key1" "value1" (by decide)

/-- C16: `HashMapPut` of an existing key updates in place. For every map `m`
in which `HashMapContainsKey` finds the key `k` and every value `v`,
`HashMapPut(m, k, v)` returns 0, `HashMapSize` is unchanged, the keys and
their order are unchanged, and `HashMapGet(m, k)` afterwards is a string equal
to `v`. -/
theorem HashMapPut_existing_key (m : HashMap) (k v : String)
    (hk : HashMapContainsKey (some m) (some k) = 1) :
    (HashMapPut (some m) (some k) (some v)).1 = 0 ∧
    HashMapSize (HashMapPut (some m) (some k) (some v)).2 = HashMapSize (some m) ∧
    HashMapGet (HashMapPut (some m) (some k) (some v)).2 (some k) = some v ∧
    ∃ m', (HashMapPut (some m) (some k) (some v)).2 = some m' ∧
      keysOf m'.head = keysOf m.head := by
  have hmem : k ∈ keysOf m.head := (containsKeyFrom_eq_one_iff m.head k).mp hk
  obtain ⟨l', e, hkeys, _, hget⟩ := updateFrom_of_mem m.head k v hmem
  have e' : HashMapPut (some m) (some k) (some v) = (0, some ⟨m.size, l'⟩) := by
    simp only [HashMapPut, hk, e]
    rfl
  rw [e']
  exact ⟨rfl, rfl, by simpa [HashMapGet] using hget, _, rfl, hkeys⟩

/-- C16 at the update of the test `test_put_and_get`. -/
theorem HashMapPut_existing_key_witness :
    (HashMapPut (some ⟨1, [⟨"key1", "value1"⟩]⟩) (some "key1") (some "new_value")).1 = 0 ∧
    HashMapSize (HashMapPut (some ⟨1, [⟨"key1", "value1"⟩]⟩) (some "key1")
      (some "new_value")).2 = 1 ∧
    HashMapGet (HashMapPut (some ⟨1, [⟨"key1", "value1"⟩]⟩) (some "key1")
      (some "new_value")).2 (some "key1") = some "new_value" :=
  ⟨(HashMapPut_existing_key ⟨1, [⟨"key1", "value1"⟩]⟩ "key1" "new_value" (by decide)).1,
   (HashMapPut_existing_key ⟨1, [⟨"key1", "value1"⟩]⟩ "key1" "new_value" (by decide)).2.1,
   (HashMapPut_existing_key ⟨1, [⟨"key1", "value1"⟩]⟩ "key1" "new_value" (by decide)).2.2.1⟩


/-! ## `HashMapRemove` -/

/-- On a map that holds a node, `HashMapRemove` is the removal loop run from
the head of the list. -/
theorem HashMapRemove_of_ne_nil (m : HashMap) (k : String) (h : m.head ≠ []) :
    HashMapRemove (some m) (some k)
      = match removeAfter m.head k with
        | some l => some (1, some ⟨m.size - 1, l⟩)
        | none => some (0, some m) := by
  obtain ⟨size, head⟩ := m
  cases head with
  | nil => exact absurd rfl h
  | cons n l =>
    simp only [HashMapRemove, removeAfter]
    by_cases hk : n.key = k
    · simp [hk]
    · simp only [if_neg hk]
      cases removeAfter l k <;> rfl

theorem invariant_put (m m' : HashMap) (key value : Option String) (r : Int)
    (hm : Invariant m) (h : HashMapPut (some m) key value = (r, some m')) : Invariant m' := by
  cases key with
  | none =>
    simp only [HashMapPut, Prod.mk.injEq, Option.some.injEq] at h
    rw [← h.2]; exact hm
  | some k =>
    cases value with
    | none =>
      simp only [HashMapPut, Prod.mk.injEq, Option.some.injEq] at h
      rw [← h.2]; exact hm
    | some v =>
      rcases containsKeyFrom_eq_zero_or_one m.head k with hk | hk
      · have hk' : HashMapContainsKey (some m) (some k) = 0 := hk
        have hnot := (containsKeyFrom_eq_zero_iff m.head k).mp hk
        simp only [HashMapPut, hk'] at h
        simp only [ne_eq, not_true_eq_false, if_false, Prod.mk.injEq, Option.some.injEq] at h
        rw [← h.2]
        refine ⟨?_, ?_⟩
        · simp only [keysOf, List.map_cons]
          exact List.nodup_cons.mpr ⟨hnot, hm.1⟩
        · simp only [List.length_cons, Nat.cast_add, Nat.cast_one, hm.2]
      · have hk' : HashMapContainsKey (some m) (some k) = 1 := hk
        obtain ⟨l', e, hkeys, hlen, _⟩ :=
          updateFrom_of_mem m.head k v ((containsKeyFrom_eq_one_iff m.head k).mp hk)
        simp only [HashMapPut, hk', e] at h
        simp only [ne_eq, one_ne_zero, not_false_eq_true, if_true, Prod.mk.injEq,
          Option.some.injEq] at h
        rw [← h.2]
        exact ⟨by rw [show keysOf l' = keysOf m.head from hkeys]; exact hm.1,
          by simp only [hlen, hm.2]⟩

theorem invariant_remove (m m' : HashMap) (key : Option String) (r : Int)
    (hm : Invariant m) (h : HashMapRemove (some m) key = some (r, some m')) : Invariant m' := by
  cases key with
  | none =>
    simp only [HashMapRemove, Option.some.injEq, Prod.mk.injEq] at h
    rw [← h.2]; exact hm
  | some k =>
    by_cases hne : m.head = []
    · simp [HashMapRemove, hne] at h
    · rw [HashMapRemove_of_ne_nil m k hne] at h
      cases hr : removeAfter m.head k with
      | none =>
        rw [hr] at h
        simp only [Option.some.injEq, Prod.mk.injEq] at h
        rw [← h.2]; exact hm
      | some l =>
        rw [hr] at h
        simp only [Option.some.injEq, Prod.mk.injEq] at h
        obtain ⟨hlen, hkeys, _⟩ := removeAfter_some m.head l k hr
        rw [← h.2]
        refine ⟨?_, ?_⟩
        · rw [show keysOf l = (keysOf m.head).erase k from hkeys]
          exact hm.1.erase k
        · have h2 := hm.2
          simp only [← hlen, Nat.cast_add, Nat.cast_one] at h2
          simp only [h2]
          omega

/-- Every map built from `HashMapNew` holds pairwise distinct keys, and its
`size` is the number of its nodes. -/
theorem invariant_of_built (m : HashMap) (h : Built m) : Invariant m := by
  induction h with
  | new m e =>
    simp only [HashMapNew, Option.some.injEq] at e
    subst e
    exact ⟨List.nodup_nil, rfl⟩
  | put m m' key value r _ e ih => exact invariant_put m m' key value r ih e
  | remove m m' key r _ e ih => exact invariant_remove m m' key r ih e

/-- C17: `HashMapRemove` of a present key. For every map `m` built from
`HashMapNew` by `HashMapPut` and `HashMapRemove` and every key `k` that
`HashMapContainsKey` finds in `m`, `HashMapRemove(m, k)` returns 1,
`HashMapSize` afterwards is one less than before, and afterwards
`HashMapGet(m, k)` is `NULL` and `HashMapContainsKey(m, k)` is 0. -/
theorem HashMapRemove_present (m : HashMap) (k : String) (hb : Built m)
    (hk : HashMapContainsKey (some m) (some k) = 1) :
    ∃ m', HashMapRemove (some m) (some k) = some (1, some m') ∧
      HashMapSize (some m') = HashMapSize (some m) - 1 ∧
      HashMapGet (some m') (some k) = none ∧
      HashMapContainsKey (some m') (some k) = 0 := by
  have hmem : k ∈ keysOf m.head := (containsKeyFrom_eq_one_iff m.head k).mp hk
  have hne : m.head ≠ [] := by
    intro e; rw [e] at hmem; simp [keysOf] at hmem
  have hinv := invariant_of_built m hb
  cases hr : removeAfter m.head k with
  | none => exact absurd hmem ((removeAfter_eq_none_iff m.head k).mp hr)
  | some l =>
    obtain ⟨_, hkeys, _⟩ := removeAfter_some m.head l k hr
    have hnot : k ∉ keysOf l := by
      rw [hkeys]
      exact fun h => (hinv.1.mem_erase_iff.mp h).1 rfl
    refine ⟨⟨m.size - 1, l⟩, ?_, rfl, ?_, ?_⟩
    · rw [HashMapRemove_of_ne_nil m k hne, hr]
    · exact (getFrom_eq_none_iff l k).mpr hnot
    · exact (containsKeyFrom_eq_zero_iff l k).mpr hnot

/-- The map of the test `test_remove` is built from `HashMapNew`. -/
theorem built_two_keys : Built ⟨2, [⟨"key2", "value2"⟩, ⟨"key1", "value1"⟩]⟩ :=
  Built.put ⟨1, [⟨"key1", "value1"⟩]⟩ _ (some "key2") (some "value2") 1
    (Built.put ⟨0, []⟩ _ (some "key1") (some "value1") 1 (Built.new _ rfl) (by decide))
    (by decide)

/-- C17 at the test `test_remove`: `key1` is removed from the map that holds
`key2` and `key1`. -/
theorem HashMapRemove_present_witness :
    ∃ m', HashMapRemove (some ⟨2, [⟨"key2", "value2"⟩, ⟨"key1", "value1"⟩]⟩) (some "key1")
        = some (1, some m') ∧
      HashMapSize (some m') = 2 - 1 ∧
      HashMapGet (some m') (some "key1") = none ∧
      HashMapContainsKey (some m') (some "key1") = 0 :=
  HashMapRemove_present ⟨2, [⟨"key2", "value2"⟩, ⟨"key1", "value1"⟩]⟩ "key1" built_two_keys
    (by decide)

/-- C18 (the code departs from it): `HashMapRemove` of an absent key is not
safe on the empty map. For every key `k` that `HashMapContainsKey` does not
find in the map `m`: when `m` holds no node, as the map returned by
`HashMapNew` does, `HashMapRemove(m, k)` reads `current->key` with `current`
being `NULL`; when `m` holds a node, it returns 0 and leaves the map (nodes,
order and size) as it was. -/
theorem HashMapRemove_absent (m : HashMap) (k : String)
    (hk : HashMapContainsKey (some m) (some k) = 0) :
    (m.head = [] → HashMapRemove (some m) (some k) = none) ∧
    (m.head ≠ [] → HashMapRemove (some m) (some k) = some (0, some m)) := by
  refine ⟨fun h => ?_, fun h => ?_⟩
  · simp [HashMapRemove, h]
  · rw [HashMapRemove_of_ne_nil m k h,
      (removeAfter_eq_none_iff m.head k).mpr ((containsKeyFrom_eq_zero_iff m.head k).mp hk)]

/-- C18 at `HashMapRemove(HashMapNew(), "k")`, an invalid access, and at the
removal of `nonexistent` in the test `test_remove`. -/
theorem HashMapRemove_absent_witness :
    HashMapRemove HashMapNew (some "k") = none ∧
    HashMapRemove (some ⟨1, [⟨"key2", "value2"⟩]⟩) (some "nonexistent")
      = some (0, some ⟨1, [⟨"key2", "value2"⟩]⟩) :=
  ⟨(HashMapRemove_absent ⟨0, []⟩ "k" (by decide)).1 rfl,
   (HashMapRemove_absent ⟨1, [⟨"key2", "value2"⟩]⟩ "nonexistent" (by decide)).2 (by decide)⟩


/-! ## `TreeAddChild` and `TreeRemoveChild` -/

/-- The walk to the last node and the link made there append the child. -/
theorem linkLast_eq_append (l : List Tree) (child : Tree) : linkLast l child = l ++ [child] := by
  induction l with
  | nil => rfl
  | cons c l ih =>
    cases l with
    | nil => rfl
    | cons next rest =>
      simp only [linkLast, List.cons_append, List.cons.injEq, true_and]
      exact ih

theorem Tree.withChildren_self (t : Tree) : t.withChildren t.children = t := by
  cases t; rfl

/-- C19: `TreeAddChild` appends. For every parent and every child that is not
`NULL`, `TreeAddChild(parent, child)` returns 1 and the list of children of
the parent becomes the former list followed by the child, the other fields of
the parent being unchanged, so that `TreeIsLeaf(parent)` is 0 afterwards; when
the parent or the child is `NULL` it returns -1 and the parent is unchanged. -/
theorem TreeAddChild_appends (parent child : Tree) :
    TreeAddChild (some parent) (some child)
      = (1, some (parent.withChildren (parent.children ++ [child]))) ∧
    TreeIsLeaf (TreeAddChild (some parent) (some child)).2 = 0 ∧
    TreeAddChild (some parent) none = (-1, some parent) ∧
    TreeAddChild none (some child) = (-1, none) ∧
    TreeAddChild none none = (-1, none) := by
  have e : TreeAddChild (some parent) (some child)
      = (1, some (parent.withChildren (parent.children ++ [child]))) := by
    simp only [TreeAddChild, linkLast_eq_append]
  refine ⟨e, ?_, rfl, rfl, rfl⟩
  rw [e]
  simp only [TreeIsLeaf, Tree.withChildren]
  cases parent.children <;> rfl

/-- The removal loop on a list whose first child with the identifier is a
leaf: that child is unlinked. -/
theorem removeChildFrom_leaf (l₁ l₂ : List Tree) (c : Tree) (id : String)
    (h₁ : ∀ x ∈ l₁, ∃ i, x.id = some i ∧ i ≠ id) (hc : c.id = some id)
    (hleaf : c.children = []) :
    removeChildFrom (l₁ ++ c :: l₂) id = some (1, l₁ ++ l₂) := by
  induction l₁ with
  | nil =>
    simp only [List.nil_append, removeChildFrom, hc, TreeIsLeaf, hleaf]
    simp
  | cons x l₁ ih =>
    obtain ⟨i, hi, hne⟩ := h₁ x (List.mem_cons_self _ _)
    have ih' := ih (fun y hy => h₁ y (List.mem_cons_of_mem _ hy))
    rw [List.cons_append, removeChildFrom]
    simp only [hi, if_neg hne, ih']
    rfl

/-- The removal loop on a list whose first child with the identifier has
children: nothing is unlinked. -/
theorem removeChildFrom_inner (l₁ l₂ : List Tree) (c : Tree) (id : String)
    (h₁ : ∀ x ∈ l₁, ∃ i, x.id = some i ∧ i ≠ id) (hc : c.id = some id)
    (hinner : c.children ≠ []) :
    removeChildFrom (l₁ ++ c :: l₂) id = some (-1, l₁ ++ c :: l₂) := by
  induction l₁ with
  | nil =>
    obtain ⟨y, ys, hy⟩ := List.exists_cons_of_ne_nil hinner
    simp only [List.nil_append, removeChildFrom, hc, TreeIsLeaf, hy]
    simp
  | cons x l₁ ih =>
    obtain ⟨i, hi, hne⟩ := h₁ x (List.mem_cons_self _ _)
    have ih' := ih (fun y hy => h₁ y (List.mem_cons_of_mem _ hy))
    rw [List.cons_append, removeChildFrom]
    simp only [hi, if_neg hne, ih']
    rfl

/-- The removal loop on a list without a child of the identifier: nothing is
unlinked. -/
theorem removeChildFrom_absent (l : List Tree) (id : String)
    (h : ∀ x ∈ l, ∃ i, x.id = some i ∧ i ≠ id) :
    removeChildFrom l id = some (-1, l) := by
  induction l with
  | nil => rfl
  | cons x l ih =>
    obtain ⟨i, hi, hne⟩ := h x (List.mem_cons_self _ _)
    have ih' := ih (fun y hy => h y (List.mem_cons_of_mem _ hy))
    simp only [removeChildFrom, hi, if_neg hne, ih']
    rfl

/-- C20: `TreeRemoveChild(parent, id)`. Let the children of the parent that
the loop compares with `id` carry identifiers (their `id` is not `NULL`).
If the first child whose identifier equals `id` is a leaf, the call returns 1
and that child is removed from the list of children, the other children and
their order, and the other fields of the parent, being unchanged; if that
child has children of its own, or if no child has the identifier, the call
returns -1 and the parent is unchanged. -/
theorem TreeRemoveChild_first_match (parent : Tree) (id : String) (l₁ l₂ : List Tree)
    (c : Tree) (h₁ : ∀ x ∈ l₁, ∃ i, x.id = some i ∧ i ≠ id) :
    (parent.children = l₁ ++ c :: l₂ → c.id = some id → TreeIsLeaf (some c) = 1 →
      TreeRemoveChild (some parent) (some id)
        = some (1, some (parent.withChildren (l₁ ++ l₂)))) ∧
    (parent.children = l₁ ++ c :: l₂ → c.id = some id → TreeIsLeaf (some c) = 0 →
      TreeRemoveChild (some parent) (some id) = some (-1, some parent)) ∧
    (parent.children = l₁ →
      TreeRemoveChild (some parent) (some id) = some (-1, some parent)) := by
  refine ⟨fun hp hc hleaf => ?_, fun hp hc hinner => ?_, fun hp => ?_⟩
  · have hl : c.children = [] := by
      cases hch : c.children with
      | nil => rfl
      | cons y ys => simp [TreeIsLeaf, hch] at hleaf
    simp only [TreeRemoveChild, hp, removeChildFrom_leaf l₁ l₂ c id h₁ hc hl]
    rfl
  · have hl : c.children ≠ [] := by
      intro hch
      simp [TreeIsLeaf, hch] at hinner
    simp only [TreeRemoveChild, hp, removeChildFrom_inner l₁ l₂ c id h₁ hc hl]
    simp only [Option.map_some', ← hp, Tree.withChildren_self]
  · simp only [TreeRemoveChild, hp, removeChildFrom_absent l₁ id h₁]
    simp only [Option.map_some', ← hp, Tree.withChildren_self]

/-- C20 on a box `root` whose children are the leaf `a`, and `b`, parent of
`c`: the removal of `a` leaves `b`; the removal of `b` and the removal of
`d` return -1 and leave the box as it was. -/
theorem TreeRemoveChild_first_match_witness :
    TreeRemoveChild
        (some ⟨1, .box, some "root", 0, none,
          [⟨2, .label, some "a", 0, none, []⟩,
           ⟨3, .box, some "b", 0, none, [⟨4, .button, some "c", 0, none, []⟩]⟩]⟩)
        (some "a")
      = some (1, some ⟨1, .box, some "root", 0, none,
          [⟨3, .box, some "b", 0, none, [⟨4, .button, some "c", 0, none, []⟩]⟩]⟩) ∧
    TreeRemoveChild
        (some ⟨1, .box, some "root", 0, none,
          [⟨2, .label, some "a", 0, none, []⟩,
           ⟨3, .box, some "b", 0, none, [⟨4, .button, some "c", 0, none, []⟩]⟩]⟩)
        (some "b")
      = some (-1, some ⟨1, .box, some "root", 0, none,
          [⟨2, .label, some "a", 0, none, []⟩,
           ⟨3, .box, some "b", 0, none, [⟨4, .button, some "c", 0, none, []⟩]⟩]⟩) ∧
    TreeRemoveChild
        (some ⟨1, .box, some "root", 0, none,
          [⟨2, .label, some "a", 0, none, []⟩,
           ⟨3, .box, some "b", 0, none, [⟨4, .button, some "c", 0, none, []⟩]⟩]⟩)
        (some "d")
      = some (-1, some ⟨1, .box, some "root", 0, none,
          [⟨2, .label, some "a", 0, none, []⟩,
           ⟨3, .box, some "b", 0, none, [⟨4, .button, some "c", 0, none, []⟩]⟩]⟩) :=
  ⟨(TreeRemoveChild_first_match
      ⟨1, .box, some "root", 0, none,
        [⟨2, .label, some "a", 0, none, []⟩,
         ⟨3, .box, some "b", 0, none, [⟨4, .button, some "c", 0, none, []⟩]⟩]⟩
      "a" [] [⟨3, .box, some "b", 0, none, [⟨4, .button, some "c", 0, none, []⟩]⟩]
      ⟨2, .label, some "a", 0, none, []⟩ (by simp)).1 rfl rfl rfl,
   (TreeRemoveChild_first_match
      ⟨1, .box, some "root", 0, none,
        [⟨2, .label, some "a", 0, none, []⟩,
         ⟨3, .box, some "b", 0, none, [⟨4, .button, some "c", 0, none, []⟩]⟩]⟩
      "b" [⟨2, .label, some "a", 0, none, []⟩] []
      ⟨3, .box, some "b", 0, none, [⟨4, .button, some "c", 0, none, []⟩]⟩
      (by simp)).2.1 rfl rfl rfl,
   (TreeRemoveChild_first_match
      ⟨1, .box, some "root", 0, none,
        [⟨2, .label, some "a", 0, none, []⟩,
         ⟨3, .box, some "b", 0, none, [⟨4, .button, some "c", 0, none, []⟩]⟩]⟩
      "d"
      [⟨2, .label, some "a", 0, none, []⟩,
       ⟨3, .box, some "b", 0, none, [⟨4, .button, some "c", 0, none, []⟩]⟩] []
      ⟨0, .box, none, 0, none, []⟩ (by simp)).2.2 rfl⟩


/-! ## `TreeGetNode` -/

theorem preorder_eq (t : Tree) : preorder t = t :: preorderList t.children := by
  cases t; simp [preorder]

theorem getNodeIn_eq (t : Tree) (id : String) :
    getNodeIn t id
      = match t.id with
        | none => none
        | some pid => if pid = id then some (some t) else getNodeFrom t.children id := by
  cases t; simp [getNodeIn]

theorem mem_preorder_self (t : Tree) : t ∈ preorder t := by
  rw [preorder_eq]; exact List.mem_cons_self _ _

mutual
/-- On a tree whose nodes all carry an identifier, `TreeGetNode` returns the
first node in pre-order that has the identifier, `NULL` when there is none. -/
theorem getNodeIn_find : ∀ (t : Tree) (id : String), (∀ n ∈ preorder t, n.id ≠ none) →
    getNodeIn t id = some ((preorder t).find? (Tree.hasId id))
  | ⟨addr, type, pid, widget, attributes, children⟩, id, h => by
    have hl : ∀ n ∈ preorderList children, n.id ≠ none := fun n hn =>
      h n (by rw [preorder_eq]; exact List.mem_cons_of_mem _ hn)
    have hroot := h _ (mem_preorder_self _)
    rw [getNodeIn_eq, preorder_eq]
    cases pid with
    | none => exact absurd rfl hroot
    | some p =>
      by_cases hp : p = id
      · simp [Tree.hasId, hp]
      · have ih := getNodeFrom_find children id hl
        simp [Tree.hasId, hp, ih]
theorem getNodeFrom_find : ∀ (l : List Tree) (id : String),
    (∀ n ∈ preorderList l, n.id ≠ none) →
    getNodeFrom l id = some ((preorderList l).find? (Tree.hasId id))
  | [], _, _ => by simp [getNodeFrom, preorderList]
  | child :: next, id, h => by
    have hc : ∀ n ∈ preorder child, n.id ≠ none := fun n hn =>
      h n (by simp only [preorderList]; exact List.mem_append_left _ hn)
    have hn : ∀ n ∈ preorderList next, n.id ≠ none := fun n hn =>
      h n (by simp only [preorderList]; exact List.mem_append_right _ hn)
    have ih₁ := getNodeIn_find child id hc
    have ih₂ := getNodeFrom_find next id hn
    have hroot := hc _ (mem_preorder_self _)
    simp only [getNodeFrom, preorderList, List.find?_append]
    cases hid : child.id with
    | none => exact absurd hid hroot
    | some cid =>
      by_cases hp : cid = id
      · rw [preorder_eq]
        simp [Tree.hasId, hid, hp]
      · simp only [if_neg hp, ih₁, ih₂]
        cases (preorder child).find? (Tree.hasId id) <;> simp
end


/-- C21: `TreeGetNode(root, id)` searches the whole tree. On a tree whose nodes
all carry an identifier, it returns the first node in pre-order, the root
included, whose identifier equals `id`: a node with that identifier whenever
the tree has one, at any depth, and `NULL` exactly when no node of the tree
has that identifier. -/
theorem TreeGetNode_searches_tree (root : Tree) (id : String) (hid : Identified root) :
    TreeGetNode (some root) (some id) = some ((preorder root).find? (Tree.hasId id)) ∧
    ((∃ n ∈ preorder root, n.id = some id) →
      ∃ n, TreeGetNode (some root) (some id) = some (some n) ∧ n.id = some id ∧
        n ∈ preorder root) ∧
    (TreeGetNode (some root) (some id) = some none ↔ ∀ n ∈ preorder root, n.id ≠ some id) := by
  have e : TreeGetNode (some root) (some id) = some ((preorder root).find? (Tree.hasId id)) :=
    getNodeIn_find root id hid
  refine ⟨e, fun h => ?_, ?_⟩
  · cases hf : (preorder root).find? (Tree.hasId id) with
    | none =>
      obtain ⟨n, hn, hnid⟩ := h
      have := List.find?_eq_none.mp hf n hn
      simp [Tree.hasId, hnid] at this
    | some n =>
      refine ⟨n, by rw [e, hf], ?_, List.mem_of_find?_eq_some hf⟩
      have := List.find?_some hf
      simpa [Tree.hasId] using this
  · rw [e]
    simp only [Option.some.injEq, List.find?_eq_none, Tree.hasId, decide_eq_true_eq]

/-- C21 on the tree of the test `testTreeGetNode`: the root, a direct child
and a grandchild are found, and `invalid` is not. -/
theorem TreeGetNode_searches_tree_witness :
    TreeGetNode
        (some ⟨1, .box, some "root", 0, none,
          [⟨2, .button, some "child", 0, none,
            [⟨3, .label, some "grandchild", 0, none, []⟩]⟩]⟩)
        (some "grandchild")
      = some (some ⟨3, .label, some "grandchild", 0, none, []⟩) ∧
    TreeGetNode
        (some ⟨1, .box, some "root", 0, none,
          [⟨2, .button, some "child", 0, none,
            [⟨3, .label, some "grandchild", 0, none, []⟩]⟩]⟩)
        (some "invalid")
      = some none :=
  ⟨(TreeGetNode_searches_tree
      ⟨1, .box, some "root", 0, none,
        [⟨2, .button, some "child", 0, none, [⟨3, .label, some "grandchild", 0, none, []⟩]⟩]⟩
      "grandchild" (by simp [Identified, preorder, preorderList])).1.trans
      (by simp [preorder, preorderList, Tree.hasId]),
   (TreeGetNode_searches_tree
      ⟨1, .box, some "root", 0, none,
        [⟨2, .button, some "child", 0, none, [⟨3, .label, some "grandchild", 0, none, []⟩]⟩]⟩
      "invalid" (by simp [Identified, preorder, preorderList])).1.trans
      (by simp [preorder, preorderList, Tree.hasId])⟩


/-! ## `TreeGetParent` -/

theorem getParentIn_eq (t : Tree) (tree : Nat) :
    getParentIn t tree = getParentFrom t t.children tree := by
  cases t; simp [getParentIn]

theorem mem_preorderList_of_mem {c : Tree} {l : List Tree} (h : c ∈ l) :
    c ∈ preorderList l := by
  induction l with
  | nil => exact absurd h (List.not_mem_nil _)
  | cons x l ih =>
    simp only [preorderList]
    rcases List.mem_cons.mp h with e | h'
    · subst e; exact List.mem_append_left _ (mem_preorder_self _)
    · exact List.mem_append_right _ (ih h')

mutual
/-- The children of a node of a tree are nodes below the root of the tree. -/
theorem children_mem_preorder : ∀ (x p : Tree), p ∈ preorder x →
    ∀ c ∈ p.children, c ∈ preorderList x.children
  | ⟨addr, type, id, widget, attributes, children⟩, p, hp, c, hc => by
    rw [preorder_eq] at hp
    rcases List.mem_cons.mp hp with e | h
    · subst e; exact mem_preorderList_of_mem hc
    · exact children_mem_preorderList children p h c hc
theorem children_mem_preorderList : ∀ (l : List Tree) (p : Tree), p ∈ preorderList l →
    ∀ c ∈ p.children, c ∈ preorderList l
  | [], p, hp, _, _ => by simp [preorderList] at hp
  | x :: rest, p, hp, c, hc => by
    simp only [preorderList] at hp ⊢
    rcases List.mem_append.mp hp with h | h
    · have := children_mem_preorder x p h c hc
      exact List.mem_append_left _ (by rw [preorder_eq]; exact List.mem_cons_of_mem _ this)
    · exact List.mem_append_right _ (children_mem_preorderList rest p h c hc)
end

mutual
/-- A node of a tree is its root or a child of one of its nodes. -/
theorem parent_of_mem_preorder : ∀ (x n : Tree), n ∈ preorder x →
    n = x ∨ ∃ p ∈ preorder x, n ∈ p.children
  | ⟨addr, type, id, widget, attributes, children⟩, n, hn => by
    rw [preorder_eq] at hn
    rcases List.mem_cons.mp hn with e | h
    · exact Or.inl e
    · right
      rcases parent_of_mem_preorderList children n h with h' | ⟨p, hp, hc⟩
      · exact ⟨_, mem_preorder_self _, h'⟩
      · exact ⟨p, by rw [preorder_eq]; exact List.mem_cons_of_mem _ hp, hc⟩
theorem parent_of_mem_preorderList : ∀ (l : List Tree) (n : Tree), n ∈ preorderList l →
    n ∈ l ∨ ∃ p ∈ preorderList l, n ∈ p.children
  | [], n, hn => by simp [preorderList] at hn
  | x :: rest, n, hn => by
    simp only [preorderList] at hn ⊢
    rcases List.mem_append.mp hn with h | h
    · rcases parent_of_mem_preorder x n h with e | ⟨p, hp, hc⟩
      · exact Or.inl (by rw [e]; exact List.mem_cons_self _ _)
      · exact Or.inr ⟨p, List.mem_append_left _ hp, hc⟩
    · rcases parent_of_mem_preorderList rest n h with h' | ⟨p, hp, hc⟩
      · exact Or.inl (List.mem_cons_of_mem _ h')
      · exact Or.inr ⟨p, List.mem_append_right _ hp, hc⟩
end

mutual
/-- What `TreeGetParent` returns is a node of the tree that has a child at the
address looked for. -/
theorem getParentIn_sound : ∀ (x : Tree) (t : Nat) (p : Tree), getParentIn x t = some p →
    p ∈ preorder x ∧ t ∈ addrsOf p.children
  | ⟨addr, type, id, widget, attributes, children⟩, t, p, h => by
    rw [getParentIn_eq] at h
    rcases getParentFrom_sound _ children t p h with ⟨e, ht⟩ | ⟨hp, ht⟩
    · subst e; exact ⟨mem_preorder_self _, ht⟩
    · exact ⟨by rw [preorder_eq]; exact List.mem_cons_of_mem _ hp, ht⟩
theorem getParentFrom_sound : ∀ (r : Tree) (l : List Tree) (t : Nat) (p : Tree),
    getParentFrom r l t = some p →
    (p = r ∧ t ∈ addrsOf l) ∨ (p ∈ preorderList l ∧ t ∈ addrsOf p.children)
  | _, [], _, _, h => by simp [getParentFrom] at h
  | r, c :: rest, t, p, h => by
    simp only [getParentFrom] at h
    by_cases hc : c.addr = t
    · rw [if_pos hc] at h
      simp only [Option.some.injEq] at h
      exact Or.inl ⟨h.symm, by simp [addrsOf, hc]⟩
    · rw [if_neg hc] at h
      cases hg : getParentIn c t with
      | some q =>
        rw [hg] at h
        simp only [Option.some.injEq] at h
        subst h
        obtain ⟨h1, h2⟩ := getParentIn_sound c t q hg
        exact Or.inr ⟨by simp only [preorderList]; exact List.mem_append_left _ h1, h2⟩
      | none =>
        rw [hg] at h
        rcases getParentFrom_sound r rest t p h with ⟨e, ht⟩ | ⟨hp, ht⟩
        · exact Or.inl ⟨e, by simp only [addrsOf, List.map_cons]; exact List.mem_cons_of_mem _ ht⟩
        · exact Or.inr ⟨by simp only [preorderList]; exact List.mem_append_right _ hp, ht⟩
end

/-- The address of a child of a node of a tree is the address of a node below
the root. -/
theorem child_addr_mem (x p : Tree) (hp : p ∈ preorder x) (t : Nat)
    (ht : t ∈ addrsOf p.children) : t ∈ addrsOf (preorderList x.children) := by
  obtain ⟨c, hc, e⟩ := List.mem_map.mp ht
  exact List.mem_map.mpr ⟨c, children_mem_preorder x p hp c hc, e⟩

theorem child_addr_mem_list (l : List Tree) (p : Tree) (hp : p ∈ preorderList l) (t : Nat)
    (ht : t ∈ addrsOf p.children) : t ∈ addrsOf (preorderList l) := by
  obtain ⟨c, hc, e⟩ := List.mem_map.mp ht
  exact List.mem_map.mpr ⟨c, children_mem_preorderList l p hp c hc, e⟩


theorem addrsOf_preorder (x : Tree) :
    addrsOf (preorder x) = x.addr :: addrsOf (preorderList x.children) := by
  rw [preorder_eq]; rfl

theorem addrsOf_preorderList_cons (c : Tree) (rest : List Tree) :
    addrsOf (preorderList (c :: rest))
      = addrsOf (preorder c) ++ addrsOf (preorderList rest) := by
  simp [preorderList, addrsOf]

/-- `TreeGetParent` returns `NULL` when the address is not the one of a node
below the root. -/
theorem getParentIn_none (x : Tree) (t : Nat) (h : t ∉ addrsOf (preorderList x.children)) :
    getParentIn x t = none := by
  cases hg : getParentIn x t with
  | none => rfl
  | some p =>
    obtain ⟨hp, ht⟩ := getParentIn_sound x t p hg
    exact absurd (child_addr_mem x p hp t ht) h

mutual
/-- In a tree whose nodes are pairwise distinct, `TreeGetParent` returns every
node that has a child at the address looked for. -/
theorem getParentIn_complete : ∀ (x : Tree) (t : Nat), (addrsOf (preorder x)).Nodup →
    ∀ p ∈ preorder x, t ∈ addrsOf p.children → getParentIn x t = some p
  | ⟨addr, type, id, widget, attributes, children⟩, t, hd, p, hp, ht => by
    rw [addrsOf_preorder] at hd
    have hd' := (List.nodup_cons.mp hd).2
    obtain ⟨h1, h2⟩ := getParentFrom_complete ⟨addr, type, id, widget, attributes, children⟩
      children t hd'
    rw [getParentIn_eq]
    rw [preorder_eq] at hp
    rcases List.mem_cons.mp hp with e | h
    · subst e; exact h1 ht
    · exact h2 p h ht
theorem getParentFrom_complete : ∀ (r : Tree) (l : List Tree) (t : Nat),
    (addrsOf (preorderList l)).Nodup →
    (t ∈ addrsOf l → getParentFrom r l t = some r) ∧
    (∀ p ∈ preorderList l, t ∈ addrsOf p.children → getParentFrom r l t = some p)
  | _, [], _, _ => by
    refine ⟨fun h => ?_, fun p hp _ => ?_⟩
    · simp [addrsOf] at h
    · simp [preorderList] at hp
  | r, c :: rest, t, hd => by
    rw [addrsOf_preorderList_cons] at hd
    obtain ⟨hd₁, hd₂, hdis⟩ := List.nodup_append.mp hd
    have hself : c.addr ∈ addrsOf (preorder c) := by
      rw [addrsOf_preorder]; exact List.mem_cons_self _ _
    have hbelow : addrsOf (preorderList c.children) ⊆ addrsOf (preorder c) := by
      rw [addrsOf_preorder]; exact List.subset_cons_self _ _
    obtain ⟨ih₁, ih₂⟩ := getParentFrom_complete r rest t hd₂
    have houtside : t ∈ addrsOf (preorderList rest) →
        c.addr ≠ t ∧ getParentIn c t = none := by
      intro ht
      refine ⟨fun e => hdis hself (e ▸ ht), getParentIn_none c t (fun hin => ?_)⟩
      exact hdis (hbelow hin) ht
    refine ⟨fun ht => ?_, fun p hp ht => ?_⟩
    · simp only [getParentFrom]
      by_cases hc : c.addr = t
      · rw [if_pos hc]
      · have ht' : t ∈ addrsOf rest := by
          simp only [addrsOf, List.map_cons, List.mem_cons] at ht
          exact ht.resolve_left (fun e => hc e.symm)
        obtain ⟨x, hx, e⟩ := List.mem_map.mp ht'
        have hin : t ∈ addrsOf (preorderList rest) :=
          List.mem_map.mpr ⟨x, mem_preorderList_of_mem hx, e⟩
        rw [if_neg hc, (houtside hin).2]
        exact ih₁ ht'
    · simp only [getParentFrom]
      simp only [preorderList] at hp
      rcases List.mem_append.mp hp with h | h
      · have hin := child_addr_mem c p h t ht
        have hc : c.addr ≠ t := by
          intro e
          rw [addrsOf_preorder] at hd₁
          exact (List.nodup_cons.mp hd₁).1 (e ▸ hin)
        rw [if_neg hc, getParentIn_complete c t hd₁ p h ht]
      · have hin := child_addr_mem_list rest p h t ht
        rw [if_neg (houtside hin).1, (houtside hin).2]
        exact ih₂ p h ht
end

/-- C23: `TreeGetParent(root, t)`. In a tree whose nodes are pairwise distinct,
every node that has `t` among its direct children is what the call returns, so
that there is one such node at most; if `t` is a node of the tree other than
the root there is one, and the call returns it; if `t` is the root itself, or
is not a node of the tree, the call returns `NULL`. -/
theorem TreeGetParent_unique (root t : Tree) (hd : DistinctNodes root) :
    (∀ p ∈ preorder root, t.addr ∈ addrsOf p.children →
      TreeGetParent (some root) (some t) = some p) ∧
    (t ∈ preorder root → t.addr ≠ root.addr →
      ∃ p ∈ preorder root, t ∈ p.children ∧ TreeGetParent (some root) (some t) = some p) ∧
    (t.addr = root.addr → TreeGetParent (some root) (some t) = none) ∧
    (t.addr ∉ addrsOf (preorder root) → TreeGetParent (some root) (some t) = none) := by
  have hall : ∀ p ∈ preorder root, t.addr ∈ addrsOf p.children →
      TreeGetParent (some root) (some t) = some p :=
    fun p hp ht => getParentIn_complete root t.addr hd p hp ht
  have hd' : (root.addr :: addrsOf (preorderList root.children)).Nodup := by
    rw [← addrsOf_preorder]; exact hd
  refine ⟨hall, fun hin hne => ?_, fun e => ?_, fun hout => ?_⟩
  · rcases parent_of_mem_preorder root t hin with e | ⟨p, hp, hc⟩
    · exact absurd (by rw [e]) hne
    · exact ⟨p, hp, hc, hall p hp (List.mem_map.mpr ⟨t, hc, rfl⟩)⟩
  · exact getParentIn_none root t.addr (by rw [e]; exact (List.nodup_cons.mp hd').1)
  · refine getParentIn_none root t.addr (fun h => hout ?_)
    rw [addrsOf_preorder]
    exact List.mem_cons_of_mem _ h

/-- C23 on the tree of the test `testTreeGetParent`: the parent of the child is
the root, the parent of the grandchild is the child, and the root has none. -/
theorem TreeGetParent_unique_witness :
    TreeGetParent
        (some ⟨1, .window, some "root", 0, none,
          [⟨2, .button, some "child", 0, none,
            [⟨3, .label, some "grandchild", 0, none, []⟩]⟩]⟩)
        (some ⟨3, .label, some "grandchild", 0, none, []⟩)
      = some ⟨2, .button, some "child", 0, none,
          [⟨3, .label, some "grandchild", 0, none, []⟩]⟩ ∧
    TreeGetParent
        (some ⟨1, .window, some "root", 0, none,
          [⟨2, .button, some "child", 0, none,
            [⟨3, .label, some "grandchild", 0, none, []⟩]⟩]⟩)
        (some ⟨1, .window, some "root", 0, none,
          [⟨2, .button, some "child", 0, none,
            [⟨3, .label, some "grandchild", 0, none, []⟩]⟩]⟩)
      = none :=
  ⟨(TreeGetParent_unique
      ⟨1, .window, some "root", 0, none,
        [⟨2, .button, some "child", 0, none, [⟨3, .label, some "grandchild", 0, none, []⟩]⟩]⟩
      ⟨3, .label, some "grandchild", 0, none, []⟩
      (by simp [DistinctNodes, addrsOf, preorder, preorderList])).1
      ⟨2, .button, some "child", 0, none, [⟨3, .label, some "grandchild", 0, none, []⟩]⟩
      (by simp [preorder, preorderList]) (by simp [addrsOf]),
   (TreeGetParent_unique
      ⟨1, .window, some "root", 0, none,
        [⟨2, .button, some "child", 0, none, [⟨3, .label, some "grandchild", 0, none, []⟩]⟩]⟩
      ⟨1, .window, some "root", 0, none,
        [⟨2, .button, some "child", 0, none, [⟨3, .label, some "grandchild", 0, none, []⟩]⟩]⟩
      (by simp [DistinctNodes, addrsOf, preorder, preorderList])).2.2.1 rfl⟩


/-! ## `TreeUpdateNode` -/

theorem storeIn_eq (t : Tree) (id : String) (new : Tree) :
    storeIn t id new
      = if t.id = some id then new
        else ⟨t.addr, t.type, t.id, t.widget, t.attributes, storeFrom t.children id new⟩ := by
  cases t; simp [storeIn]

theorem idsOf_preorder (x : Tree) :
    idsOf (preorder x) = x.id :: idsOf (preorderList x.children) := by
  rw [preorder_eq]; rfl

theorem idsOf_preorderList_cons (c : Tree) (rest : List Tree) :
    idsOf (preorderList (c :: rest)) = idsOf (preorder c) ++ idsOf (preorderList rest) := by
  simp [preorderList, idsOf]

/-- The search finds a node exactly when the identifier is in the tree. -/
theorem getNodeIn_isSome_iff (t : Tree) (id : String) (h : ∀ n ∈ preorder t, n.id ≠ none) :
    (∃ node, getNodeIn t id = some (some node)) ↔ some id ∈ idsOf (preorder t) := by
  rw [getNodeIn_find t id h]
  constructor
  · rintro ⟨node, e⟩
    simp only [Option.some.injEq] at e
    have h1 := List.mem_of_find?_eq_some e
    have h2 := List.find?_some e
    simp only [Tree.hasId, decide_eq_true_eq] at h2
    exact List.mem_map.mpr ⟨node, h1, h2⟩
  · intro hmem
    obtain ⟨n, hn, e⟩ := List.mem_map.mp hmem
    cases hf : (preorder t).find? (Tree.hasId id) with
    | none =>
      have := List.find?_eq_none.mp hf n hn
      simp [Tree.hasId, e] at this
    | some node => exact ⟨node, rfl⟩

mutual
/-- The write replaces, in the list of the identifiers of the tree, the
identifiers of the subtree of one node that has the identifier looked for by
those of the new node, and leaves the identifiers before and after as they
were. -/
theorem storeIn_ids : ∀ (t : Tree) (id : String) (new : Tree),
    (∀ n ∈ preorder t, n.id ≠ none) → some id ∈ idsOf (preorder t) →
    ∃ pre post n, n ∈ preorder t ∧ n.id = some id ∧
      idsOf (preorder t) = pre ++ (idsOf (preorder n) ++ post) ∧
      idsOf (preorder (storeIn t id new)) = pre ++ (idsOf (preorder new) ++ post)
  | ⟨addr, type, pid, widget, attributes, children⟩, id, new, hid, hmem => by
    rw [storeIn_eq]
    by_cases hp : pid = some id
    · refine ⟨[], [], ⟨addr, type, pid, widget, attributes, children⟩, mem_preorder_self _, hp,
        by simp, ?_⟩
      simp [hp]
    · have hl : ∀ n ∈ preorderList children, n.id ≠ none := fun n hn =>
        hid n (by rw [preorder_eq]; exact List.mem_cons_of_mem _ hn)
      have hmem' : some id ∈ idsOf (preorderList children) := by
        rw [idsOf_preorder] at hmem
        exact (List.mem_cons.mp hmem).resolve_left (fun e => hp e.symm)
      obtain ⟨pre, post, n, hnm, hn, e₁, e₂⟩ := storeFrom_ids children id new hl hmem'
      refine ⟨pid :: pre, post, n, by rw [preorder_eq]; exact List.mem_cons_of_mem _ hnm, hn,
        ?_, ?_⟩
      · rw [idsOf_preorder, List.cons_append]
        exact congrArg _ e₁
      · simp only [if_neg hp]
        rw [idsOf_preorder, List.cons_append]
        exact congrArg _ e₂
theorem storeFrom_ids : ∀ (l : List Tree) (id : String) (new : Tree),
    (∀ n ∈ preorderList l, n.id ≠ none) → some id ∈ idsOf (preorderList l) →
    ∃ pre post n, n ∈ preorderList l ∧ n.id = some id ∧
      idsOf (preorderList l) = pre ++ (idsOf (preorder n) ++ post) ∧
      idsOf (preorderList (storeFrom l id new)) = pre ++ (idsOf (preorder new) ++ post)
  | [], _, _, _, hmem => by simp [preorderList, idsOf] at hmem
  | c :: rest, id, new, hid, hmem => by
    have hc : ∀ n ∈ preorder c, n.id ≠ none := fun n hn =>
      hid n (by simp only [preorderList]; exact List.mem_append_left _ hn)
    have hr : ∀ n ∈ preorderList rest, n.id ≠ none := fun n hn =>
      hid n (by simp only [preorderList]; exact List.mem_append_right _ hn)
    by_cases hin : some id ∈ idsOf (preorder c)
    · obtain ⟨node, hnode⟩ := (getNodeIn_isSome_iff c id hc).mpr hin
      obtain ⟨pre, post, n, hnm, hn, e₁, e₂⟩ := storeIn_ids c id new hc hin
      refine ⟨pre, post ++ idsOf (preorderList rest), n,
        by simp only [preorderList]; exact List.mem_append_left _ hnm, hn, ?_, ?_⟩
      · rw [idsOf_preorderList_cons, e₁]; simp
      · simp only [storeFrom, hnode]
        rw [idsOf_preorderList_cons, e₂]; simp
    · have hnone : getNodeIn c id = some none := by
        rw [getNodeIn_find c id hc]
        cases hf : (preorder c).find? (Tree.hasId id) with
        | none => rfl
        | some node =>
          exact absurd ((getNodeIn_isSome_iff c id hc).mp
            ⟨node, by rw [getNodeIn_find c id hc, hf]⟩) hin
      have hmem' : some id ∈ idsOf (preorderList rest) := by
        rw [idsOf_preorderList_cons] at hmem
        exact (List.mem_append.mp hmem).resolve_left hin
      obtain ⟨pre, post, n, hnm, hn, e₁, e₂⟩ := storeFrom_ids rest id new hr hmem'
      refine ⟨idsOf (preorder c) ++ pre, post, n,
        by simp only [preorderList]; exact List.mem_append_right _ hnm, hn, ?_, ?_⟩
      · rw [idsOf_preorderList_cons, e₁]; simp
      · simp only [storeFrom, hnone]
        rw [idsOf_preorderList_cons, e₂]; simp
end


theorem identified_iff (t : Tree) : Identified t ↔ none ∉ idsOf (preorder t) := by
  unfold Identified idsOf
  constructor
  · intro h hmem
    obtain ⟨n, hn, e⟩ := List.mem_map.mp hmem
    exact h n hn e
  · intro h n hn e
    exact h (List.mem_map.mpr ⟨n, hn, e⟩)

theorem updatedNode_ids (copy : Option HashMap → Option HashMap) (node newChild : Tree) :
    idsOf (preorder (updatedNode copy node newChild))
      = newChild.id :: idsOf (preorderList
          (match newChild.children with
            | [] => node.children
            | child :: next => child :: next)) := by
  rw [idsOf_preorder]; rfl

/-- In the tree left by an update that found its node, the identifiers are
those before and after the subtree of that node, the identifier of `newChild`,
and those below the node written: the ones it had when `newChild` has no
children, the ones below `newChild` otherwise. -/
theorem update_ids (copy : Option HashMap → Option HashMap) (root newChild node : Tree)
    (id : String) (hid : Identified root) (hdist : DistinctIds root)
    (hnode : TreeGetNode (some root) (some id) = some (some node)) :
    ∃ pre post below,
      idsOf (preorder (storeIn root id (updatedNode copy node newChild)))
        = pre ++ ((newChild.id :: below) ++ post) ∧
      (∀ x ∈ pre, x ≠ none ∧ x ≠ some id) ∧ (∀ x ∈ post, x ≠ none ∧ x ≠ some id) ∧
      (below = idsOf (preorderList newChild.children) ∨
        (newChild.children = [] ∧ ∀ x ∈ below, x ≠ none ∧ x ≠ some id)) := by
  have hfound : getNodeIn root id = some (some node) := hnode
  have hin : some id ∈ idsOf (preorder root) := (getNodeIn_isSome_iff root id hid).mp ⟨node, hfound⟩
  rw [getNodeIn_find root id hid] at hfound
  simp only [Option.some.injEq] at hfound
  have hnm : node ∈ preorder root := List.mem_of_find?_eq_some hfound
  have hnid : node.id = some id := by
    have := List.find?_some hfound
    simpa [Tree.hasId] using this
  obtain ⟨pre, post, n, hn, hnid', e₁, e₂⟩ :=
    storeIn_ids root id (updatedNode copy node newChild) hid hin
  have hnn : n = node :=
    List.inj_on_of_nodup_map hdist hn hnm (by rw [hnid, hnid'])
  subst hnn
  have hnone : none ∉ idsOf (preorder root) := (identified_iff root).mp hid
  have hd : (pre ++ (some id :: (idsOf (preorderList n.children) ++ post))).Nodup := by
    have := hdist
    unfold DistinctIds at this
    rw [e₁, idsOf_preorder, hnid] at this
    simpa using this
  rw [e₁, idsOf_preorder, hnid] at hnone
  obtain ⟨_, hd₂, hdis⟩ := List.nodup_append.mp hd
  have hd₃ := (List.nodup_cons.mp hd₂).1
  refine ⟨pre, post, idsOf (preorderList
      (match newChild.children with
        | [] => n.children
        | child :: next => child :: next)), ?_, ?_, ?_, ?_⟩
  · rw [e₂, updatedNode_ids]
  · intro x hx
    exact ⟨fun e => hnone (by rw [← e]; exact List.mem_append_left _ hx),
      fun e => hdis hx (by rw [e]; exact List.mem_cons_self _ _)⟩
  · intro x hx
    exact ⟨fun e => hnone (by rw [← e]; simp [hx]),
      fun e => hd₃ (by rw [← e]; exact List.mem_append_right _ hx)⟩
  · cases hc : newChild.children with
    | nil =>
      right
      refine ⟨rfl, fun x hx => ?_⟩
      exact ⟨fun e => hnone (by rw [← e]; simp [hx]),
        fun e => hd₃ (by rw [← e]; exact List.mem_append_left _ hx)⟩
    | cons child next => exact Or.inl rfl


theorem TreeGetNode_none_iff (t : Tree) (id : String) (h : Identified t) :
    TreeGetNode (some t) (some id) = some none ↔ some id ∉ idsOf (preorder t) := by
  rw [← getNodeIn_isSome_iff t id h]
  show getNodeIn t id = some none ↔ _
  rw [getNodeIn_find t id h]
  cases (preorder t).find? (Tree.hasId id) <;> simp

/-- C22, as amended: `TreeUpdateNode` renames the target. For every tree whose
nodes carry pairwise distinct identifiers and every `newChild` whose nodes
carry identifiers, the one of `newChild` differing from every identifier of
the tree and those of the nodes below `newChild` differing from `id`: if a
node of the tree has the identifier `id`, `TreeUpdateNode(root, id, newChild)`
returns 1, `newChild` is left without children, and afterwards
`TreeGetNode(root, newChild's id)` is not `NULL` while `TreeGetNode(root, id)`
is `NULL`; if no node of the tree has the identifier `id`, it returns -1 and
the tree and `newChild` are unchanged. -/
theorem TreeUpdateNode_renames (HashMapGetCopy : Option HashMap → Option HashMap)
    (root newChild : Tree) (id newId : String) (hid : Identified root)
    (hnew : Identified newChild) (hdist : DistinctIds root) (hname : newChild.id = some newId)
    (hfresh : some newId ∉ idsOf (preorder root))
    (hbelow : some id ∉ idsOf (preorderList newChild.children)) :
    (some id ∈ idsOf (preorder root) →
      ∃ root', TreeUpdateNode HashMapGetCopy (some root) (some id) (some newChild)
          = some (1, some root', some (newChild.withChildren [])) ∧
        (∃ n, TreeGetNode (some root') (some newId) = some (some n)) ∧
        TreeGetNode (some root') (some id) = some none) ∧
    (some id ∉ idsOf (preorder root) →
      TreeUpdateNode HashMapGetCopy (some root) (some id) (some newChild)
        = some (-1, some root, some newChild)) := by
  refine ⟨fun hin => ?_, fun hout => ?_⟩
  · obtain ⟨node, hnode⟩ := (getNodeIn_isSome_iff root id hid).mpr hin
    have hnode' : TreeGetNode (some root) (some id) = some (some node) := hnode
    obtain ⟨pre, post, below, e, hpre, hpost, hb⟩ :=
      update_ids HashMapGetCopy root newChild node id hid hdist hnode'
    have hne : newId ≠ id := fun h => hfresh (h ▸ hin)
    have hnewnone : none ∉ idsOf (preorder newChild) := (identified_iff newChild).mp hnew
    rw [idsOf_preorder] at hnewnone
    have hbelow' : ∀ x ∈ below, x ≠ none ∧ x ≠ some id := by
      intro x hx
      rcases hb with hb | ⟨_, hb⟩
      · subst hb
        exact ⟨fun h => hnewnone (by rw [← h]; exact List.mem_cons_of_mem _ hx),
          fun h => hbelow (by rw [← h]; exact hx)⟩
      · exact hb x hx
    have hall : ∀ x ∈ idsOf (preorder (storeIn root id
        (updatedNode HashMapGetCopy node newChild))), x ≠ none ∧ x ≠ some id := by
      intro x hx
      rw [e] at hx
      simp only [List.mem_append, List.mem_cons] at hx
      rcases hx with h | (h | h) | h
      · exact hpre x h
      · rw [h, hname]
        exact ⟨by simp, by simpa using hne⟩
      · exact hbelow' x h
      · exact hpost x h
    have hid' : Identified (storeIn root id (updatedNode HashMapGetCopy node newChild)) :=
      (identified_iff _).mpr (fun h => (hall none h).1 rfl)
    refine ⟨storeIn root id (updatedNode HashMapGetCopy node newChild), ?_, ?_, ?_⟩
    · simp only [TreeUpdateNode, hnode']
    · refine (getNodeIn_isSome_iff _ newId hid').mpr ?_
      rw [e, hname]
      simp
    · exact (TreeGetNode_none_iff _ id hid').mpr (fun h => (hall _ h).2 rfl)
  · have h := (TreeGetNode_none_iff root id hid).mpr hout
    simp only [TreeUpdateNode, h]

/-- C22 as stated fails on the tree `root` with the child `old` and the
`newChild` `new` that has a child `old`: the identifiers of the tree are
pairwise distinct, `new` differs from them, the update of `old` returns 1, and
`TreeGetNode(root, "old")` afterwards is not `NULL`. -/
theorem TreeUpdateNode_counterexample :
    DistinctIds ⟨1, .window, some "root", 0, none, [⟨2, .box, some "old", 0, none, []⟩]⟩ ∧
    some "new" ∉ idsOf (preorder
      ⟨1, .window, some "root", 0, none, [⟨2, .box, some "old", 0, none, []⟩]⟩) ∧
    ∀ HashMapGetCopy : Option HashMap → Option HashMap,
      TreeUpdateNode HashMapGetCopy
          (some ⟨1, .window, some "root", 0, none, [⟨2, .box, some "old", 0, none, []⟩]⟩)
          (some "old")
          (some ⟨3, .label, some "new", 0, none, [⟨4, .button, some "old", 0, none, []⟩]⟩)
        = some (1,
            some ⟨1, .window, some "root", 0, none,
              [⟨2, .box, some "new", 0, HashMapGetCopy none,
                [⟨4, .button, some "old", 0, none, []⟩]⟩]⟩,
            some ⟨3, .label, some "new", 0, none, []⟩) ∧
      TreeGetNode
          (some ⟨1, .window, some "root", 0, none,
            [⟨2, .box, some "new", 0, HashMapGetCopy none,
              [⟨4, .button, some "old", 0, none, []⟩]⟩]⟩)
          (some "old")
        = some (some ⟨4, .button, some "old", 0, none, []⟩) := by
  refine ⟨by simp [DistinctIds, idsOf, preorder, preorderList],
    by simp [idsOf, preorder, preorderList], fun copy => ⟨?_, ?_⟩⟩
  · simp [TreeUpdateNode, TreeGetNode, getNodeIn, getNodeFrom, storeIn, storeFrom, updatedNode,
      Tree.withChildren]
  · simp [TreeGetNode, getNodeIn, getNodeFrom]

/-- C22, as amended, on the first update of the test `testTreeUpdateNode`: the
node `old` of the tree `root` is updated with the leaf `new`. -/
theorem TreeUpdateNode_renames_witness :
    ∃ root', TreeUpdateNode (fun m => m)
        (some ⟨1, .window, some "root", 0, none, [⟨2, .box, some "old", 0, none, []⟩]⟩)
        (some "old") (some ⟨3, .label, some "new", 0, none, []⟩)
      = some (1, some root', some (Tree.withChildren ⟨3, .label, some "new", 0, none, []⟩ [])) ∧
      (∃ n, TreeGetNode (some root') (some "new") = some (some n)) ∧
      TreeGetNode (some root') (some "old") = some none :=
  (TreeUpdateNode_renames (fun m => m)
    ⟨1, .window, some "root", 0, none, [⟨2, .box, some "old", 0, none, []⟩]⟩
    ⟨3, .label, some "new", 0, none, []⟩ "old" "new"
    (by simp [Identified, preorder, preorderList])
    (by simp [Identified, preorder, preorderList])
    (by simp [DistinctIds, idsOf, preorder, preorderList]) rfl
    (by simp [idsOf, preorder, preorderList])
    (by simp [idsOf, preorderList])).1 (by simp [idsOf, preorder, preorderList])


/-! ## The representation of a map -/

/-- C33: the representation invariant of the map. Every map built from
`HashMapNew` by any sequence of calls of `HashMapPut` and `HashMapRemove` holds
pairwise distinct keys, and its field `size`, which is what `HashMapSize`
returns, is the number of its entries: it is not negative, and it is the
number of distinct keys present. -/
theorem hashMap_invariant (m : HashMap) (hb : Built m) :
    (keysOf m.head).Nodup ∧
    HashMapSize (some m) = m.head.length ∧
    0 ≤ HashMapSize (some m) ∧
    HashMapSize (some m) = (keysOf m.head).toFinset.card := by
  obtain ⟨hnd, hsize⟩ := invariant_of_built m hb
  have hs : HashMapSize (some m) = m.head.length := hsize
  refine ⟨hnd, hs, ?_, ?_⟩
  · rw [hs]; exact Int.natCast_nonneg _
  · rw [hs, List.toFinset_card_of_nodup hnd]
    simp [keysOf]

/-- C33 on the map left by `HashMapPut` of `key1`, `HashMapPut` of `key2`, a
second `HashMapPut` of `key1` and `HashMapRemove` of `key2`. -/
theorem hashMap_invariant_witness :
    (keysOf (HashMap.mk 1 [⟨"key1", "other"⟩]).head).Nodup ∧
    HashMapSize (some ⟨1, [⟨"key1", "other"⟩]⟩) = 1 :=
  ⟨(hashMap_invariant ⟨1, [⟨"key1", "other"⟩]⟩
      (Built.remove ⟨2, [⟨"key2", "value2"⟩, ⟨"key1", "other"⟩]⟩ _ (some "key2") 1
        (Built.put ⟨2, [⟨"key2", "value2"⟩, ⟨"key1", "value1"⟩]⟩ _ (some "key1")
          (some "other") 0 built_two_keys (by decide))
        (by decide))).1,
   (hashMap_invariant ⟨1, [⟨"key1", "other"⟩]⟩
      (Built.remove ⟨2, [⟨"key2", "value2"⟩, ⟨"key1", "other"⟩]⟩ _ (some "key2") 1
        (Built.put ⟨2, [⟨"key2", "value2"⟩, ⟨"key1", "value1"⟩]⟩ _ (some "key1")
          (some "other") 0 built_two_keys (by decide))
        (by decide))).2.1⟩

/-! ## The other keys of a map -/

/-- The value held under another key is not touched by the removal loop. -/
theorem getFrom_removeAfter_ne (l l' : List Node) (key other : String) (hne : other ≠ key)
    (h : removeAfter l key = some l') : getFrom l' other = getFrom l other := by
  induction l generalizing l' with
  | nil => simp [removeAfter] at h
  | cons n l ih =>
    unfold removeAfter at h
    by_cases hk : n.key = key
    · rw [if_pos hk] at h
      simp only [Option.some.injEq] at h
      subst h
      have : ¬ n.key = other := fun e => hne (e ▸ hk)
      simp [getFrom, this]
    · rw [if_neg hk] at h
      cases hu : removeAfter l key with
      | none => rw [hu] at h; simp at h
      | some l'' =>
        rw [hu] at h
        simp only [Option.map_some', Option.some.injEq] at h
        subst h
        simp [getFrom, ih l'' hu]

/-- C34: the operations on one key do not disturb the other keys. For every
map `m`, all keys `k` and `k'` with `k'` different from `k` and every value
`v`, `HashMapGet(m, k')` yields after `HashMapPut(m, k, v)` what it yielded
before (the same string, or `NULL`), whether `k` was present or not; and on a
map that is not empty `HashMapRemove(m, k)` returns, and `HashMapGet(m, k')`
yields afterwards what it yielded before. -/
theorem other_keys_kept (m : HashMap) (k k' v : String) (hne : k' ≠ k) :
    HashMapGet (HashMapPut (some m) (some k) (some v)).2 (some k')
      = HashMapGet (some m) (some k') ∧
    (m.head ≠ [] →
      ∃ r m', HashMapRemove (some m) (some k) = some (r, some m') ∧
        HashMapGet (some m') (some k') = HashMapGet (some m) (some k')) := by
  constructor
  · rcases containsKeyFrom_eq_zero_or_one m.head k with hk | hk
    · have hk' : HashMapContainsKey (some m) (some k) = 0 := hk
      have e : HashMapPut (some m) (some k) (some v)
          = (1, some ⟨m.size + 1, ⟨k, v⟩ :: m.head⟩) := by
        simp only [HashMapPut, hk']
        rfl
      rw [e]
      have : ¬ k = k' := fun h => hne h.symm
      simp [HashMapGet, getFrom, this]
    · have hk' : HashMapContainsKey (some m) (some k) = 1 := hk
      obtain ⟨l', e, _, _, _⟩ :=
        updateFrom_of_mem m.head k v ((containsKeyFrom_eq_one_iff m.head k).mp hk)
      have e' : HashMapPut (some m) (some k) (some v) = (0, some ⟨m.size, l'⟩) := by
        simp only [HashMapPut, hk', e]
        rfl
      rw [e']
      exact getFrom_updateFrom_ne m.head l' k v k' hne e
  · intro hhead
    rw [HashMapRemove_of_ne_nil m k hhead]
    cases hr : removeAfter m.head k with
    | none => exact ⟨0, m, rfl, rfl⟩
    | some l => exact ⟨1, ⟨m.size - 1, l⟩, rfl, getFrom_removeAfter_ne m.head l k k' hne hr⟩

/-- C34 on the map that holds `key2` and `key1`: `key2` reads the same after
`HashMapPut` and after `HashMapRemove` of `key1`. -/
theorem other_keys_kept_witness :
    HashMapGet (HashMapPut (some ⟨2, [⟨"key2", "value2"⟩, ⟨"key1", "value1"⟩]⟩) (some "key1")
      (some "new_value")).2 (some "key2") = some "value2" ∧
    ∃ r m', HashMapRemove (some ⟨2, [⟨"key2", "value2"⟩, ⟨"key1", "value1"⟩]⟩) (some "key1")
        = some (r, some m') ∧
      HashMapGet (some m') (some "key2") = some "value2" :=
  ⟨(other_keys_kept ⟨2, [⟨"key2", "value2"⟩, ⟨"key1", "value1"⟩]⟩ "key1" "key2" "new_value"
      (by decide)).1,
   (other_keys_kept ⟨2, [⟨"key2", "value2"⟩, ⟨"key1", "value1"⟩]⟩ "key1" "key2" "new_value"
      (by decide)).2 (by decide)⟩


/-! ## The node written by `TreeUpdateNode` -/

theorem widgetType.toInt_injective (a b : widgetType) (h : a.toInt = b.toInt) : a = b := by
  cases a <;> cases b <;> first | rfl | exact absurd h (by decide)

theorem getNodeIn_none_of_not_mem (t : Tree) (id : String) (h : ∀ n ∈ preorder t, n.id ≠ none)
    (hout : some id ∉ idsOf (preorder t)) : getNodeIn t id = some none :=
  (TreeGetNode_none_iff t id h).mpr hout

mutual
/-- After the write, the search for the identifier of the new node, which no
node of the tree had, stops at the new node. -/
theorem getNodeIn_storeIn : ∀ (t : Tree) (id newId : String) (new : Tree),
    (∀ n ∈ preorder t, n.id ≠ none) → some id ∈ idsOf (preorder t) →
    some newId ∉ idsOf (preorder t) → new.id = some newId →
    getNodeIn (storeIn t id new) newId = some (some new)
  | ⟨addr, type, pid, widget, attributes, children⟩, id, newId, new, hid, hin, hfresh, hnew => by
    rw [storeIn_eq]
    by_cases hp : pid = some id
    · simp only [if_pos hp]
      rw [getNodeIn_eq, hnew]
      simp
    · simp only [if_neg hp]
      rw [idsOf_preorder] at hin hfresh
      have hin' : some id ∈ idsOf (preorderList children) :=
        (List.mem_cons.mp hin).resolve_left (fun e => hp e.symm)
      have hl : ∀ n ∈ preorderList children, n.id ≠ none := fun n hn =>
        hid n (by rw [preorder_eq]; exact List.mem_cons_of_mem _ hn)
      have hroot := hid _ (mem_preorder_self _)
      have ih := getNodeFrom_storeFrom children id newId new hl hin'
        (fun h => hfresh (List.mem_cons_of_mem _ h)) hnew
      rw [getNodeIn_eq]
      cases pid with
      | none => exact absurd rfl hroot
      | some p =>
        have hpn : p ≠ newId := fun e => hfresh (by rw [e]; exact List.mem_cons_self _ _)
        simp only [if_neg hpn]
        exact ih
theorem getNodeFrom_storeFrom : ∀ (l : List Tree) (id newId : String) (new : Tree),
    (∀ n ∈ preorderList l, n.id ≠ none) → some id ∈ idsOf (preorderList l) →
    some newId ∉ idsOf (preorderList l) → new.id = some newId →
    getNodeFrom (storeFrom l id new) newId = some (some new)
  | [], _, _, _, _, hin, _, _ => by simp [preorderList, idsOf] at hin
  | c :: rest, id, newId, new, hid, hin, hfresh, hnew => by
    have hc : ∀ n ∈ preorder c, n.id ≠ none := fun n hn =>
      hid n (by simp only [preorderList]; exact List.mem_append_left _ hn)
    have hr : ∀ n ∈ preorderList rest, n.id ≠ none := fun n hn =>
      hid n (by simp only [preorderList]; exact List.mem_append_right _ hn)
    rw [idsOf_preorderList_cons] at hin hfresh
    have hfc : some newId ∉ idsOf (preorder c) := fun h => hfresh (List.mem_append_left _ h)
    have hfr : some newId ∉ idsOf (preorderList rest) :=
      fun h => hfresh (List.mem_append_right _ h)
    by_cases hinc : some id ∈ idsOf (preorder c)
    · obtain ⟨node, hnode⟩ := (getNodeIn_isSome_iff c id hc).mpr hinc
      have ih := getNodeIn_storeIn c id newId new hc hinc hfc hnew
      simp only [storeFrom, hnode, getNodeFrom]
      by_cases hcid : c.id = some id
      · have e : storeIn c id new = new := by rw [storeIn_eq, if_pos hcid]
        rw [e, hnew]
        simp
      · have e : (storeIn c id new).id = c.id := by rw [storeIn_eq, if_neg hcid]
        have hcroot := hc _ (mem_preorder_self _)
        rw [e]
        cases hci : c.id with
        | none => exact absurd hci hcroot
        | some cid =>
          have hne : cid ≠ newId := by
            intro h
            apply hfc
            rw [idsOf_preorder, hci, h]
            exact List.mem_cons_self _ _
          simp only [if_neg hne, ih]
    · have hnone : getNodeIn c id = some none := getNodeIn_none_of_not_mem c id hc hinc
      have hnone' : getNodeIn c newId = some none := getNodeIn_none_of_not_mem c newId hc hfc
      have hin' : some id ∈ idsOf (preorderList rest) :=
        (List.mem_append.mp hin).resolve_left hinc
      have ih := getNodeFrom_storeFrom rest id newId new hr hin' hfr hnew
      have hcroot := hc _ (mem_preorder_self _)
      simp only [storeFrom, hnone, getNodeFrom]
      cases hci : c.id with
      | none => exact absurd hci hcroot
      | some cid =>
        have hne : cid ≠ newId := by
          intro h
          apply hfc
          rw [idsOf_preorder, hci, h]
          exact List.mem_cons_self _ _
        simp only [if_neg hne, hnone', ih]
end


/-- C31 (the code departs from it): `TreeUpdateNode` does not give the node the
type of `newChild`. On a tree whose nodes carry identifiers, one of them `id`,
and for a `newChild` whose identifier is none of those of the tree,
`TreeUpdateNode(root, id, newChild)` returns 1 and the node then found under
the identifier of `newChild` is the node that had the identifier `id`, at the
same address, with the identifier and the widget of `newChild` and with the
type it had before: `TreeGetType` of it differs from `TreeGetType(newChild)`
whenever the two types differed. -/
theorem TreeUpdateNode_keeps_type (HashMapGetCopy : Option HashMap → Option HashMap)
    (root newChild : Tree) (id newId : String) (hid : Identified root)
    (hname : newChild.id = some newId) (hfresh : some newId ∉ idsOf (preorder root))
    (hin : some id ∈ idsOf (preorder root)) :
    ∃ node root' n,
      TreeGetNode (some root) (some id) = some (some node) ∧
      TreeUpdateNode HashMapGetCopy (some root) (some id) (some newChild)
        = some (1, some root', some (newChild.withChildren [])) ∧
      TreeGetNode (some root') (some newId) = some (some n) ∧
      n.addr = node.addr ∧
      TreeGetId (some n) = TreeGetId (some newChild) ∧
      n.widget = newChild.widget ∧
      TreeGetType (some n) = TreeGetType (some node) ∧
      (node.type ≠ newChild.type → TreeGetType (some n) ≠ TreeGetType (some newChild)) := by
  obtain ⟨node, hnode⟩ := (getNodeIn_isSome_iff root id hid).mpr hin
  have hnode' : TreeGetNode (some root) (some id) = some (some node) := hnode
  refine ⟨node, storeIn root id (updatedNode HashMapGetCopy node newChild),
    updatedNode HashMapGetCopy node newChild, hnode', ?_, ?_, rfl, rfl, rfl, rfl, fun hne h => ?_⟩
  · simp only [TreeUpdateNode, hnode']
  · exact getNodeIn_storeIn root id newId _ hid hin hfresh hname
  · exact hne (widgetType.toInt_injective _ _ h)

/-- C31 at the update of the test `testTreeUpdateNode`, the `box` node `old`
updated with the `label` node `new`: the node found under `new` is a `box`. -/
theorem TreeUpdateNode_keeps_type_witness :
    TreeUpdateNode (fun m => m)
        (some ⟨1, .window, some "root", 0, none, [⟨2, .box, some "old", 0, none, []⟩]⟩)
        (some "old") (some ⟨3, .label, some "new", 7, none, []⟩)
      = some (1,
          some ⟨1, .window, some "root", 0, none, [⟨2, .box, some "new", 7, none, []⟩]⟩,
          some ⟨3, .label, some "new", 7, none, []⟩) ∧
    TreeGetType (TreeGetNode
        (some ⟨1, .window, some "root", 0, none, [⟨2, .box, some "new", 7, none, []⟩]⟩)
        (some "new")).join = widgetType.box.toInt ∧
    TreeGetType (some ⟨3, .label, some "new", 7, none, []⟩) = widgetType.label.toInt ∧
    ∃ node root' n,
      TreeGetNode
          (some ⟨1, .window, some "root", 0, none, [⟨2, .box, some "old", 0, none, []⟩]⟩)
          (some "old") = some (some node) ∧
      TreeUpdateNode (fun m => m)
          (some ⟨1, .window, some "root", 0, none, [⟨2, .box, some "old", 0, none, []⟩]⟩)
          (some "old") (some ⟨3, .label, some "new", 7, none, []⟩)
        = some (1, some root',
            some (Tree.withChildren ⟨3, .label, some "new", 7, none, []⟩ [])) ∧
      TreeGetNode (some root') (some "new") = some (some n) ∧
      TreeGetType (some n) = TreeGetType (some node) :=
  ⟨by simp [TreeUpdateNode, TreeGetNode, getNodeIn, getNodeFrom, storeIn, storeFrom,
      updatedNode, Tree.withChildren],
   by simp [TreeGetNode, getNodeIn, getNodeFrom, TreeGetType],
   rfl,
   by
    obtain ⟨node, root', n, h1, h2, h3, _, _, _, h7, _⟩ :=
      TreeUpdateNode_keeps_type (fun m => m)
        ⟨1, .window, some "root", 0, none, [⟨2, .box, some "old", 0, none, []⟩]⟩
        ⟨3, .label, some "new", 7, none, []⟩ "old" "new"
        (by simp [Identified, preorder, preorderList]) rfl
        (by simp [idsOf, preorder, preorderList]) (by simp [idsOf, preorder, preorderList])
    exact ⟨node, root', n, h1, h2, h3, h7⟩⟩

end DataStructure
